import Mathlib

/-!
# Indexed d-ary min-priority queue (package `minpq`)

A shallow embedding of `src/minpq/minpq.go` and a verification of its specification.

Modelling conventions.

* A Go value of type `interface{}` is an element of a type `V` with decidable equality;
  `default : V` stands for the `nil` interface value.
* Priorities are `float32` in the source.  Only the comparisons `<` and `>` are applied to
  them, and on the floats other than NaN these form a total order; priorities are modelled
  by `Int`.
* The method `parent` computes in `float32`.  Its three operations are modelled on natural
  numbers with the rounding of a 24-bit significand (`f32OfNat`, `f32DivTrunc`).  The
  result is `floor((ind-1)/d)` for slot numbers up to 2^24 (`parent_eq_floorParent`) and
  differs beyond, first at slot 2^24 + 1 of a binary queue.  The results on heap-order
  that go through `heapUp` are therefore stated for slices of up to 2^24 + 1 nodes; the
  queues `slotQueue` show what happens beyond.
* Go `int` slot numbers are natural numbers (a slot number is bounded by the slice length).
* A slice of nodes is a `List`; its `len` is `List.length`.  The capacity is not observable.
* A Go map is a function into `Option`; reading a missing key yields the zero value `0`.
* A run-time panic (index out of range) is the result `Except.error Fault.indexOutOfRange`.
  The two recursive procedures take a recursion budget computed from the state; running
  out of it is the distinct result `Except.error Fault.outOfFuel`.
-/

namespace minpq

/-- Ways in which a modelled call can fail to return. -/
inductive Fault where
  | indexOutOfRange
  | outOfFuel
  deriving DecidableEq, Repr

/-- The struct `node`: a value and its priority. -/
structure node (V : Type) where
  val : V
  priority : Int
  deriving DecidableEq, Repr

/-- The struct `MinPQ`. -/
structure MinPQ (V : Type) where
  heapDegree : Nat
  heap : List (node V)
  indices : V → Option Nat
  size : Nat

section Model

variable {V : Type} [DecidableEq V]

/-- Read `h[i]`, with Go's bounds check. -/
def load (h : List (node V)) (i : Nat) : Except Fault (node V) :=
  match h[i]? with
  | some n => .ok n
  | none => .error .indexOutOfRange

/-- Write `h[i] = n`, with Go's bounds check. -/
def store (h : List (node V)) (i : Nat) (n : node V) : Except Fault (List (node V)) :=
  if i < h.length then .ok (h.set i n) else .error .indexOutOfRange

/-- Read `m[k]` as an rvalue: the zero value for a missing key. -/
def mapGet (m : V → Option Nat) (k : V) : Nat :=
  (m k).getD 0

/-- The map after `m[k] = i`. -/
def mapSet (m : V → Option Nat) (k : V) (i : Nat) : V → Option Nat :=
  fun x => if x = k then some i else m x

/-- The map after `delete(m, k)`. -/
def mapDelete (m : V → Option Nat) (k : V) : V → Option Nat :=
  fun x => if x = k then none else m x

/-- The parallel assignment `m[a], m[b] = m[b], m[a]`: both right-hand sides are read
first, then the two stores happen left to right. -/
def mapSwap (m : V → Option Nat) (a b : V) : V → Option Nat :=
  mapSet (mapSet m a (mapGet m b)) b (mapGet m a)

/-! ### float32 arithmetic on slot numbers

The source computes `parent` in `float32`.  The three operations it uses (conversion of an
`int`, subtraction of 1, division followed by conversion back to `int`) are modelled on
natural numbers: a float32 has a 24-bit significand and every operation rounds to the
nearest representable number, ties to the even significand. -/

/-- The nearest integer to `num / den`, ties to the even one (`den ≠ 0`). -/
def roundHalfEven (num den : Nat) : Nat :=
  let q := num / den
  let r := num % den
  if 2 * r < den then q
  else if den < 2 * r then q + 1
  else if q % 2 = 0 then q else q + 1

/-- The binary logarithm rounded down, by halving at most `fuel` times. -/
def log2Aux : Nat → Nat → Nat
  | 0, _ => 0
  | fuel + 1, n => if 2 ≤ n then log2Aux fuel (n / 2) + 1 else 0

/-- The exponent of a positive number: `floor (log2 n)`; `0` for `n = 0`. -/
def ilog2 (n : Nat) : Nat := log2Aux n n

/-- The conversion `float32(n)` of a non-negative Go `int`: the nearest float32, ties to
even.  A float32 has a 24-bit significand, so the numbers below `2^24` are exact and a
larger `n` is rounded to a multiple of `2^(log2 n - 23)`.  The result is the natural
number that the float32 equals. -/
def f32OfNat (n : Nat) : Nat :=
  if n < 2 ^ 24 then n
  else roundHalfEven n (2 ^ (ilog2 n - 23)) * 2 ^ (ilog2 n - 23)

/-- The conversion `int(x / y)` of the float32 quotient of two float32 values that are
natural numbers, `y ≠ 0`.  With `L = floor(log2 (x/y))` the quotient is rounded to the
nearest multiple of `2^(L-23)`, ties to even (`up` and `down` are the positive and the
negative part of `L - 23`), and the conversion to `int` drops the fraction. -/
def f32DivTrunc (x y : Nat) : Nat :=
  if x = 0 ∨ y = 0 then 0
  else
    let c := if x * 2 ^ ilog2 y < y * 2 ^ ilog2 x then 1 else 0
    let down := (ilog2 y + c + 23) - ilog2 x
    let up := ilog2 x - (ilog2 y + c + 23)
    roundHalfEven (x * 2 ^ down) (y * 2 ^ up) * 2 ^ up / 2 ^ down

namespace MinPQ

/-- `New(heapDegree, sizeHint)`: the hint only sets capacities. -/
def New (heapDegree _sizeHint : Nat) : MinPQ V :=
  { heapDegree := heapDegree, heap := [], indices := fun _ => none, size := 0 }

/-- `parent(ind) = int((float32(ind) - 1) / float32(heapDegree))`, every operation
rounded to float32 as in the source.  It is only called with `ind ≥ 1`, and the queue is
built with `heapDegree ≥ 1`. -/
def parent (p : MinPQ V) (ind : Nat) : Nat :=
  f32DivTrunc (f32OfNat (f32OfNat ind - 1)) (f32OfNat p.heapDegree)

/-- `firstChild(ind) = ind*heapDegree + 1`. -/
def firstChild (p : MinPQ V) (ind : Nat) : Nat :=
  ind * p.heapDegree + 1

/-- The body of `heapUp`, with a recursion budget. -/
def heapUpAux (fuel : Nat) (p : MinPQ V) (ind : Nat) : Except Fault (MinPQ V) :=
  if ind = 0 then .ok p else
  match fuel with
  | 0 => .error .outOfFuel
  | fuel + 1 => do
    let parentInd := p.parent ind
    let n ← load p.heap ind
    let pn ← load p.heap parentInd
    if n.priority < pn.priority then
      let indices := mapSwap p.indices n.val pn.val
      let heap ← store p.heap ind pn
      let heap ← store heap parentInd n
      heapUpAux fuel { p with indices := indices, heap := heap } parentInd
    else
      .ok p

/-- `heapUp(ind)`: with `heapDegree ≥ 2` every recursive call is on a smaller slot, so
`ind` calls suffice. -/
def heapUp (p : MinPQ V) (ind : Nat) : Except Fault (MinPQ V) :=
  heapUpAux ind p ind

/-- `Insert(val, priority)`. -/
def Insert (p : MinPQ V) (val : V) (priority : Int) : Except Fault (MinPQ V) := do
  let p := { p with indices := mapSet p.indices val p.size }
  let heap ←
    if p.size + 1 ≥ p.heap.length then
      pure (p.heap ++ [{ val := val, priority := priority }])
    else
      store p.heap p.size { val := val, priority := priority }
  let p := { p with heap := heap }
  let p := { p with size := p.size + 1 }
  p.heapUp (p.size - 1)

/-- The `for` loop of `heapDown`: `i` is the loop counter, `minInd` and `minPri` the
running minimum; `n` bounds the number of iterations still to run. -/
def scanChildren (p : MinPQ V) (fChildInd : Nat) :
    Nat → Nat → Nat → Int → Except Fault (Nat × Int)
  | 0, _, minInd, minPri => .ok (minInd, minPri)
  | n + 1, i, minInd, minPri =>
    if i < p.heapDegree ∧ fChildInd + 1 < p.size then do
      let it ← load p.heap (fChildInd + i)
      let iterPri := it.priority
      if iterPri < minPri then
        scanChildren p fChildInd n (i + 1) (fChildInd + i) iterPri
      else
        scanChildren p fChildInd n (i + 1) minInd minPri
    else
      .ok (minInd, minPri)

/-- The body of `heapDown`, with a recursion budget. -/
def heapDownAux : Nat → MinPQ V → Nat → Except Fault (MinPQ V)
  | 0, _, _ => .error .outOfFuel
  | fuel + 1, p, ind =>
    let fChildInd := p.firstChild ind
    if fChildInd ≥ p.size then .ok p else do
      let fc ← load p.heap fChildInd
      let (minInd, minPri) ← scanChildren p fChildInd p.heapDegree 1 fChildInd fc.priority
      let n ← load p.heap ind
      if n.priority > minPri then
        let m ← load p.heap minInd
        let indices := mapSwap p.indices n.val m.val
        let heap ← store p.heap ind m
        let heap ← store heap minInd n
        heapDownAux fuel { p with indices := indices, heap := heap } minInd
      else
        .ok p

/-- `heapDown(ind)`: a recursive call is on a larger slot inside the slice, so
`len(heap) + 1` calls suffice. -/
def heapDown (p : MinPQ V) (ind : Nat) : Except Fault (MinPQ V) :=
  heapDownAux (p.heap.length + 1) p ind

/-- `Pop()`: the returned pair and the state afterwards. -/
def Pop [Inhabited V] (p : MinPQ V) : Except Fault ((V × Int) × MinPQ V) :=
  if p.size = 0 then .ok ((default, 0), p) else do
    let ret ← load p.heap 0
    let p := { p with indices := mapDelete p.indices ret.val }
    let p := { p with size := p.size - 1 }
    if p.size = 0 then .ok ((ret.val, ret.priority), p) else do
      let last ← load p.heap p.size
      let heap ← store p.heap 0 last
      let p := { p with heap := heap }
      let root ← load p.heap 0
      let p := { p with indices := mapSet p.indices root.val 0 }
      let p ← p.heapDown 0
      .ok ((ret.val, ret.priority), p)

/-- `Empty()`. -/
def Empty (p : MinPQ V) : Bool :=
  p.size == 0

/-- `Size()`. -/
def Size (p : MinPQ V) : Nat :=
  p.size

/-- `Contains(val)`. -/
def Contains (p : MinPQ V) (val : V) : Bool :=
  (p.indices val).isSome

/-- `CurrentPriority(val)`. -/
def CurrentPriority (p : MinPQ V) (val : V) : Except Fault (Int × Bool) :=
  match p.indices val with
  | none => .ok (0, false)
  | some ind => do
    let n ← load p.heap ind
    .ok (n.priority, true)

/-- `UpdatePriority(val, priority)`: the returned error (`none` is Go's `nil`) and the
state afterwards. -/
def UpdatePriority (p : MinPQ V) (val : V) (priority : Int) :
    Except Fault (Option String × MinPQ V) :=
  match p.indices val with
  | none => .ok (some "Unable to find value in priority queue.", p)
  | some ind => do
    let old ← load p.heap ind
    let oldPri := old.priority
    let heap ← store p.heap ind { old with priority := priority }
    let p := { p with heap := heap }
    if oldPri < priority then do
      let p ← p.heapDown ind
      .ok (none, p)
    else do
      let p ← p.heapUp ind
      .ok (none, p)

end MinPQ

end Model

/-! ## Call sequences -/

section Harness

variable {V : Type} [DecidableEq V] [Inhabited V]

/-- Results of modelled calls can be compared. -/
instance instDecidableEqExcept {ε α : Type} [DecidableEq ε] [DecidableEq α] :
    DecidableEq (Except ε α)
  | .ok a, .ok b =>
    if h : a = b then isTrue (by rw [h]) else isFalse (fun h1 => h (by cases h1; rfl))
  | .error a, .error b =>
    if h : a = b then isTrue (by rw [h]) else isFalse (fun h1 => h (by cases h1; rfl))
  | .ok _, .error _ => isFalse (fun h => by cases h)
  | .error _, .ok _ => isFalse (fun h => by cases h)

/-- One public call that changes the queue. -/
inductive Op (V : Type) where
  | insert (val : V) (priority : Int)
  | pop
  | update (val : V) (priority : Int)

/-- The state after one call. -/
def step (q : MinPQ V) : Op V → Except Fault (MinPQ V)
  | .insert v p => q.Insert v p
  | .pop => do
    let r ← q.Pop
    pure r.2
  | .update v p => do
    let r ← q.UpdatePriority v p
    pure r.2

/-- The state after a sequence of calls, made one after the other. -/
def run (q : MinPQ V) : List (Op V) → Except Fault (MinPQ V)
  | [] => .ok q
  | op :: ops => do
    let q ← step q op
    run q ops

/-- Every `Insert` of the sequence is on a value that is not contained at the time of
the call. -/
def admissible (q : MinPQ V) : List (Op V) → Bool
  | [] => true
  | op :: ops =>
    (match op with
      | .insert v _ => !q.Contains v
      | _ => true) &&
    (match step q op with
      | .ok q1 => admissible q1 ops
      | .error _ => true)

/-- A state reached from `New(d, hint)` by a finite sequence of `Insert` calls (each on
a value not contained at the time), `Pop` calls and `UpdatePriority` calls. -/
def Reachable (d hint : Nat) (q : MinPQ V) : Prop :=
  ∃ ops : List (Op V), admissible (MinPQ.New d hint) ops = true ∧
    run (MinPQ.New d hint) ops = .ok q

/-- Insert the pairs in the given order. -/
def insertAll (q : MinPQ V) : List (V × Int) → Except Fault (MinPQ V)
  | [] => .ok q
  | (v, p) :: rest => do
    let q ← q.Insert v p
    insertAll q rest

/-- Call `UpdatePriority` for each pair in order, collecting the returned errors. -/
def updateAll (q : MinPQ V) : List (V × Int) → Except Fault (List (Option String) × MinPQ V)
  | [] => .ok ([], q)
  | (v, p) :: rest => do
    let (e, q) ← q.UpdatePriority v p
    let (es, q) ← updateAll q rest
    pure (e :: es, q)

/-- Call `Pop` `n` times, collecting the returned pairs in order. -/
def popN (q : MinPQ V) : Nat → Except Fault (List (V × Int) × MinPQ V)
  | 0 => .ok ([], q)
  | n + 1 => do
    let (r, q) ← q.Pop
    let (rs, q) ← popN q n
    pure (r :: rs, q)

/-- Call `Pop` until `Empty()` is true, collecting the returned pairs in order; `n`
bounds the number of calls. -/
def drainAux : Nat → MinPQ V → Except Fault (List (V × Int))
  | 0, q => if q.Empty then .ok [] else .error .outOfFuel
  | n + 1, q =>
    if q.Empty then .ok [] else do
      let (r, q) ← q.Pop
      let rs ← drainAux n q
      pure (r :: rs)

/-- Call `Pop` until `Empty()` is true: `Size()` calls suffice. -/
def drain (q : MinPQ V) : Except Fault (List (V × Int)) :=
  drainAux q.size q

/-- The priority most recently assigned to `v` by a sequence of `Insert` and
`UpdatePriority` calls, given as (value, priority) pairs in call order. -/
def lastAssigned (calls : List (V × Int)) (v : V) : Option Int :=
  (calls.reverse.find? (fun c => decide (c.1 = v))).map Prod.snd

end Harness

/-! ## Specification predicates and proof vocabulary -/

section Spec

variable {V : Type} [DecidableEq V]

/-- The priority stored at slot `i` of a slice (0 when there is no such slot). -/
def priAt (h : List (node V)) (i : Nat) : Int :=
  match h[i]? with
  | some n => n.priority
  | none => 0

/-- Heap-order: for every slot `i` with `1 ≤ i < size`, the priority stored at slot
`floor((i-1)/d)` is at most the priority stored at slot `i`. -/
def HeapOrder (q : MinPQ V) : Prop :=
  ∀ i, 1 ≤ i → i < q.size → priAt q.heap ((i - 1) / q.heapDegree) ≤ priAt q.heap i

/-- Index correctness: `indices[heap[i].val] = i` for every slot `i` below the size. -/
def IndexCorrect (q : MinPQ V) : Prop :=
  ∀ i n, i < q.size → q.heap[i]? = some n → q.indices n.val = some i

/-- The index map has no keys other than the values stored in slots below the size. -/
def NoOtherKeys (q : MinPQ V) : Prop :=
  ∀ v, q.Contains v = true → ∃ i n, i < q.size ∧ q.heap[i]? = some n ∧ n.val = v

/-- The values stored in slots below the size are pairwise distinct. -/
def DistinctValues (q : MinPQ V) : Prop :=
  ∀ i j a b, i < q.size → j < q.size → q.heap[i]? = some a → q.heap[j]? = some b →
    a.val = b.val → i = j

/-- A well-formed state. -/
structure WellFormed (q : MinPQ V) : Prop where
  size_le : q.size ≤ q.heap.length
  heapOrder : HeapOrder q
  indexCorrect : IndexCorrect q
  noOtherKeys : NoOtherKeys q
  distinct : DistinctValues q

/-- The node `n` is stored in a slot below the size. -/
def Stored (q : MinPQ V) (n : node V) : Prop :=
  ∃ i, i < q.size ∧ q.heap[i]? = some n

/-- The index map is exactly the inverse of the heap array on the slots below the size. -/
def IdxOK (q : MinPQ V) : Prop :=
  ∀ v k, q.indices v = some k ↔ k < q.size ∧ ∃ n, q.heap[k]? = some n ∧ n.val = v

/-- Every entry of the index map is a valid index of the heap array. -/
def Bounded (q : MinPQ V) : Prop :=
  ∀ v k, q.indices v = some k → k < q.heap.length

/-- The state after exchanging slots `i` and `j` of the heap array together with the
index-map entries of the two values stored there, as `heapUp` and `heapDown` do. -/
def swapSlots (p : MinPQ V) (i j : Nat) : MinPQ V :=
  match p.heap[i]?, p.heap[j]? with
  | some a, some b =>
    { p with indices := mapSwap p.indices a.val b.val, heap := (p.heap.set i b).set j a }
  | _, _ => p

/-- The parent slot in the logical tree of the specification: `floor((i-1)/d)`. -/
def MinPQ.floorParent (p : MinPQ V) (ind : Nat) : Nat :=
  (ind - 1) / p.heapDegree

/-- The child of slot `ind` that `heapDown` selects in a binary heap: the second child
when it is below the size and strictly smaller than the first, else the first. -/
def minChild2 (p : MinPQ V) (ind : Nat) : Nat :=
  if 2 * ind + 2 < p.size ∧ priAt p.heap (2 * ind + 2) < priAt p.heap (2 * ind + 1) then
    2 * ind + 2
  else 2 * ind + 1

/-- Heap-order holds on every edge except possibly the one from slot `ind` to its
parent, and the children of `ind` are not below the parent of `ind`. -/
def UpInv (p : MinPQ V) (ind : Nat) : Prop :=
  (∀ i, 1 ≤ i → i < p.size → i ≠ ind → priAt p.heap (p.floorParent i) ≤ priAt p.heap i) ∧
  (1 ≤ ind → ∀ c, 1 ≤ c → c < p.size → p.floorParent c = ind →
    priAt p.heap (p.floorParent ind) ≤ priAt p.heap c)

/-- Heap-order holds on every edge except possibly those from the children of slot
`ind` to `ind`, and the children of `ind` are not below the parent of `ind`. -/
def DownInv (p : MinPQ V) (ind : Nat) : Prop :=
  (∀ i, 1 ≤ i → i < p.size → p.floorParent i ≠ ind → priAt p.heap (p.floorParent i) ≤ priAt p.heap i) ∧
  (1 ≤ ind → ∀ c, 1 ≤ c → c < p.size → p.floorParent c = ind →
    priAt p.heap (p.floorParent ind) ≤ priAt p.heap c)

/-- The state in which `Insert(v, p)` calls `heapUp(size)`. -/
def insertPre (q : MinPQ V) (v : V) (p : Int) : MinPQ V :=
  { heapDegree := q.heapDegree,
    heap :=
      if q.size + 1 ≥ q.heap.length then q.heap ++ [{ val := v, priority := p }]
      else q.heap.set q.size { val := v, priority := p },
    indices := mapSet q.indices v q.size,
    size := q.size + 1 }

/-- The state in which `Pop` calls `heapDown(0)`, when the root is `root` and at least
one other node remains: the node `last` of the last slot has been moved to the root. -/
def popPre (q : MinPQ V) (root last : node V) : MinPQ V :=
  { heapDegree := q.heapDegree,
    heap := q.heap.set 0 last,
    indices := mapSet (mapDelete q.indices root.val) last.val 0,
    size := q.size - 1 }

/-- The state in which `UpdatePriority` calls `heapDown(ind)` or `heapUp(ind)`: the node
at slot `ind` has the new priority. -/
def updatePre (q : MinPQ V) (ind : Nat) (old : node V) (p : Int) : MinPQ V :=
  { q with heap := q.heap.set ind { old with priority := p } }

/-- The invariant of the binary queue that survives every call: the size is within the
slice, heap-order holds, and the index map holds only valid indices of the slice. -/
def Inv2 (q : MinPQ V) : Prop :=
  q.heapDegree = 2 ∧ q.size ≤ q.heap.length ∧ HeapOrder q ∧ Bounded q

/-- What every call on a binary queue preserves, whatever the number of nodes: the size
is within the slice and the index map holds only valid indices of the slice. -/
def Safe2 (q : MinPQ V) : Prop :=
  q.heapDegree = 2 ∧ q.size ≤ q.heap.length ∧ Bounded q

/-- The stored nodes are exactly the values that the calls `calls` (an `Insert` or
`UpdatePriority` each, in order) have assigned a priority, with their latest priority. -/
def Tracks (q : MinPQ V) (calls : List (V × Int)) : Prop :=
  ∀ n, Stored q n ↔ lastAssigned calls n.val = some n.priority

/-- The queue of the test "Test pop" after `Insert("foo", 1)` and `Insert("bar", 0)`. -/
def fooBar : MinPQ (Option String) :=
  { heapDegree := 2,
    heap := [{ val := some "bar", priority := 0 }, { val := some "foo", priority := 1 }],
    indices :=
      mapSwap (mapSet (mapSet (fun _ => none) (some "foo") 0) (some "bar") 1)
        (some "bar") (some "foo"),
    size := 2 }

/-- A state that satisfies size ≤ len, heap-order and `indices[heap[i].val] = i` below the
size, but whose index map has a further key: "baz" is mapped to slot 1, which is not
below the size.  It is the state after `Insert("foo", 1)`, `Insert("bar", 2)`, `Pop()`,
`Insert("baz", 0)`, `Pop()`, `UpdatePriority("bar", 9)` on `New(2, 0)`. -/
def strayKey : MinPQ (Option String) :=
  { heapDegree := 2,
    heap := [{ val := some "bar", priority := 9 }, { val := some "bar", priority := 2 },
      { val := some "baz", priority := 0 }],
    indices := fun x =>
      if x = some "bar" then some 0 else if x = some "baz" then some 1 else none,
    size := 1 }

/-- The binary queue that holds the values `0, …, n-1`, value `i` in slot `i` with
priority `pri i`, in a slice of length `n`. -/
def slotQueue (pri : Nat → Int) (n : Nat) : MinPQ Nat :=
  { heapDegree := 2,
    heap := (List.range n).map (fun i => { val := i, priority := pri i }),
    indices := fun v => if v < n then some v else none,
    size := n }

/-- The pairs `(0, pri 0), …, (n-1, pri (n-1))`, in this order. -/
def slotPairs (pri : Nat → Int) (n : Nat) : List (Nat × Int) :=
  (List.range n).map (fun i => (i, pri i))

/-- Priorities that increase with the slot number up to slot `2^24`, with 40 at slot
`2^23 - 1`, 100 at slot `2^23`, and 50 from slot `2^24 + 1` on. -/
def priBuild (i : Nat) : Int :=
  if i < 8388607 then 0 else if i = 8388607 then 40 else if i ≤ 16777216 then 100 else 50

/-- Priorities in heap-order on `2^24 + 2` slots, with 5 at slot `2^23 - 1`, 8 at slot
`2^23` and 10 at slot `2^24 + 1`. -/
def priDecrease (i : Nat) : Int :=
  if i < 8388607 then 0 else if i = 8388607 then 5 else if i = 8388608 then 8
  else if i ≤ 16777216 then 20 else 10

/-- Priorities in heap-order on `2^24 + 2` slots, with 1000 at slot `2^23 - 1` and at its
two children, 8 at slot `2^23` and 10 at slot `2^24 + 1`. -/
def priSame (i : Nat) : Int :=
  if i < 8388607 then 0 else if i = 8388607 then 1000 else if i = 8388608 then 8
  else if i ≤ 16777214 then 20 else if i ≤ 16777216 then 1000 else 10

/-- The slots `2^k - 1` for `k = 0, …, 23`: the path from the root to slot `2^23 - 1`. -/
def leftPath : List Nat :=
  [0, 1, 3, 7, 15, 31, 63, 127, 255, 511, 1023, 2047, 4095, 8191, 16383, 32767, 65535,
    131071, 262143, 524287, 1048575, 2097151, 4194303, 8388607]

/-- Priorities that are 0 on `leftPath`, 5 at slot `2^24 + 1` and 10 elsewhere. -/
def priPath (i : Nat) : Int :=
  if i ∈ leftPath then 0 else if i = 16777217 then 5 else 10

/-- The updates that raise the priority of the values `leftPath` to 7, deepest first. -/
def raisePath : List (Nat × Int) :=
  leftPath.reverse.map (fun i => (i, 7))

/-- The priorities `pri` with the priority of `v` replaced by `p`. -/
def setPri (pri : Nat → Int) (v : Nat) (p : Int) : Nat → Int :=
  fun i => if i = v then p else pri i

/-- The priorities `pri` after the replacements `ups`, in order. -/
def setPris (pri : Nat → Int) : List (Nat × Int) → Nat → Int
  | [] => pri
  | (v, p) :: rest => setPris (setPri pri v p) rest

/-- A sufficient test for `UpdatePriority(v, p)` on `slotQueue pri n` to exchange no
slots: `v` is stored, and the new priority is not above a child's (when it increases) or
not below the one at the slot that `parent` computes (when it does not). -/
def quietUpdate (pri : Nat → Int) (n v : Nat) (p : Int) : Bool :=
  decide (v < n) &&
    (if pri v < p then
      decide (2 * v + 1 < n → p ≤ pri (2 * v + 1)) &&
        decide (2 * v + 2 < n → p ≤ pri (2 * v + 2))
    else
      decide (v = 0 ∨ ((MinPQ.New 2 0 : MinPQ Nat).parent v < v ∧
        pri ((MinPQ.New 2 0 : MinPQ Nat).parent v) ≤ p)))

/-- The test `quietUpdate` for each update of a sequence, in order. -/
def quietUpdates (pri : Nat → Int) (n : Nat) : List (Nat × Int) → Bool
  | [] => true
  | (v, p) :: rest => quietUpdate pri n v p && quietUpdates (setPri pri v p) n rest

end Spec

/-! ## Failing runs -/

section Failing

/-- Claim C1 (round trip for every branching factor): with branching factor 4, the four
inserts of distinct values into `New(4, 0)` succeed and leave size 4, and then the first
`Pop` already fails with an index out of range, because `heapDown` reads slot 4 of a
four-element slice. -/
theorem C1_round_trip_degree_four_faults :
    (do
      let q ← insertAll (MinPQ.New 4 0)
        [(some "a", 1), (some "b", 2), (some "c", 3), (some "d", 4)]
      pure (q.Size, q.heap.length)) = .ok (4, 4) ∧
    (do
      let q ← insertAll (MinPQ.New 4 0)
        [(some "a", 1), (some "b", 2), (some "c", 3), (some "d", 4)]
      let r ← q.Pop
      pure r.1) = .error .indexOutOfRange ∧
    (do
      let q ← insertAll (MinPQ.New 4 0)
        [(some "a", 1), (some "b", 2), (some "c", 3), (some "d", 4)]
      let r ← popN q 4
      pure r.1) = .error .indexOutOfRange := by
  decide!

/-- Claim C2 (Insert postcondition): in the binary queue, after `Insert("foo", 1)`, `Pop()`
and `Insert("bar", 5)`, `CurrentPriority("bar")` reports priority 1, not 5: the new node
was appended to slot 1 while slot 0, which the index map records for "bar", still holds
the popped node. -/
theorem C2_insert_after_pop_reports_stale_priority :
    admissible (MinPQ.New 2 0)
        [Op.insert (some "foo") 1, Op.pop, Op.insert (some "bar") 5] = true ∧
      (do
        let q ← run (MinPQ.New 2 0) [Op.insert (some "foo") 1, Op.pop]
        pure (q.Contains (some "bar"))) = .ok false ∧
      (do
        let q ← run (MinPQ.New 2 0)
          [Op.insert (some "foo") 1, Op.pop, Op.insert (some "bar") 5]
        let r ← q.CurrentPriority (some "bar")
        pure (q.Contains (some "bar"), r)) = .ok (true, (1, true)) := by
  decide!

/-- Claim C3 (index-correctness invariant): in the binary queue, after `Insert("foo", 1)`,
`Pop()` and `Insert("bar", 5)` the size is 1, slot 0 holds the value "foo", and the index
map has no entry for "foo" (it maps "bar" to slot 0). -/
theorem C3_index_map_wrong_after_pop_insert :
    admissible (MinPQ.New 2 0)
        [Op.insert (some "foo") 1, Op.pop, Op.insert (some "bar") 5] = true ∧
      (do
        let q ← run (MinPQ.New 2 0)
          [Op.insert (some "foo") 1, Op.pop, Op.insert (some "bar") 5]
        pure (q.size, q.heap.map (fun n : node (Option String) => n.val), q.indices (some "foo"),
          q.indices (some "bar"))) =
        .ok (1, [some "foo", some "bar"], none, some 0) := by
  decide!

/-- Claim C4 (heap-order invariant for every branching factor): with branching factor 3
the run below ends with size 6 and priorities 2, 1, 3, 2, 2, 2 in slots 0 to 5, so slot 1
holds a smaller priority than its parent, slot 0, and heap-order fails at `i = 1`.  The
last call, `UpdatePriority("g", 3)`, sifts down from slot 1 and swaps with slot 6, which is
not below the size. -/
theorem C4_heap_order_broken_degree_three :
    admissible (MinPQ.New 3 0)
        [Op.insert (some "a") 2, Op.insert (some "b") 0, Op.insert (some "c") 3,
          Op.insert (some "d") 2, Op.insert (some "e") 0, Op.insert (some "f") 2,
          Op.insert (some "g") 1, Op.pop, Op.pop, Op.insert (some "h") 2,
          Op.update (some "g") 3] = true ∧
      (do
        let q ← run (MinPQ.New 3 0)
          [Op.insert (some "a") 2, Op.insert (some "b") 0, Op.insert (some "c") 3,
            Op.insert (some "d") 2, Op.insert (some "e") 0, Op.insert (some "f") 2,
            Op.insert (some "g") 1, Op.pop, Op.pop, Op.insert (some "h") 2,
            Op.update (some "g") 3]
        pure (q.size, q.heap.map (fun n : node (Option String) => n.priority),
          decide (priAt q.heap ((1 - 1) / q.heapDegree) ≤ priAt q.heap 1))) =
        .ok (6, [2, 1, 3, 2, 2, 2, 3], false) := by
  decide!

/-- Claim C5 (membership tracks contents): in the binary queue, after `Insert("foo", 1)`,
`Insert("bar", 2)`, `Pop()` (which returns "foo") and `Insert("baz", 0)`, the next `Pop()`
returns ("bar", 2) and leaves `Size() = 1` while both `Contains("bar")` and
`Contains("baz")` are true: the value just returned is still contained, and two values are
contained in a queue of size 1. -/
theorem C5_membership_lost_after_pop_insert :
    admissible (MinPQ.New 2 0)
        [Op.insert (some "foo") 1, Op.insert (some "bar") 2, Op.pop,
          Op.insert (some "baz") 0, Op.pop] = true ∧
      (do
        let q ← run (MinPQ.New 2 0)
          [Op.insert (some "foo") 1, Op.insert (some "bar") 2, Op.pop,
            Op.insert (some "baz") 0]
        let r ← q.Pop
        pure (r.1, r.2.Size, r.2.Contains (some "bar"), r.2.Contains (some "baz"))) =
        .ok ((some "bar", 2), 1, true, true) := by
  decide!

/-- Claim C6 (no internal fatal condition for every branching factor): with branching
factor 3, after three inserts `UpdatePriority("a", 1)` fails with an index out of range:
`heapDown(0)` reads slot 3 of a three-element slice. -/
theorem C6_update_degree_three_faults :
    admissible (MinPQ.New 3 0)
        [Op.insert (some "a") 0, Op.insert (some "b") 0, Op.insert (some "c") 0,
          Op.update (some "a") 1] = true ∧
      (do
        let q ← run (MinPQ.New 3 0)
          [Op.insert (some "a") 0, Op.insert (some "b") 0, Op.insert (some "c") 0,
            Op.update (some "a") 1]
        pure q.size) = .error .indexOutOfRange := by
  decide!

end Failing

/-! ## Sift-up and sift-down -/

section Lemmas

set_option linter.unusedSectionVars false

variable {V : Type} [DecidableEq V]

open MinPQ



theorem exists_getElem_of_lt {h : List (node V)} {i : Nat} (hi : i < h.length) :
    ∃ a, h[i]? = some a :=
  ⟨h[i], by simp [hi]⟩

theorem priAt_of_some {h : List (node V)} {i : Nat} {a : node V} (ha : h[i]? = some a) :
    priAt h i = a.priority := by
  simp [priAt, ha]

theorem swapSlots_size (p : MinPQ V) (i j : Nat) : (swapSlots p i j).size = p.size := by
  unfold swapSlots; split <;> rfl

theorem swapSlots_heapDegree (p : MinPQ V) (i j : Nat) :
    (swapSlots p i j).heapDegree = p.heapDegree := by
  unfold swapSlots; split <;> rfl

theorem swapSlots_length (p : MinPQ V) (i j : Nat) :
    (swapSlots p i j).heap.length = p.heap.length := by
  unfold swapSlots; split <;> simp

theorem swapSlots_floorParent (p : MinPQ V) (i j k : Nat) :
    (swapSlots p i j).floorParent k = p.floorParent k := by
  simp [floorParent, swapSlots_heapDegree]

theorem swapSlots_getElem (p : MinPQ V) {i j : Nat} (hi : i < p.heap.length)
    (hj : j < p.heap.length) (k : Nat) :
    (swapSlots p i j).heap[k]? =
      if k = j then p.heap[i]? else if k = i then p.heap[j]? else p.heap[k]? := by
  obtain ⟨a, ha⟩ := exists_getElem_of_lt hi
  obtain ⟨b, hb⟩ := exists_getElem_of_lt hj
  simp only [swapSlots, ha, hb]
  by_cases hkj : k = j
  · subst hkj
    simp [List.getElem?_set, hj]
  · by_cases hki : k = i
    · subst hki
      have : ¬ j = k := fun h => hkj h.symm
      simp [List.getElem?_set, hkj, this, hi, hb]
    · have h1 : ¬ j = k := fun h => hkj h.symm
      have h2 : ¬ i = k := fun h => hki h.symm
      simp [List.getElem?_set, hkj, hki, h1, h2]

theorem swapSlots_priAt (p : MinPQ V) {i j : Nat} (hi : i < p.heap.length)
    (hj : j < p.heap.length) (k : Nat) :
    priAt (swapSlots p i j).heap k =
      if k = j then priAt p.heap i else if k = i then priAt p.heap j else priAt p.heap k := by
  unfold priAt
  rw [swapSlots_getElem p hi hj k]
  split_ifs <;> rfl

theorem swapSlots_indices (p : MinPQ V) {i j : Nat} {a b : node V} (ha : p.heap[i]? = some a)
    (hb : p.heap[j]? = some b) :
    (swapSlots p i j).indices = mapSwap p.indices a.val b.val := by
  simp [swapSlots, ha, hb]

theorem roundHalfEven_cases (num den : Nat) :
    roundHalfEven num den = num / den ∨
      (roundHalfEven num den = num / den + 1 ∧ den ≤ 2 * (num % den)) := by
  unfold roundHalfEven
  simp only
  split_ifs with h1 h2 h3
  · exact Or.inl rfl
  · exact Or.inr ⟨rfl, by omega⟩
  · exact Or.inl rfl
  · exact Or.inr ⟨rfl, by omega⟩

theorem log2Aux_eq (fuel n : Nat) (h : n ≤ fuel) : log2Aux fuel n = Nat.log2 n := by
  induction fuel generalizing n with
  | zero =>
    have : n = 0 := by omega
    subst this
    rw [Nat.log2]
    simp [log2Aux]
  | succ k ih =>
    rw [Nat.log2, log2Aux]
    by_cases h2 : 2 ≤ n
    · rw [if_pos h2, if_pos h2, ih (n / 2) (by omega)]
    · rw [if_neg h2, if_neg h2]

theorem ilog2_eq (n : Nat) : ilog2 n = Nat.log2 n := log2Aux_eq n n (Nat.le_refl n)

theorem f32OfNat_exact (n : Nat) (h : n ≤ 2 ^ 24) : f32OfNat n = n := by
  by_cases hlt : n < 2 ^ 24
  · unfold f32OfNat
    rw [if_pos hlt]
  · have : n = 2 ^ 24 := by omega
    subst this
    decide!

theorem f32DivTrunc_exact (x y : Nat) (hx : x < 2 ^ 24) (hy : 1 ≤ y) :
    f32DivTrunc x y = x / y := by
  by_cases hx0 : x = 0
  · subst hx0
    simp [f32DivTrunc]
  · have hy0 : y ≠ 0 := by omega
    have hlx : ilog2 x < 24 := by
      rw [ilog2_eq]
      exact (Nat.log2_lt hx0).2 hx
    unfold f32DivTrunc
    rw [if_neg (by simp [hx0, hy0])]
    simp only
    generalize hc : (if x * 2 ^ ilog2 y < y * 2 ^ ilog2 x then 1 else 0) = c
    have hup : ilog2 x - (ilog2 y + c + 23) = 0 := by omega
    rw [hup, pow_zero, mul_one, mul_one]
    generalize hdown : ilog2 y + c + 23 - ilog2 x = down
    have hle : ilog2 y ≤ down := by omega
    have hD : 0 < 2 ^ down := Nat.two_pow_pos down
    have hyD : y < 2 * 2 ^ down := by
      calc y < 2 ^ (ilog2 y + 1) := by
            rw [ilog2_eq]
            exact Nat.lt_log2_self
        _ ≤ 2 ^ (down + 1) := Nat.pow_le_pow_right (by decide) (by omega)
        _ = 2 * 2 ^ down := by rw [pow_succ]; ring
    have hbase : x * 2 ^ down / y / 2 ^ down = x / y := by
      rw [Nat.div_div_eq_div_mul, Nat.mul_div_mul_right _ _ hD]
    rcases roundHalfEven_cases (x * 2 ^ down) y with h | ⟨h, hr⟩
    · rw [h, hbase]
    · rw [h, Nat.succ_div, hbase, if_neg, Nat.add_zero]
      rintro ⟨k, hk⟩
      have hdm : y * (x * 2 ^ down / y) + x * 2 ^ down % y = x * 2 ^ down :=
        Nat.div_add_mod _ _
      have hrlt : x * 2 ^ down % y < y := Nat.mod_lt _ (by omega)
      have hA : y * (x * 2 ^ down / y + 1) = y * (x * 2 ^ down / y) + y := by ring
      have hdA : 2 ^ down ∣ y * (x * 2 ^ down / y + 1) := by
        rw [hk]
        exact ⟨y * k, by ring⟩
      have hdB : 2 ^ down ∣ x * 2 ^ down := ⟨x, by ring⟩
      have hsub := Nat.dvd_sub' hdA hdB
      have hval : y * (x * 2 ^ down / y + 1) - x * 2 ^ down = y - x * 2 ^ down % y := by
        omega
      rw [hval] at hsub
      have := Nat.le_of_dvd (by omega) hsub
      omega


theorem f32OfNat_ge (n : Nat) (h : 2 ^ 24 ≤ n) : 2 ^ 24 ≤ f32OfNat n := by
  have hn0 : n ≠ 0 := by
    have : 0 < 2 ^ 24 := Nat.two_pow_pos 24
    omega
  have hl : 24 ≤ ilog2 n := by
    rw [ilog2_eq]
    exact (Nat.le_log2 hn0).2 h
  unfold f32OfNat
  rw [if_neg (by omega)]
  generalize hu : ilog2 n - 23 = u
  have hU : 0 < 2 ^ u := Nat.two_pow_pos u
  have h2l : 2 ^ ilog2 n ≤ n := by
    rw [ilog2_eq]
    exact Nat.log2_self_le hn0
  have hsplit : 2 ^ ilog2 n = 2 ^ 23 * 2 ^ u := by
    rw [← pow_add]
    congr 1
    omega
  have hq : 2 ^ 23 ≤ n / 2 ^ u := by
    rw [Nat.le_div_iff_mul_le hU, ← hsplit]
    exact h2l
  have hr : n / 2 ^ u ≤ roundHalfEven n (2 ^ u) := by
    rcases roundHalfEven_cases n (2 ^ u) with h1 | ⟨h1, _⟩ <;> omega
  have h24 : 2 ^ 24 ≤ 2 ^ ilog2 n := Nat.pow_le_pow_right (by decide) hl
  calc 2 ^ 24 ≤ 2 ^ ilog2 n := h24
    _ = 2 ^ 23 * 2 ^ u := hsplit
    _ ≤ roundHalfEven n (2 ^ u) * 2 ^ u := Nat.mul_le_mul_right _ (le_trans hq hr)

theorem roundHalfEven_le (num den : Nat) : roundHalfEven num den ≤ num / den + 1 := by
  rcases roundHalfEven_cases num den with h1 | ⟨h1, _⟩ <;> omega

/-- The conversion to float32 exceeds its argument by at most one part in `2^23`. -/
theorem f32OfNat_le (n : Nat) : f32OfNat n ≤ n + n / 2 ^ 23 := by
  by_cases hlt : n < 2 ^ 24
  · unfold f32OfNat
    rw [if_pos hlt]
    omega
  · have hn0 : n ≠ 0 := by
      have : 0 < 2 ^ 24 := Nat.two_pow_pos 24
      omega
    have hl : 24 ≤ ilog2 n := by
      rw [ilog2_eq]
      exact (Nat.le_log2 hn0).2 (by omega)
    unfold f32OfNat
    rw [if_neg hlt]
    generalize hu : ilog2 n - 23 = u
    have hU : 0 < 2 ^ u := Nat.two_pow_pos u
    have h2l : 2 ^ ilog2 n ≤ n := by
      rw [ilog2_eq]
      exact Nat.log2_self_le hn0
    have hsplit : 2 ^ ilog2 n = 2 ^ u * 2 ^ 23 := by
      rw [← pow_add]
      congr 1
      omega
    have hu23 : 2 ^ u ≤ n / 2 ^ 23 := by
      rw [Nat.le_div_iff_mul_le (Nat.two_pow_pos 23), ← hsplit]
      exact h2l
    have h1 := roundHalfEven_le n (2 ^ u)
    have h2 : n / 2 ^ u * 2 ^ u ≤ n := Nat.div_mul_le_self n (2 ^ u)
    calc roundHalfEven n (2 ^ u) * 2 ^ u ≤ (n / 2 ^ u + 1) * 2 ^ u :=
          Nat.mul_le_mul_right _ h1
      _ = n / 2 ^ u * 2 ^ u + 2 ^ u := by ring
      _ ≤ n + n / 2 ^ 23 := by omega

/-- Division by two in float32, truncated: at most half the argument plus one part in
`2^24`. -/
theorem f32DivTrunc_two_le (x : Nat) : f32DivTrunc x 2 ≤ x / 2 + x / 2 ^ 24 := by
  by_cases hlt : x < 2 ^ 24
  · rw [f32DivTrunc_exact x 2 hlt (by decide)]
    omega
  · have hx0 : x ≠ 0 := by
      have : 0 < 2 ^ 24 := Nat.two_pow_pos 24
      omega
    have hl : 24 ≤ ilog2 x := by
      rw [ilog2_eq]
      exact (Nat.le_log2 hx0).2 (by omega)
    have h2l : 2 ^ ilog2 x ≤ x := by
      rw [ilog2_eq]
      exact Nat.log2_self_le hx0
    have hl2 : ilog2 2 = 1 := by decide
    unfold f32DivTrunc
    rw [if_neg (by simp [hx0])]
    simp only [hl2]
    have hc : ¬ x * 2 ^ 1 < 2 * 2 ^ ilog2 x := by omega
    rw [if_neg hc]
    have hdown : 1 + 0 + 23 - ilog2 x = 0 := by omega
    rw [hdown, pow_zero, Nat.div_one, mul_one]
    generalize hu : ilog2 x - (1 + 0 + 23) = u
    have hU : 0 < 2 ^ u := Nat.two_pow_pos u
    have hsplit : 2 ^ ilog2 x = 2 ^ u * 2 ^ 24 := by
      rw [← pow_add]
      congr 1
      omega
    have hu24 : 2 ^ u ≤ x / 2 ^ 24 := by
      rw [Nat.le_div_iff_mul_le (Nat.two_pow_pos 24), ← hsplit]
      exact h2l
    have h1 := roundHalfEven_le x (2 * 2 ^ u)
    have h2 : x / (2 * 2 ^ u) * (2 * 2 ^ u) ≤ x := Nat.div_mul_le_self x (2 * 2 ^ u)
    have h3 : x / (2 * 2 ^ u) * 2 ^ u ≤ x / 2 := by
      rw [Nat.le_div_iff_mul_le (by decide)]
      calc x / (2 * 2 ^ u) * 2 ^ u * 2 = x / (2 * 2 ^ u) * (2 * 2 ^ u) := by ring
        _ ≤ x := h2
    calc roundHalfEven x (2 * 2 ^ u) * 2 ^ u ≤ (x / (2 * 2 ^ u) + 1) * 2 ^ u :=
          Nat.mul_le_mul_right _ h1
      _ = x / (2 * 2 ^ u) * 2 ^ u + 2 ^ u := by ring
      _ ≤ x / 2 + x / 2 ^ 24 := by omega

/-- In float32 too, half of `ind - 1` is below `ind`. -/
theorem f32_parent_two_lt (ind : Nat) (_h : 1 ≤ ind) :
    f32DivTrunc (f32OfNat (f32OfNat ind - 1)) (f32OfNat 2) < ind := by
  have h2 : f32OfNat 2 = 2 := by decide
  rw [h2]
  have ha := f32OfNat_le ind
  have hb := f32OfNat_le (f32OfNat ind - 1)
  have hc := f32DivTrunc_two_le (f32OfNat (f32OfNat ind - 1))
  generalize f32OfNat ind = a at ha hb hc
  generalize f32OfNat (a - 1) = b at hb hc
  generalize f32DivTrunc b 2 = r at hc
  omega

/-- For slot numbers up to `2^24` the float32 computation of `parent` is exact: it is the
truncated quotient `floor((ind-1)/d)`. -/
theorem parent_eq_floorParent (p : MinPQ V) (ind : Nat) (hd1 : 1 ≤ p.heapDegree)
    (hi : ind ≤ 2 ^ 24) : p.parent ind = p.floorParent ind := by
  unfold MinPQ.parent MinPQ.floorParent
  rw [f32OfNat_exact ind hi, f32OfNat_exact (ind - 1) (by omega)]
  by_cases hd2 : p.heapDegree ≤ 2 ^ 24
  · rw [f32OfNat_exact p.heapDegree hd2, f32DivTrunc_exact (ind - 1) p.heapDegree (by omega) hd1]
  · have hge := f32OfNat_ge p.heapDegree (by omega)
    have h24 : 0 < 2 ^ 24 := Nat.two_pow_pos 24
    rw [f32DivTrunc_exact (ind - 1) _ (by omega) (by omega),
      Nat.div_eq_of_lt (by omega), Nat.div_eq_of_lt (by omega)]

/-- In a binary queue the float32 parent of a slot other than the root is a smaller slot,
whatever the slot number. -/
theorem parent_lt_two (p : MinPQ V) (hd : p.heapDegree = 2) {ind : Nat} (h0 : ind ≠ 0) :
    p.parent ind < ind := by
  unfold MinPQ.parent
  rw [hd]
  exact f32_parent_two_lt ind (by omega)

theorem swapSlots_parent (p : MinPQ V) (i j k : Nat) :
    (swapSlots p i j).parent k = p.parent k := by
  simp [parent, swapSlots_heapDegree]

theorem heapUpAux_zero (fuel : Nat) (p : MinPQ V) : heapUpAux fuel p 0 = .ok p := by
  unfold heapUpAux
  simp

theorem floorParent_lt (p : MinPQ V) {ind : Nat} (h0 : ind ≠ 0) : p.floorParent ind < ind := by
  have : p.floorParent ind ≤ ind - 1 := Nat.div_le_self _ _
  omega

theorem heapUpAux_succ (fuel : Nat) (p : MinPQ V) (ind : Nat) (h0 : ind ≠ 0)
    (hlt : ind < p.heap.length) (hpar : p.parent ind < p.heap.length) :
    heapUpAux (fuel + 1) p ind =
      if priAt p.heap ind < priAt p.heap (p.parent ind) then
        heapUpAux fuel (swapSlots p ind (p.parent ind)) (p.parent ind)
      else .ok p := by
  obtain ⟨a, ha⟩ := exists_getElem_of_lt hlt
  obtain ⟨b, hb⟩ := exists_getElem_of_lt hpar
  rw [heapUpAux]
  simp [h0, load, ha, hb, priAt, swapSlots, store, hlt, hpar, bind, Except.bind]

/-- Induction principle for `heapUp`: a relation between state and slot that every swap
with the parent carries along, and under which the parent is a smaller slot, holds when
sift-up stops, at a slot that is the root or not smaller than its parent. -/
theorem heapUpAux_inv (R : MinPQ V → Nat → Prop)
    (hpar : ∀ p ind, ind ≠ 0 → R p ind → p.parent ind < ind)
    (hstep : ∀ p ind, ind ≠ 0 → ind < p.heap.length → R p ind →
      priAt p.heap ind < priAt p.heap (p.parent ind) →
      R (swapSlots p ind (p.parent ind)) (p.parent ind)) :
    ∀ (fuel : Nat) (p : MinPQ V) (ind : Nat), ind ≤ fuel → (ind = 0 ∨ ind < p.heap.length) →
      R p ind →
      ∃ q k, heapUpAux fuel p ind = .ok q ∧ R q k ∧
        (k = 0 ∨ (k < q.heap.length ∧ ¬ priAt q.heap k < priAt q.heap (q.parent k))) := by
  intro fuel
  induction fuel with
  | zero =>
    intro p ind hle _ hR
    have h0 : ind = 0 := by omega
    subst h0
    exact ⟨p, 0, heapUpAux_zero 0 p, hR, Or.inl rfl⟩
  | succ fuel ih =>
    intro p ind hle hrange hR
    by_cases h0 : ind = 0
    · subst h0
      exact ⟨p, 0, heapUpAux_zero _ p, hR, Or.inl rfl⟩
    · have hlt : ind < p.heap.length := by
        rcases hrange with h | h
        · exact absurd h h0
        · exact h
      have hpl := hpar p ind h0 hR
      rw [heapUpAux_succ fuel p ind h0 hlt (by omega)]
      by_cases hc : priAt p.heap ind < priAt p.heap (p.parent ind)
      · rw [if_pos hc]
        apply ih
        · omega
        · right
          rw [swapSlots_length]
          omega
        · exact hstep p ind h0 hlt hR hc
      · rw [if_neg hc]
        exact ⟨p, ind, rfl, hR, Or.inr ⟨hlt, hc⟩⟩

theorem scanChildren_two (p : MinPQ V) (hd : p.heapDegree = 2) (fc : Nat)
    (hfc : fc + 1 < p.size → fc + 1 < p.heap.length) (pri : Int) :
    scanChildren p fc p.heapDegree 1 fc pri =
      if fc + 1 < p.size ∧ priAt p.heap (fc + 1) < pri then
        .ok (fc + 1, priAt p.heap (fc + 1))
      else .ok (fc, pri) := by
  rw [hd]
  by_cases h1 : fc + 1 < p.size
  · obtain ⟨a, ha⟩ := exists_getElem_of_lt (hfc h1)
    by_cases h2 : a.priority < pri
    · simp [scanChildren, hd, h1, load, ha, priAt, h2, bind, Except.bind]
    · simp [scanChildren, hd, h1, load, ha, priAt, h2, bind, Except.bind]
  · simp [scanChildren, hd, h1]

theorem heapDownAux_succ_two (fuel : Nat) (p : MinPQ V) (ind : Nat) (hd : p.heapDegree = 2)
    (hsz : p.size ≤ p.heap.length) :
    heapDownAux (fuel + 1) p ind =
      if 2 * ind + 1 ≥ p.size then .ok p
      else if priAt p.heap ind > priAt p.heap (minChild2 p ind) then
        heapDownAux fuel (swapSlots p ind (minChild2 p ind)) (minChild2 p ind)
      else .ok p := by
  rw [heapDownAux]
  have hfc : p.firstChild ind = 2 * ind + 1 := by simp [firstChild, hd]; ring
  simp only [hfc]
  by_cases h1 : 2 * ind + 1 ≥ p.size
  · simp [h1]
  · rw [if_neg h1, if_neg h1]
    have h1' : 2 * ind + 1 < p.heap.length := by omega
    have hind : ind < p.heap.length := by omega
    obtain ⟨a, ha⟩ := exists_getElem_of_lt h1'
    obtain ⟨n, hn⟩ := exists_getElem_of_lt hind
    have hpa : priAt p.heap (2 * ind + 1) = a.priority := priAt_of_some ha
    have hpn : priAt p.heap ind = n.priority := priAt_of_some hn
    have hload1 : load p.heap (2 * ind + 1) = .ok a := by simp [load, ha]
    have hloadn : load p.heap ind = .ok n := by simp [load, hn]
    simp only [hload1, bind, Except.bind]
    rw [scanChildren_two p hd (2 * ind + 1) (by omega)]
    by_cases h2 : 2 * ind + 1 + 1 < p.size ∧ priAt p.heap (2 * ind + 1 + 1) < a.priority
    · have hm : minChild2 p ind = 2 * ind + 2 := by
        have h2' : 2 * ind + 2 < p.size ∧ priAt p.heap (2 * ind + 2) < priAt p.heap (2 * ind + 1) := by
          rw [hpa]; exact h2
        simp [minChild2, h2']
      have h3 : 2 * ind + 2 < p.heap.length := by omega
      obtain ⟨b, hb⟩ := exists_getElem_of_lt h3
      have hpb : priAt p.heap (2 * ind + 2) = b.priority := priAt_of_some hb
      rw [if_pos h2, hm]
      simp [hloadn, load, hb, hpb, hpn, store, hind, h3, swapSlots, hn]
    · have hm : minChild2 p ind = 2 * ind + 1 := by
        have h2' : ¬ (2 * ind + 2 < p.size ∧ priAt p.heap (2 * ind + 2) < priAt p.heap (2 * ind + 1)) := by
          rw [hpa]; exact h2
        simp [minChild2, h2']
      rw [if_neg h2, hm]
      simp [hloadn, load, ha, hpa, hpn, store, hind, h1', swapSlots, hn]

theorem minChild2_cases (p : MinPQ V) (ind : Nat) :
    (minChild2 p ind = 2 * ind + 1 ∧
      (2 * ind + 2 < p.size → priAt p.heap (2 * ind + 1) ≤ priAt p.heap (2 * ind + 2))) ∨
    (minChild2 p ind = 2 * ind + 2 ∧ 2 * ind + 2 < p.size ∧
      priAt p.heap (2 * ind + 2) < priAt p.heap (2 * ind + 1)) := by
  unfold minChild2
  by_cases h : 2 * ind + 2 < p.size ∧ priAt p.heap (2 * ind + 2) < priAt p.heap (2 * ind + 1)
  · right
    rw [if_pos h]
    exact ⟨rfl, h.1, h.2⟩
  · left
    rw [if_neg h]
    refine ⟨rfl, fun h1 => ?_⟩
    by_contra h2
    exact h ⟨h1, by omega⟩

theorem minChild2_lt (p : MinPQ V) (ind : Nat) (h : 2 * ind + 1 < p.size) :
    minChild2 p ind < p.size ∧ ind < minChild2 p ind := by
  rcases minChild2_cases p ind with ⟨h1, _⟩ | ⟨h1, h2, _⟩ <;> rw [h1] <;> omega

/-- Induction principle for `heapDown` in a binary heap. -/
theorem heapDownAux_inv (R : MinPQ V → Nat → Prop)
    (hstep : ∀ p ind, p.heapDegree = 2 → p.size ≤ p.heap.length → 2 * ind + 1 < p.size →
      R p ind → priAt p.heap ind > priAt p.heap (minChild2 p ind) →
      R (swapSlots p ind (minChild2 p ind)) (minChild2 p ind)) :
    ∀ (fuel : Nat) (p : MinPQ V) (ind : Nat), p.heapDegree = 2 → p.size ≤ p.heap.length →
      p.size + 1 ≤ fuel + ind → 1 ≤ fuel → R p ind →
      ∃ q k, heapDownAux fuel p ind = .ok q ∧ R q k ∧
        (2 * k + 1 ≥ q.size ∨ ¬ priAt q.heap k > priAt q.heap (minChild2 q k)) := by
  intro fuel
  induction fuel with
  | zero =>
    intro p ind _ _ _ h1 _
    omega
  | succ fuel ih =>
    intro p ind hd hsz hfuel _ hR
    rw [heapDownAux_succ_two fuel p ind hd hsz]
    by_cases h1 : 2 * ind + 1 ≥ p.size
    · rw [if_pos h1]
      exact ⟨p, ind, rfl, hR, Or.inl h1⟩
    · rw [if_neg h1]
      by_cases hc : priAt p.heap ind > priAt p.heap (minChild2 p ind)
      · rw [if_pos hc]
        have hm := minChild2_lt p ind (by omega)
        apply ih
        · rw [swapSlots_heapDegree]; exact hd
        · rw [swapSlots_size, swapSlots_length]; exact hsz
        · rw [swapSlots_size]; omega
        · omega
        · exact hstep p ind hd hsz (by omega) hR hc
      · rw [if_neg hc]
        exact ⟨p, ind, rfl, hR, Or.inr hc⟩

theorem UpInv_swap (p : MinPQ V) (ind : Nat) (h0 : ind ≠ 0) (hlt : ind < p.heap.length)
    (hinv : UpInv p ind) (hc : priAt p.heap ind < priAt p.heap (p.floorParent ind)) :
    UpInv (swapSlots p ind (p.floorParent ind)) (p.floorParent ind) := by
  have hpl := floorParent_lt p h0
  have hpar : p.floorParent ind < p.heap.length := by omega
  obtain ⟨h1, h2⟩ := hinv
  have hpri := swapSlots_priAt p hlt hpar
  refine ⟨?_, ?_⟩
  · intro i hi1 hisz hne
    rw [swapSlots_size] at hisz
    rw [swapSlots_floorParent, hpri, hpri]
    have hpi : p.floorParent i < i := floorParent_lt p (by omega)
    rw [if_neg hne]
    by_cases hii : i = ind
    · subst hii
      rw [if_pos rfl, if_pos rfl]
      omega
    · rw [if_neg hii]
      by_cases hj : p.floorParent i = p.floorParent ind
      · rw [if_pos hj]
        have := h1 i hi1 hisz hii
        rw [hj] at this
        omega
      · rw [if_neg hj]
        by_cases hj2 : p.floorParent i = ind
        · rw [if_pos hj2]
          exact h2 (by omega) i hi1 hisz hj2
        · rw [if_neg hj2]
          exact h1 i hi1 hisz hii
  · intro hp1 c hc1 hcsz hpc
    rw [swapSlots_size] at hcsz
    rw [swapSlots_floorParent] at hpc
    rw [swapSlots_floorParent, hpri, hpri]
    have hpc_lt : p.floorParent c < c := floorParent_lt p (by omega)
    have hpp : p.floorParent (p.floorParent ind) < p.floorParent ind := floorParent_lt p (by omega)
    have hle : priAt p.heap (p.floorParent (p.floorParent ind)) ≤ priAt p.heap (p.floorParent ind) :=
      h1 (p.floorParent ind) hp1 (by omega) (by omega)
    rw [if_neg (by omega), if_neg (by omega)]
    rw [if_neg (by omega)]
    by_cases hci : c = ind
    · rw [if_pos hci]
      exact hle
    · rw [if_neg hci]
      have := h1 c hc1 hcsz hci
      rw [hpc] at this
      omega

theorem UpInv_done (q : MinPQ V) (k : Nat) (hinv : UpInv q k)
    (hk : k = 0 ∨ (k < q.heap.length ∧ ¬ priAt q.heap k < priAt q.heap (q.floorParent k))) :
    HeapOrder q := by
  intro i hi1 hisz
  by_cases hik : i = k
  · subst hik
    rcases hk with h | ⟨_, h⟩
    · omega
    · have : priAt q.heap (q.floorParent i) ≤ priAt q.heap i := by omega
      exact this
  · exact hinv.1 i hi1 hisz hik

theorem floorParent_two (p : MinPQ V) (hd : p.heapDegree = 2) (i : Nat) : p.floorParent i = (i - 1) / 2 := by
  simp [floorParent, hd]

theorem DownInv_swap (p : MinPQ V) (ind : Nat) (hd : p.heapDegree = 2)
    (hsz : p.size ≤ p.heap.length) (hfc : 2 * ind + 1 < p.size) (hinv : DownInv p ind)
    (hc : priAt p.heap ind > priAt p.heap (minChild2 p ind)) :
    DownInv (swapSlots p ind (minChild2 p ind)) (minChild2 p ind) := by
  have hm := minChild2_lt p ind hfc
  have hpri := swapSlots_priAt p (show ind < p.heap.length by omega)
    (show minChild2 p ind < p.heap.length by omega)
  have hpar := floorParent_two p hd
  obtain ⟨h1, h2⟩ := hinv
  have hmin1 : priAt p.heap (minChild2 p ind) ≤ priAt p.heap (2 * ind + 1) := by
    rcases minChild2_cases p ind with ⟨e, _⟩ | ⟨e, _, hlt⟩ <;> rw [e]
    omega
  have hmin2 : 2 * ind + 2 < p.size →
      priAt p.heap (minChild2 p ind) ≤ priAt p.heap (2 * ind + 2) := by
    intro hlt2
    rcases minChild2_cases p ind with ⟨e, hle⟩ | ⟨e, _, _⟩ <;> rw [e]
    exact hle hlt2
  have hmc : minChild2 p ind = 2 * ind + 1 ∨ minChild2 p ind = 2 * ind + 2 := by
    rcases minChild2_cases p ind with ⟨e, _⟩ | ⟨e, _, _⟩
    · exact Or.inl e
    · exact Or.inr e
  refine ⟨?_, ?_⟩
  · intro i hi1 hisz hne
    rw [swapSlots_size] at hisz
    rw [swapSlots_floorParent] at hne
    rw [swapSlots_floorParent, hpri, hpri]
    rw [if_neg hne]
    have hpi := hpar i
    by_cases him : i = minChild2 p ind
    · have hpe : p.floorParent i = ind := by rw [hpi]; omega
      rw [if_pos hpe, if_pos him]
      omega
    · rw [if_neg him]
      by_cases hii : i = ind
      · rw [if_pos hii]
        have hpne : ¬ p.floorParent i = ind := by rw [hpi]; omega
        rw [if_neg hpne]
        have := h2 (by omega) (minChild2 p ind) (by omega) hm.1 (by rw [hpar]; omega)
        rw [hii]
        exact this
      · rw [if_neg hii]
        by_cases hj : p.floorParent i = ind
        · rw [if_pos hj]
          have hi2 : i = 2 * ind + 1 ∨ i = 2 * ind + 2 := by rw [hpi] at hj; omega
          rcases hi2 with e | e
          · rw [e]; exact hmin1
          · rw [e]; exact hmin2 (by omega)
        · rw [if_neg hj]
          exact h1 i hi1 hisz hj
  · intro _ c hc1 hcsz hpc
    rw [swapSlots_size] at hcsz
    rw [swapSlots_floorParent] at hpc
    rw [swapSlots_floorParent, hpri, hpri]
    have hpm : p.floorParent (minChild2 p ind) = ind := by rw [hpar]; omega
    have hpcc := hpar c
    rw [hpm, if_neg (by omega), if_pos rfl, if_neg (by omega), if_neg (by omega)]
    have := h1 c hc1 hcsz (by rw [hpc]; omega)
    rw [hpc] at this
    exact this

theorem DownInv_done (q : MinPQ V) (k : Nat) (hd : q.heapDegree = 2) (hinv : DownInv q k)
    (hk : 2 * k + 1 ≥ q.size ∨ ¬ priAt q.heap k > priAt q.heap (minChild2 q k)) :
    HeapOrder q := by
  have hpar := floorParent_two q hd
  intro i hi1 hisz
  have hpi := hpar i
  show priAt q.heap (q.floorParent i) ≤ priAt q.heap i
  by_cases hik : q.floorParent i = k
  · rcases hk with h | h
    · omega
    · have hi2 : i = 2 * k + 1 ∨ i = 2 * k + 2 := by omega
      rw [hik]
      rcases minChild2_cases q k with ⟨e, hle⟩ | ⟨e, hlt, hlt2⟩
      · rw [e] at h
        rcases hi2 with e2 | e2
        · rw [e2]; omega
        · rw [e2]
          have := hle (by omega)
          omega
      · rw [e] at h
        rcases hi2 with e2 | e2
        · rw [e2]; omega
        · rw [e2]; omega
  · exact hinv.1 i hi1 hisz hik
theorem mapSwap_apply (m : V → Option Nat) (a b x : V) :
    mapSwap m a b x =
      if x = b then some (mapGet m a) else if x = a then some (mapGet m b) else m x := by
  simp [mapSwap, mapSet]

theorem mapGet_of_some {m : V → Option Nat} {a : V} {k : Nat} (h : m a = some k) :
    mapGet m a = k := by
  simp [mapGet, h]

theorem mapGet_lt_of_bounded {m : V → Option Nat} {L : Nat} (hL : 0 < L)
    (hb : ∀ v k, m v = some k → k < L) (a : V) : mapGet m a < L := by
  unfold mapGet
  cases h : m a with
  | none => simpa using hL
  | some k => simpa using hb a k h

theorem Bounded_swap (p : MinPQ V) {i j : Nat} (hi : i < p.heap.length)
    (hj : j < p.heap.length) (hb : Bounded p) : Bounded (swapSlots p i j) := by
  obtain ⟨a, ha⟩ := exists_getElem_of_lt hi
  obtain ⟨b, hb'⟩ := exists_getElem_of_lt hj
  intro v k hk
  rw [swapSlots_length]
  rw [swapSlots_indices p ha hb', mapSwap_apply] at hk
  have hL : 0 < p.heap.length := by omega
  split_ifs at hk
  · have := mapGet_lt_of_bounded hL hb a.val
    simp at hk; omega
  · have := mapGet_lt_of_bounded hL hb b.val
    simp at hk; omega
  · exact hb v k hk

theorem Stored_swap (p : MinPQ V) {i j : Nat} (hi : i < p.size) (hj : j < p.size)
    (hsz : p.size ≤ p.heap.length) (n : node V) :
    Stored (swapSlots p i j) n ↔ Stored p n := by
  have hg := swapSlots_getElem p (show i < p.heap.length by omega)
    (show j < p.heap.length by omega)
  constructor
  · rintro ⟨k, hk, hn⟩
    rw [swapSlots_size] at hk
    rw [hg] at hn
    split_ifs at hn
    · exact ⟨i, hi, hn⟩
    · exact ⟨j, hj, hn⟩
    · exact ⟨k, hk, hn⟩
  · rintro ⟨k, hk, hn⟩
    by_cases hki : k = i
    · refine ⟨j, by rw [swapSlots_size]; exact hj, ?_⟩
      rw [hg, if_pos rfl, ← hki]; exact hn
    · by_cases hkj : k = j
      · refine ⟨i, by rw [swapSlots_size]; exact hi, ?_⟩
        rw [hg]
        have : ¬ i = j := fun h => hki (by omega)
        rw [if_neg this, if_pos rfl, ← hkj]; exact hn
      · refine ⟨k, by rw [swapSlots_size]; exact hk, ?_⟩
        rw [hg, if_neg hkj, if_neg hki]; exact hn

theorem IdxOK_swap (p : MinPQ V) {i j : Nat} (hi : i < p.size) (hj : j < p.size)
    (hsz : p.size ≤ p.heap.length) (hok : IdxOK p) : IdxOK (swapSlots p i j) := by
  have hil : i < p.heap.length := by omega
  have hjl : j < p.heap.length := by omega
  obtain ⟨a, ha⟩ := exists_getElem_of_lt hil
  obtain ⟨b, hb⟩ := exists_getElem_of_lt hjl
  have hg := swapSlots_getElem p hil hjl
  have hma : p.indices a.val = some i := (hok a.val i).2 ⟨hi, a, ha, rfl⟩
  have hmb : p.indices b.val = some j := (hok b.val j).2 ⟨hj, b, hb, rfl⟩
  intro v k
  rw [swapSlots_indices p ha hb, mapSwap_apply, swapSlots_size, hg,
    mapGet_of_some hma, mapGet_of_some hmb]
  by_cases hij : i = j
  · subst hij
    have hab : a = b := by rw [ha] at hb; exact Option.some.inj hb
    subst hab
    have e1 : (if v = a.val then some i else if v = a.val then some i else p.indices v)
        = p.indices v := by
      by_cases hv : v = a.val
      · rw [if_pos hv, hv, hma]
      · rw [if_neg hv, if_neg hv]
    have e2 : (if k = i then p.heap[i]? else if k = i then p.heap[i]? else p.heap[k]?)
        = p.heap[k]? := by
      by_cases hk : k = i
      · rw [if_pos hk, hk]
      · rw [if_neg hk, if_neg hk]
    rw [e1, e2]
    exact hok v k
  · have hval : a.val ≠ b.val := by
      intro h
      rw [h, hmb] at hma
      exact hij (Option.some.inj hma).symm
    by_cases hvb : v = b.val
    · subst hvb
      rw [if_pos rfl]
      constructor
      · intro h
        have hk : k = i := (Option.some.inj h).symm
        subst hk
        refine ⟨hi, b, ?_, rfl⟩
        rw [if_neg hij, if_pos rfl]; exact hb
      · rintro ⟨hk, n, hn, hnv⟩
        by_cases hkj : k = j
        · rw [if_pos hkj, ha] at hn
          have : a = n := Option.some.inj hn
          subst this
          exact absurd hnv hval
        · rw [if_neg hkj] at hn
          by_cases hki : k = i
          · rw [hki]
          · rw [if_neg hki] at hn
            have := (hok b.val k).2 ⟨hk, n, hn, hnv⟩
            rw [hmb] at this
            exact absurd (Option.some.inj this).symm hkj
    · rw [if_neg hvb]
      by_cases hva : v = a.val
      · subst hva
        rw [if_pos rfl]
        constructor
        · intro h
          have hk : k = j := (Option.some.inj h).symm
          subst hk
          refine ⟨hj, a, ?_, rfl⟩
          rw [if_pos rfl]; exact ha
        · rintro ⟨hk, n, hn, hnv⟩
          by_cases hkj : k = j
          · rw [hkj]
          · rw [if_neg hkj] at hn
            by_cases hki : k = i
            · rw [if_pos hki, hb] at hn
              have : b = n := Option.some.inj hn
              subst this
              exact absurd hnv.symm hval
            · rw [if_neg hki] at hn
              have := (hok a.val k).2 ⟨hk, n, hn, hnv⟩
              rw [hma] at this
              exact absurd (Option.some.inj this).symm hki
      · rw [if_neg hva]
        rw [hok v k]
        constructor
        · rintro ⟨hk, n, hn, hnv⟩
          refine ⟨hk, n, ?_, hnv⟩
          have hkj : ¬ k = j := by
            intro h
            rw [h, hb] at hn
            have : b = n := Option.some.inj hn
            subst this
            exact hvb hnv.symm
          have hki : ¬ k = i := by
            intro h
            rw [h, ha] at hn
            have : a = n := Option.some.inj hn
            subst this
            exact hva hnv.symm
          rw [if_neg hkj, if_neg hki]; exact hn
        · rintro ⟨hk, n, hn, hnv⟩
          refine ⟨hk, n, ?_, hnv⟩
          by_cases hkj : k = j
          · rw [if_pos hkj, ha] at hn
            have : a = n := Option.some.inj hn
            subst this
            exact absurd hnv.symm hva
          · rw [if_neg hkj] at hn
            by_cases hki : k = i
            · rw [if_pos hki, hb] at hn
              have : b = n := Option.some.inj hn
              subst this
              exact absurd hnv.symm hvb
            · rw [if_neg hki] at hn
              exact hn

/-- What `heapUp` achieves from a slot up to `2^24`: it returns, changes neither degree,
size nor length, restores heap-order from `UpInv`, and keeps the index map in step with
the heap array. -/
theorem heapUp_spec (p : MinPQ V) (ind : Nat) (hd1 : 1 ≤ p.heapDegree) (hb : ind ≤ 2 ^ 24)
    (hrange : ind = 0 ∨ ind < p.heap.length) (hinv : UpInv p ind) :
    ∃ q, heapUp p ind = .ok q ∧ q.heapDegree = p.heapDegree ∧ q.size = p.size ∧
      q.heap.length = p.heap.length ∧ HeapOrder q ∧ (Bounded p → Bounded q) ∧
      (ind < p.size → p.size ≤ p.heap.length →
        (∀ n, Stored q n ↔ Stored p n) ∧ (IdxOK p → IdxOK q)) := by
  have key := heapUpAux_inv
    (fun (p1 : MinPQ V) (i1 : Nat) =>
      p1.heapDegree = p.heapDegree ∧ p1.size = p.size ∧ p1.heap.length = p.heap.length ∧
      UpInv p1 i1 ∧ (Bounded p → Bounded p1) ∧
      (ind < p.size → p.size ≤ p.heap.length →
        i1 < p.size ∧ (∀ n, Stored p1 n ↔ Stored p n) ∧ (IdxOK p → IdxOK p1)) ∧
      i1 ≤ 2 ^ 24)
    (by
      intro p1 i1 h0 ⟨hdeg, _, _, _, _, _, hle⟩
      rw [parent_eq_floorParent p1 i1 (by rw [hdeg]; exact hd1) hle]
      exact floorParent_lt p1 h0)
    (by
      intro p1 i1 h0 hlt ⟨hdeg, hsize, hlen, hup, hbd, hstrong, hle⟩ hc
      have hpe : p1.parent i1 = p1.floorParent i1 :=
        parent_eq_floorParent p1 i1 (by rw [hdeg]; exact hd1) hle
      rw [hpe] at hc ⊢
      have hpl := floorParent_lt p1 h0
      refine ⟨by rw [swapSlots_heapDegree, hdeg], by rw [swapSlots_size, hsize],
        by rw [swapSlots_length, hlen], UpInv_swap p1 i1 h0 hlt hup hc,
        fun hb => Bounded_swap p1 hlt (by omega) (hbd hb), ?_, by omega⟩
      intro h1 h2
      obtain ⟨hi1, hst, hidx⟩ := hstrong h1 h2
      have hi1' : i1 < p1.size := by omega
      have hp1' : p1.floorParent i1 < p1.size := by omega
      have hsz1 : p1.size ≤ p1.heap.length := by omega
      refine ⟨by omega, fun n => ?_, fun hok => ?_⟩
      · rw [Stored_swap p1 hi1' hp1' hsz1]
        exact hst n
      · exact IdxOK_swap p1 hi1' hp1' hsz1 (hidx hok))
    ind p ind (le_refl _) hrange
    ⟨rfl, rfl, rfl, hinv, fun h => h, fun h1 _ => ⟨h1, fun _ => Iff.rfl, fun h => h⟩, hb⟩
  obtain ⟨q, k, hq, ⟨hdeg, hsize, hlen, hup, hbd, hstrong, hle⟩, hk⟩ := key
  rw [parent_eq_floorParent q k (by rw [hdeg]; exact hd1) hle] at hk
  refine ⟨q, hq, hdeg, hsize, hlen, UpInv_done q k hup hk, hbd, ?_⟩
  intro h1 h2
  obtain ⟨_, hst, hidx⟩ := hstrong h1 h2
  exact ⟨hst, hidx⟩

/-- What `heapDown` achieves in a binary heap. -/
theorem heapDown_spec (p : MinPQ V) (ind : Nat) (hd : p.heapDegree = 2)
    (hsz : p.size ≤ p.heap.length) (hinv : DownInv p ind) :
    ∃ q, heapDown p ind = .ok q ∧ q.heapDegree = 2 ∧ q.size = p.size ∧
      q.heap.length = p.heap.length ∧ HeapOrder q ∧ (Bounded p → Bounded q) ∧
      (∀ n, Stored q n ↔ Stored p n) ∧ (IdxOK p → IdxOK q) := by
  have key := heapDownAux_inv
    (fun (p1 : MinPQ V) (i1 : Nat) =>
      p1.heapDegree = 2 ∧ p1.size = p.size ∧ p1.heap.length = p.heap.length ∧
      DownInv p1 i1 ∧ (Bounded p → Bounded p1) ∧
      (∀ n, Stored p1 n ↔ Stored p n) ∧ (IdxOK p → IdxOK p1))
    (by
      intro p1 i1 hd1 hsz1 hfc ⟨_, hsize, hlen, hdn, hbd, hst, hidx⟩ hc
      have hm := minChild2_lt p1 i1 hfc
      have hi1 : i1 < p1.size := by omega
      refine ⟨by rw [swapSlots_heapDegree, hd1], by rw [swapSlots_size, hsize],
        by rw [swapSlots_length, hlen], DownInv_swap p1 i1 hd1 hsz1 hfc hdn hc,
        fun hb => Bounded_swap p1 (by omega) (by omega) (hbd hb), fun n => ?_, fun hok => ?_⟩
      · rw [Stored_swap p1 hi1 hm.1 hsz1]
        exact hst n
      · exact IdxOK_swap p1 hi1 hm.1 hsz1 (hidx hok))
    (p.heap.length + 1) p ind hd hsz (by omega) (by omega)
    ⟨hd, rfl, rfl, hinv, fun h => h, fun _ => Iff.rfl, fun h => h⟩
  obtain ⟨q, k, hq, ⟨hdeg, hsize, hlen, hdn, hbd, hst, hidx⟩, hk⟩ := key
  exact ⟨q, hq, hdeg, hsize, hlen, DownInv_done q k hdeg hdn hk, hbd, hst, hidx⟩

theorem Insert_eq (q : MinPQ V) (v : V) (p : Int) :
    q.Insert v p = heapUp (insertPre q v p) q.size := by
  unfold MinPQ.Insert insertPre
  by_cases h : q.size + 1 ≥ q.heap.length
  · simp [h, bind, Except.bind, pure, Except.pure]
  · have h2 : q.size < q.heap.length := by omega
    simp [h, store, h2, bind, Except.bind]

theorem priAt_append_lt (h : List (node V)) (x : node V) {k : Nat} (hk : k < h.length) :
    priAt (h ++ [x]) k = priAt h k := by
  simp [priAt, List.getElem?_append_left hk]

theorem priAt_set_ne (h : List (node V)) (x : node V) {i k : Nat} (hk : k ≠ i) :
    priAt (h.set i x) k = priAt h k := by
  have : ¬ i = k := fun e => hk e.symm
  simp [priAt, List.getElem?_set, this]

theorem priAt_set_eq (h : List (node V)) (x : node V) {i : Nat} (hi : i < h.length) :
    priAt (h.set i x) i = x.priority := by
  simp [priAt, List.getElem?_set, hi]

theorem UpInv_of_agree (q p3 : MinPQ V) (hdeg : p3.heapDegree = q.heapDegree)
    (hsize : p3.size = q.size + 1)
    (hpre : ∀ k, k < q.size → priAt p3.heap k = priAt q.heap k) (hord : HeapOrder q) :
    UpInv p3 q.size := by
  refine ⟨?_, ?_⟩
  · intro i hi1 hisz hne
    have hi : i < q.size := by omega
    have hpl : p3.floorParent i < i := floorParent_lt p3 (by omega)
    rw [hpre i hi, hpre _ (by omega)]
    have := hord i hi1 hi
    simpa [floorParent, hdeg] using this
  · intro _ c hc1 hcsz hpc
    have hpl : p3.floorParent c < c := floorParent_lt p3 (by omega)
    omega

theorem Insert_spec (q : MinPQ V) (v : V) (p : Int) (hd1 : 1 ≤ q.heapDegree)
    (hb : q.size ≤ 2 ^ 24) (hsz : q.size ≤ q.heap.length) (hord : HeapOrder q) :
    ∃ q1, q.Insert v p = .ok q1 ∧ q1.heapDegree = q.heapDegree ∧ q1.size = q.size + 1 ∧
      q1.heap.length =
        (if q.size + 1 ≥ q.heap.length then q.heap.length + 1 else q.heap.length) ∧
      HeapOrder q1 ∧ (Bounded q → Bounded q1) ∧
      (q.heap.length ≠ q.size + 1 →
        (∀ n, Stored q1 n ↔ Stored q n ∨ n = { val := v, priority := p }) ∧
        (IdxOK q → q.indices v = none → IdxOK q1)) := by
  rw [Insert_eq q v p]
  generalize hp3 : insertPre q v p = p3
  have hdeg : p3.heapDegree = q.heapDegree := by rw [← hp3]; rfl
  have hsize : p3.size = q.size + 1 := by rw [← hp3]; rfl
  have hidx : p3.indices = mapSet q.indices v q.size := by rw [← hp3]; rfl
  have hheap : p3.heap = if q.size + 1 ≥ q.heap.length then
      q.heap ++ [{ val := v, priority := p }]
      else q.heap.set q.size { val := v, priority := p } := by rw [← hp3]; rfl
  have hlen : p3.heap.length =
      (if q.size + 1 ≥ q.heap.length then q.heap.length + 1 else q.heap.length) := by
    rw [hheap]; split_ifs <;> simp
  have hlt : q.size < p3.heap.length := by
    rw [hlen]; split_ifs <;> omega
  have hget : ∀ k, k < q.size → p3.heap[k]? = q.heap[k]? := by
    intro k hk
    rw [hheap]
    split_ifs
    · exact List.getElem?_append_left (by omega)
    · have : ¬ q.size = k := by omega
      simp [List.getElem?_set, this]
  have hpre : ∀ k, k < q.size → priAt p3.heap k = priAt q.heap k := by
    intro k hk
    simp [priAt, hget k hk]
  obtain ⟨q1, hq1, h1, h2, h3, h4, h5, h6⟩ :=
    heapUp_spec p3 q.size (by rw [hdeg]; exact hd1) hb (Or.inr hlt)
      (UpInv_of_agree q p3 hdeg hsize hpre hord)
  refine ⟨q1, hq1, by rw [h1, hdeg], by rw [h2, hsize], by rw [h3, hlen], h4, ?_, ?_⟩
  · intro hb
    apply h5
    intro x k hk
    rw [hidx] at hk
    simp only [mapSet] at hk
    split_ifs at hk
    · simp at hk; omega
    · have := hb x k hk
      rw [hlen]; split_ifs <;> omega
  · intro hne
    have hnew : p3.heap[q.size]? = some { val := v, priority := p } := by
      rw [hheap]
      split_ifs with hc
      · have : q.size = q.heap.length := by omega
        rw [this]; simp
      · simp [List.getElem?_set]; omega
    have hst3 : ∀ n, Stored p3 n ↔ Stored q n ∨ n = { val := v, priority := p } := by
      intro n
      constructor
      · rintro ⟨k, hk, hn⟩
        rw [hsize] at hk
        by_cases hks : k = q.size
        · right
          rw [hks, hnew] at hn
          exact (Option.some.inj hn).symm
        · left
          exact ⟨k, by omega, by rw [← hget k (by omega)]; exact hn⟩
      · rintro (⟨k, hk, hn⟩ | hn)
        · exact ⟨k, by omega, by rw [hget k hk]; exact hn⟩
        · exact ⟨q.size, by omega, by rw [hnew, hn]⟩
    obtain ⟨hst, hok⟩ := h6 (by omega) (by omega)
    refine ⟨fun n => (hst n).trans (hst3 n), fun hq hv => hok ?_⟩
    intro x k
    rw [hidx, hsize]
    simp only [mapSet]
    by_cases hx : x = v
    · subst hx
      rw [if_pos rfl]
      constructor
      · intro h
        have hk : k = q.size := (Option.some.inj h).symm
        subst hk
        exact ⟨by omega, _, hnew, rfl⟩
      · rintro ⟨hk, n, hn, hnv⟩
        by_cases hks : k = q.size
        · rw [hks]
        · rw [hget k (by omega)] at hn
          have := (hq x k).2 ⟨by omega, n, hn, hnv⟩
          rw [hv] at this
          exact absurd this (by simp)
    · rw [if_neg hx, hq x k]
      constructor
      · rintro ⟨hk, n, hn, hnv⟩
        exact ⟨by omega, n, by rw [hget k hk]; exact hn, hnv⟩
      · rintro ⟨hk, n, hn, hnv⟩
        by_cases hks : k = q.size
        · rw [hks, hnew] at hn
          have : n = { val := v, priority := p } := (Option.some.inj hn).symm
          rw [this] at hnv
          exact absurd hnv.symm hx
        · exact ⟨by omega, n, by rw [← hget k (by omega)]; exact hn, hnv⟩

/-- In a heap-ordered state the root has the least priority of all stored nodes. -/
theorem root_min (q : MinPQ V) (hord : HeapOrder q) :
    ∀ i, i < q.size → priAt q.heap 0 ≤ priAt q.heap i := by
  intro i
  induction i using Nat.strong_induction_on with
  | _ i ih =>
    intro hi
    by_cases h0 : i = 0
    · rw [h0]
    · have hpl : (i - 1) / q.heapDegree < i := by
        have : (i - 1) / q.heapDegree ≤ i - 1 := Nat.div_le_self _ _
        omega
      have h1 := ih _ hpl (by omega)
      have h2 := hord i (by omega) hi
      omega

theorem root_le_stored (q : MinPQ V) (hord : HeapOrder q) (n0 n : node V)
    (h0 : q.heap[0]? = some n0) (hn : Stored q n) : n0.priority ≤ n.priority := by
  obtain ⟨i, hi, hin⟩ := hn
  have := root_min q hord i hi
  rw [priAt_of_some h0, priAt_of_some hin] at this
  exact this

theorem Pop_eq_last [Inhabited V] (q : MinPQ V) (n0 : node V) (h0 : q.heap[0]? = some n0)
    (h1 : q.size = 1) :
    q.Pop = .ok ((n0.val, n0.priority),
      { q with indices := mapDelete q.indices n0.val, size := 0 }) := by
  unfold MinPQ.Pop
  simp [h1, load, h0, bind, Except.bind]

theorem Pop_eq_more [Inhabited V] (q : MinPQ V) (n0 last : node V)
    (h0 : q.heap[0]? = some n0) (hl : q.heap[q.size - 1]? = some last) (h1 : 2 ≤ q.size) :
    q.Pop = (heapDown (popPre q n0 last) 0).map (fun q1 => ((n0.val, n0.priority), q1)) := by
  unfold MinPQ.Pop popPre
  have hs0 : q.size ≠ 0 := by omega
  have hs1 : q.size - 1 ≠ 0 := by omega
  have hlen : 0 < q.heap.length := by
    by_contra h
    have : q.heap.length = 0 := by omega
    simp [List.length_eq_zero.mp this] at h0
  have hroot : (q.heap.set 0 last)[0]? = some last := by
    simp [List.getElem?_set, hlen]
  simp only [hs0, hs1, if_false, load, h0, hl, store, hlen, if_true, bind, Except.bind,
    Except.map, hroot]

theorem Pop_spec [Inhabited V] (q : MinPQ V) (hd : q.heapDegree = 2)
    (hsz : q.size ≤ q.heap.length) (hord : HeapOrder q) (hne : q.size ≠ 0) :
    ∃ n0 q1, q.heap[0]? = some n0 ∧ q.Pop = .ok ((n0.val, n0.priority), q1) ∧
      q1.heapDegree = 2 ∧ q1.size + 1 = q.size ∧ q1.heap.length = q.heap.length ∧
      HeapOrder q1 ∧ (Bounded q → Bounded q1) ∧ (∀ n, Stored q1 n → Stored q n) ∧
      (IdxOK q → IdxOK q1 ∧ ∀ n, Stored q1 n ↔ (Stored q n ∧ n.val ≠ n0.val)) := by
  obtain ⟨n0, h0⟩ := exists_getElem_of_lt (show 0 < q.heap.length by omega)
  by_cases h1 : q.size = 1
  · refine ⟨n0, _, h0, Pop_eq_last q n0 h0 h1, hd, by simp [h1], rfl, ?_, ?_, ?_, ?_⟩
    · intro i _ hi
      simp at hi
    · intro hb x k hk
      simp only [mapDelete] at hk
      split_ifs at hk
      exact hb x k hk
    · rintro n ⟨k, hk, _⟩
      simp at hk
    · intro hok
      refine ⟨?_, ?_⟩
      · intro x k
        simp only [mapDelete]
        constructor
        · intro h
          split_ifs at h with hx
          obtain ⟨hk, n, hn, hnv⟩ := (hok x k).1 h
          have hk0 : k = 0 := by omega
          rw [hk0, h0] at hn
          have : n0 = n := Option.some.inj hn
          rw [← this] at hnv
          exact absurd hnv.symm hx
        · rintro ⟨hk, _⟩
          simp at hk
      · intro n
        constructor
        · rintro ⟨k, hk, _⟩
          simp at hk
        · rintro ⟨⟨k, hk, hn⟩, hnv⟩
          have hk0 : k = 0 := by omega
          rw [hk0, h0] at hn
          have : n0 = n := Option.some.inj hn
          rw [this] at hnv
          exact absurd rfl hnv
  · have h2 : 2 ≤ q.size := by omega
    obtain ⟨last, hl⟩ := exists_getElem_of_lt (show q.size - 1 < q.heap.length by omega)
    rw [Pop_eq_more q n0 last h0 hl h2]
    generalize hpp : popPre q n0 last = pp
    have hdeg : pp.heapDegree = 2 := by rw [← hpp]; exact hd
    have hsize : pp.size = q.size - 1 := by rw [← hpp]; rfl
    have hheap : pp.heap = q.heap.set 0 last := by rw [← hpp]; rfl
    have hidx : pp.indices = mapSet (mapDelete q.indices n0.val) last.val 0 := by
      rw [← hpp]; rfl
    have hlen : pp.heap.length = q.heap.length := by rw [hheap]; simp
    have hget : ∀ k, pp.heap[k]? = if k = 0 then some last else q.heap[k]? := by
      intro k
      rw [hheap, List.getElem?_set]
      by_cases hk : k = 0
      · subst hk
        have : 0 < q.heap.length := by omega
        simp [this]
      · have : ¬ 0 = k := fun e => hk e.symm
        rw [if_neg this, if_neg hk]
    have hpri : ∀ k, k ≠ 0 → priAt pp.heap k = priAt q.heap k := by
      intro k hk
      simp [priAt, hget k, hk]
    have hpar := floorParent_two pp hdeg
    have hdown : DownInv pp 0 := by
      refine ⟨?_, ?_⟩
      · intro i hi1 hisz hne1
        have hpi := hpar i
        rw [hpri i (by omega), hpri _ (by omega)]
        have := hord i hi1 (by omega)
        rw [hd] at this
        rw [hpi]
        exact this
      · intro h
        omega
    obtain ⟨q1, hq1, e1, e2, e3, e4, e5, e6, e7⟩ :=
      heapDown_spec pp 0 hdeg (by omega) hdown
    have hst : ∀ n, Stored pp n → Stored q n := by
      rintro n ⟨k, hk, hn⟩
      rw [hget k] at hn
      split_ifs at hn with hk0
      · exact ⟨q.size - 1, by omega, by rw [hl]; exact hn⟩
      · exact ⟨k, by omega, hn⟩
    refine ⟨n0, q1, h0, by rw [hq1]; rfl, e1, by omega, by rw [e3, hlen], e4, ?_,
      fun n hn => hst n ((e6 n).1 hn), ?_⟩
    · intro hb
      apply e5
      intro x k hk
      rw [hidx] at hk
      simp only [mapSet, mapDelete] at hk
      rw [hlen]
      split_ifs at hk
      · simp at hk; omega
      · exact hb x k hk
    · intro hok
      have hv0 : ∀ k n, k < q.size → q.heap[k]? = some n → n.val = n0.val → k = 0 := by
        intro k n hk hn hnv
        have e := (hok n.val k).2 ⟨hk, n, hn, rfl⟩
        have e0 := (hok n0.val 0).2 ⟨by omega, n0, h0, rfl⟩
        rw [hnv, e0] at e
        exact (Option.some.inj e).symm
      have hvl : ∀ k n, k < q.size → q.heap[k]? = some n → n.val = last.val →
          k = q.size - 1 := by
        intro k n hk hn hnv
        have e := (hok n.val k).2 ⟨hk, n, hn, rfl⟩
        have e0 := (hok last.val (q.size - 1)).2 ⟨by omega, last, hl, rfl⟩
        rw [hnv, e0] at e
        exact (Option.some.inj e).symm
      have hlast0 : last.val ≠ n0.val := by
        intro h
        have := hv0 (q.size - 1) last (by omega) hl h
        omega
      have hokpp : IdxOK pp := by
        intro x k
        rw [hidx, hsize, hget k]
        simp only [mapSet, mapDelete]
        by_cases hx : x = last.val
        · subst hx
          rw [if_pos rfl]
          constructor
          · intro h
            have hk : k = 0 := (Option.some.inj h).symm
            subst hk
            exact ⟨by omega, last, by simp, rfl⟩
          · rintro ⟨hk, n, hn, hnv⟩
            by_cases hk0 : k = 0
            · rw [hk0]
            · rw [if_neg hk0] at hn
              have := hvl k n (by omega) hn hnv
              omega
        · rw [if_neg hx]
          by_cases hx0 : x = n0.val
          · subst hx0
            rw [if_pos rfl]
            constructor
            · intro h
              simp at h
            · rintro ⟨hk, n, hn, hnv⟩
              by_cases hk0 : k = 0
              · rw [if_pos hk0] at hn
                have : last = n := Option.some.inj hn
                rw [← this] at hnv
                exact absurd hnv hlast0
              · rw [if_neg hk0] at hn
                exact absurd (hv0 k n (by omega) hn hnv) hk0
          · rw [if_neg hx0, hok x k]
            constructor
            · rintro ⟨hk, n, hn, hnv⟩
              have hk0 : k ≠ 0 := by
                intro h
                rw [h, h0] at hn
                have : n0 = n := Option.some.inj hn
                rw [← this] at hnv
                exact hx0 hnv.symm
              have hkl : k ≠ q.size - 1 := by
                intro h
                rw [h, hl] at hn
                have : last = n := Option.some.inj hn
                rw [← this] at hnv
                exact hx hnv.symm
              exact ⟨by omega, n, by rw [if_neg hk0]; exact hn, hnv⟩
            · rintro ⟨hk, n, hn, hnv⟩
              by_cases hk0 : k = 0
              · rw [if_pos hk0] at hn
                have : last = n := Option.some.inj hn
                rw [← this] at hnv
                exact absurd hnv.symm hx
              · rw [if_neg hk0] at hn
                exact ⟨by omega, n, hn, hnv⟩
      refine ⟨e7 hokpp, fun n => ?_⟩
      rw [e6 n]
      constructor
      · rintro ⟨k, hk, hn⟩
        refine ⟨hst n ⟨k, hk, hn⟩, ?_⟩
        rw [hget k] at hn
        split_ifs at hn with hk0
        · have : last = n := Option.some.inj hn
          rw [← this]
          exact hlast0
        · intro hnv
          exact hk0 (hv0 k n (by omega) hn hnv)
      · rintro ⟨⟨k, hk, hn⟩, hnv⟩
        have hk0 : k ≠ 0 := by
          intro h
          rw [h, h0] at hn
          have : n0 = n := Option.some.inj hn
          rw [this] at hnv
          exact hnv rfl
        by_cases hkl : k = q.size - 1
        · refine ⟨0, by omega, ?_⟩
          rw [hget 0, if_pos rfl]
          rw [hkl, hl] at hn
          exact hn
        · refine ⟨k, by omega, ?_⟩
          rw [hget k, if_neg hk0]
          exact hn

theorem UpdatePriority_eq (q : MinPQ V) (v : V) (p : Int) (ind : Nat) (old : node V)
    (hind : q.indices v = some ind) (hold : q.heap[ind]? = some old) :
    q.UpdatePriority v p =
      if old.priority < p then
        (heapDown (updatePre q ind old p) ind).map (fun q1 => (none, q1))
      else (heapUp (updatePre q ind old p) ind).map (fun q1 => (none, q1)) := by
  have hlt : ind < q.heap.length := by
    by_contra h
    rw [List.getElem?_eq_none (by omega)] at hold
    exact absurd hold (by simp)
  unfold MinPQ.UpdatePriority updatePre
  simp only [hind, load, hold, store, hlt, if_true, bind, Except.bind, Except.map]

theorem UpdatePriority_spec (q : MinPQ V) (v : V) (p : Int) (ind : Nat)
    (hd1 : 1 ≤ q.heapDegree) (hb : ind ≤ 2 ^ 24)
    (hind : q.indices v = some ind) (hlt : ind < q.heap.length)
    (hsz : q.size ≤ q.heap.length) (hord : HeapOrder q)
    (hdir : q.heapDegree = 2 ∨ p ≤ priAt q.heap ind) :
    ∃ q1, q.UpdatePriority v p = .ok (none, q1) ∧ q1.heapDegree = q.heapDegree ∧
      q1.size = q.size ∧ q1.heap.length = q.heap.length ∧ HeapOrder q1 ∧
      (Bounded q → Bounded q1) ∧
      (IdxOK q → IdxOK q1 ∧
        ∀ n, Stored q1 n ↔ (Stored q n ∧ n.val ≠ v) ∨ n = { val := v, priority := p }) := by
  obtain ⟨old, hold⟩ := exists_getElem_of_lt hlt
  rw [UpdatePriority_eq q v p ind old hind hold]
  generalize hpu : updatePre q ind old p = pu
  have hdeg : pu.heapDegree = q.heapDegree := by rw [← hpu]; rfl
  have hsize : pu.size = q.size := by rw [← hpu]; rfl
  have hidx : pu.indices = q.indices := by rw [← hpu]; rfl
  have hheap : pu.heap = q.heap.set ind { old with priority := p } := by rw [← hpu]; rfl
  have hlen : pu.heap.length = q.heap.length := by rw [hheap]; simp
  have hget : ∀ k, pu.heap[k]? =
      if k = ind then some { val := old.val, priority := p } else q.heap[k]? := by
    intro k
    rw [hheap, List.getElem?_set]
    by_cases hk : k = ind
    · subst hk
      simp [hlt]
    · have : ¬ ind = k := fun e => hk e.symm
      rw [if_neg this, if_neg hk]
  have hpri : ∀ k, priAt pu.heap k = if k = ind then p else priAt q.heap k := by
    intro k
    unfold priAt
    rw [hget k]
    split_ifs <;> rfl
  have hold_pri : priAt q.heap ind = old.priority := priAt_of_some hold
  have hparent : ∀ i, pu.floorParent i = (i - 1) / q.heapDegree := by
    intro i; simp [floorParent, hdeg]
  have hpl : ∀ i, 1 ≤ i → (i - 1) / q.heapDegree < i := by
    intro i hi
    have : (i - 1) / q.heapDegree ≤ i - 1 := Nat.div_le_self _ _
    omega
  have hgp : 1 ≤ ind → ∀ c, 1 ≤ c → c < pu.size → pu.floorParent c = ind →
      priAt pu.heap (pu.floorParent ind) ≤ priAt pu.heap c := by
    intro h1 c hc1 hcsz hpc
    rw [hparent] at hpc
    have hcl := hpl c hc1
    have hil := hpl ind h1
    rw [hparent, hpri, hpri, if_neg (by omega), if_neg (by omega)]
    have e1 := hord ind h1 (by omega)
    have e2 := hord c hc1 (by omega)
    rw [hpc] at e2
    omega
  have hbd : Bounded q → Bounded pu := by
    intro hb x k hk
    rw [hidx] at hk
    rw [hlen]
    exact hb x k hk
  have hstrong : IdxOK q → ind < pu.size ∧ IdxOK pu ∧
      ∀ n, Stored pu n ↔ (Stored q n ∧ n.val ≠ v) ∨ n = { val := v, priority := p } := by
    intro hok
    obtain ⟨hi, n1, hn1, hv1⟩ := (hok v ind).1 hind
    have hov : old.val = v := by
      rw [hold] at hn1
      rw [Option.some.inj hn1]; exact hv1
    have huniq : ∀ k n, k < q.size → q.heap[k]? = some n → n.val = v → k = ind := by
      intro k n hk hn hnv
      have e := (hok v k).2 ⟨hk, n, hn, hnv⟩
      rw [hind] at e
      exact (Option.some.inj e).symm
    refine ⟨by omega, ?_, ?_⟩
    · intro x k
      rw [hidx, hsize, hok x k, hget k]
      by_cases hk : k = ind
      · subst hk
        rw [if_pos rfl]
        constructor
        · rintro ⟨hk, n, hn, hnv⟩
          rw [hold] at hn
          refine ⟨hk, _, rfl, ?_⟩
          rw [← hnv, ← Option.some.inj hn]
        · rintro ⟨hk, n, hn, hnv⟩
          refine ⟨hk, old, hold, ?_⟩
          rw [← hnv, ← Option.some.inj hn]
      · rw [if_neg hk]
    · intro n
      constructor
      · rintro ⟨k, hk, hn⟩
        rw [hget k] at hn
        split_ifs at hn with hki
        · right
          rw [← Option.some.inj hn, hov]
        · left
          refine ⟨⟨k, by omega, hn⟩, fun hnv => hki (huniq k n (by omega) hn hnv)⟩
      · rintro (⟨⟨k, hk, hn⟩, hnv⟩ | hn)
        · have hki : k ≠ ind := by
            intro h
            rw [h, hold] at hn
            rw [← Option.some.inj hn] at hnv
            exact hnv hov
          exact ⟨k, by omega, by rw [hget k, if_neg hki]; exact hn⟩
        · exact ⟨ind, by omega, by rw [hget ind, if_pos rfl, hn, hov]⟩
  by_cases hc : old.priority < p
  · rw [if_pos hc]
    have hd : q.heapDegree = 2 := by
      rcases hdir with h | h
      · exact h
      · omega
    have hdown : DownInv pu ind := by
      refine ⟨?_, hgp⟩
      intro i hi1 hisz hne
      rw [hparent] at hne
      rw [hparent, hpri, hpri, if_neg hne]
      have e := hord i hi1 (by omega)
      split_ifs with hii
      · rw [hii] at e ⊢; omega
      · exact e
    obtain ⟨q1, hq1, e1, e2, e3, e4, e5, e6, e7⟩ :=
      heapDown_spec pu ind (by rw [hdeg, hd]) (by omega) hdown
    refine ⟨q1, by rw [hq1]; rfl, by rw [e1, hd], by omega, by omega, e4,
      fun hb => e5 (hbd hb), fun hok => ?_⟩
    obtain ⟨_, h1, h2⟩ := hstrong hok
    exact ⟨e7 h1, fun n => (e6 n).trans (h2 n)⟩
  · rw [if_neg hc]
    have hup : UpInv pu ind := by
      refine ⟨?_, hgp⟩
      intro i hi1 hisz hne
      rw [hparent, hpri, hpri, if_neg hne]
      have e := hord i hi1 (by omega)
      split_ifs with hii
      · rw [hii] at e; omega
      · exact e
    obtain ⟨q1, hq1, e1, e2, e3, e4, e5, e6⟩ :=
      heapUp_spec pu ind (by rw [hdeg]; exact hd1) hb (Or.inr (by omega)) hup
    refine ⟨q1, by rw [hq1]; rfl, by rw [e1, hdeg], by omega, by omega, e4,
      fun hb => e5 (hbd hb), fun hok => ?_⟩
    obtain ⟨h0, h1, h2⟩ := hstrong hok
    obtain ⟨h3, h4⟩ := e6 h0 (by omega)
    exact ⟨h4 h1, fun n => (h3 n).trans (h2 n)⟩

theorem WellFormed_iff (q : MinPQ V) :
    WellFormed q ↔ q.size ≤ q.heap.length ∧ HeapOrder q ∧ IdxOK q := by
  constructor
  · intro h
    refine ⟨h.size_le, h.heapOrder, ?_⟩
    intro v k
    constructor
    · intro hk
      obtain ⟨i, n, hi, hn, hnv⟩ := h.noOtherKeys v (by simp [Contains, hk])
      have := h.indexCorrect i n hi hn
      rw [hnv, hk] at this
      have hki : k = i := Option.some.inj this
      rw [hki]
      exact ⟨hi, n, hn, hnv⟩
    · rintro ⟨hk, n, hn, hnv⟩
      rw [← hnv]
      exact h.indexCorrect k n hk hn
  · rintro ⟨h1, h2, h3⟩
    refine ⟨h1, h2, ?_, ?_, ?_⟩
    · intro i n hi hn
      exact (h3 n.val i).2 ⟨hi, n, hn, rfl⟩
    · intro v hv
      simp only [Contains] at hv
      obtain ⟨k, hk⟩ := Option.isSome_iff_exists.mp hv
      obtain ⟨hks, n, hn, hnv⟩ := (h3 v k).1 hk
      exact ⟨k, n, hks, hn, hnv⟩
    · intro i j a b hi hj ha hb hab
      have e1 := (h3 a.val i).2 ⟨hi, a, ha, rfl⟩
      have e2 := (h3 b.val j).2 ⟨hj, b, hb, rfl⟩
      rw [hab, e2] at e1
      exact (Option.some.inj e1).symm

theorem CurrentPriority_of_stored (q : MinPQ V) (hok : IdxOK q) (n : node V)
    (hn : Stored q n) : q.CurrentPriority n.val = .ok (n.priority, true) := by
  obtain ⟨i, hi, hin⟩ := hn
  have := (hok n.val i).2 ⟨hi, n, hin, rfl⟩
  simp [CurrentPriority, this, load, hin, bind, Except.bind]

theorem CurrentPriority_of_not_stored (q : MinPQ V) (hok : IdxOK q) (w : V)
    (hn : ∀ n, Stored q n → n.val ≠ w) : q.CurrentPriority w = .ok (0, false) := by
  have : q.indices w = none := by
    cases h : q.indices w with
    | none => rfl
    | some k =>
      obtain ⟨hk, n, hkn, hnv⟩ := (hok w k).1 h
      exact absurd hnv (hn n ⟨k, hk, hkn⟩)
  simp [CurrentPriority, this]

theorem Stored_of_CurrentPriority (q : MinPQ V) (hok : IdxOK q) (w : V) (pw : Int)
    (h : q.CurrentPriority w = .ok (pw, true)) : Stored q { val := w, priority := pw } := by
  cases hi : q.indices w with
  | none => simp [CurrentPriority, hi] at h
  | some k =>
    obtain ⟨hk, n, hkn, hnv⟩ := (hok w k).1 hi
    simp [CurrentPriority, hi, load, hkn, bind, Except.bind] at h
    refine ⟨k, hk, ?_⟩
    rw [hkn, ← hnv, ← h]

theorem Contains_iff_stored (q : MinPQ V) (hok : IdxOK q) (w : V) :
    q.Contains w = true ↔ ∃ n, Stored q n ∧ n.val = w := by
  simp only [Contains]
  constructor
  · intro h
    obtain ⟨k, hk⟩ := Option.isSome_iff_exists.mp h
    obtain ⟨hks, n, hn, hnv⟩ := (hok w k).1 hk
    exact ⟨n, ⟨k, hks, hn⟩, hnv⟩
  · rintro ⟨n, ⟨k, hk, hn⟩, hnv⟩
    rw [(hok w k).2 ⟨hk, n, hn, hnv⟩]
    rfl

theorem Stored_val_unique (q : MinPQ V) (hok : IdxOK q) (a b : node V) (ha : Stored q a)
    (hb : Stored q b) (hab : a.val = b.val) : a = b := by
  obtain ⟨i, hi, hia⟩ := ha
  obtain ⟨j, hj, hjb⟩ := hb
  have e1 := (hok a.val i).2 ⟨hi, a, hia, rfl⟩
  have e2 := (hok b.val j).2 ⟨hj, b, hjb, rfl⟩
  rw [hab, e2] at e1
  have : j = i := Option.some.inj e1
  rw [this, hia] at hjb
  exact Option.some.inj hjb

theorem Inv2_New (hint : Nat) : Inv2 (New 2 hint : MinPQ V) := by
  refine ⟨rfl, by simp [New], ?_, ?_⟩
  · intro i _ hi
    simp [New] at hi
  · intro v k hk
    simp [New] at hk

theorem Pop_empty [Inhabited V] (q : MinPQ V) (h : q.size = 0) :
    q.Pop = .ok ((default, 0), q) := by
  simp [MinPQ.Pop, h]

theorem UpdatePriority_absent (q : MinPQ V) (v : V) (p : Int) (h : q.indices v = none) :
    q.UpdatePriority v p = .ok (some "Unable to find value in priority queue.", q) := by
  simp [MinPQ.UpdatePriority, h]

/-! ## The binary queue stays inside its slice -/

/-- In a binary queue `heapUp` returns, from any slot of the slice. -/
theorem heapUp_safe (p : MinPQ V) (ind : Nat) (hd : p.heapDegree = 2)
    (hrange : ind = 0 ∨ ind < p.heap.length) :
    ∃ q, heapUp p ind = .ok q ∧ q.heapDegree = 2 ∧ q.size = p.size ∧
      q.heap.length = p.heap.length ∧ (Bounded p → Bounded q) := by
  have key := heapUpAux_inv
    (fun (p1 : MinPQ V) (_ : Nat) =>
      p1.heapDegree = 2 ∧ p1.size = p.size ∧ p1.heap.length = p.heap.length ∧
      (Bounded p → Bounded p1))
    (by
      intro p1 i1 h0 ⟨hdeg, _⟩
      exact parent_lt_two p1 hdeg h0)
    (by
      intro p1 i1 h0 hlt ⟨hdeg, hsize, hlen, hbd⟩ _
      have hpl := parent_lt_two p1 hdeg h0
      exact ⟨by rw [swapSlots_heapDegree, hdeg], by rw [swapSlots_size, hsize],
        by rw [swapSlots_length, hlen], fun hb => Bounded_swap p1 hlt (by omega) (hbd hb)⟩)
    ind p ind (le_refl _) hrange ⟨hd, rfl, rfl, fun h => h⟩
  obtain ⟨q, k, hq, ⟨h1, h2, h3, h4⟩, _⟩ := key
  exact ⟨q, hq, h1, h2, h3, h4⟩

/-- In a binary queue `heapDown` returns, from any slot. -/
theorem heapDown_safe (p : MinPQ V) (ind : Nat) (hd : p.heapDegree = 2)
    (hsz : p.size ≤ p.heap.length) :
    ∃ q, heapDown p ind = .ok q ∧ q.heapDegree = 2 ∧ q.size = p.size ∧
      q.heap.length = p.heap.length ∧ (Bounded p → Bounded q) := by
  have key := heapDownAux_inv
    (fun (p1 : MinPQ V) (_ : Nat) =>
      p1.heapDegree = 2 ∧ p1.size = p.size ∧ p1.heap.length = p.heap.length ∧
      (Bounded p → Bounded p1))
    (by
      intro p1 i1 hd1 hsz1 hfc ⟨_, hsize, hlen, hbd⟩ _
      have hm := minChild2_lt p1 i1 hfc
      exact ⟨by rw [swapSlots_heapDegree, hd1], by rw [swapSlots_size, hsize],
        by rw [swapSlots_length, hlen],
        fun hb => Bounded_swap p1 (by omega) (by omega) (hbd hb)⟩)
    (p.heap.length + 1) p ind hd hsz (by omega) (by omega) ⟨hd, rfl, rfl, fun h => h⟩
  obtain ⟨q, k, hq, ⟨h1, h2, h3, h4⟩, _⟩ := key
  exact ⟨q, hq, h1, h2, h3, h4⟩

theorem Insert_safe (q : MinPQ V) (v : V) (p : Int) (h : Safe2 q) :
    ∃ q1, q.Insert v p = .ok q1 ∧ Safe2 q1 ∧ q1.size = q.size + 1 ∧
      q1.heap.length =
        (if q.size + 1 ≥ q.heap.length then q.heap.length + 1 else q.heap.length) := by
  obtain ⟨hd, hsz, hb⟩ := h
  rw [Insert_eq q v p]
  have hlen : (insertPre q v p).heap.length =
      (if q.size + 1 ≥ q.heap.length then q.heap.length + 1 else q.heap.length) := by
    unfold insertPre
    simp only
    split_ifs <;> simp
  have hlt : q.size < (insertPre q v p).heap.length := by
    rw [hlen]; split_ifs <;> omega
  have hbp : Bounded (insertPre q v p) := by
    intro x k hk
    have hk1 : mapSet q.indices v q.size x = some k := hk
    unfold mapSet at hk1
    split_ifs at hk1 with hx
    · cases hk1
      exact hlt
    · have := hb x k hk1
      rw [hlen]
      split_ifs <;> omega
  obtain ⟨q1, hq1, e1, e2, e3, e4⟩ := heapUp_safe (insertPre q v p) q.size hd (Or.inr hlt)
  refine ⟨q1, hq1, ⟨e1, ?_, e4 hbp⟩, e2, by rw [e3, hlen]⟩
  rw [e2, e3]
  have : (insertPre q v p).size = q.size + 1 := rfl
  omega

theorem Bounded_mapDelete {m : V → Option Nat} {L : Nat} (hb : ∀ v k, m v = some k → k < L)
    (a : V) : ∀ v k, mapDelete m a v = some k → k < L := by
  intro v k hk
  unfold mapDelete at hk
  split_ifs at hk
  exact hb v k hk

theorem Pop_safe [Inhabited V] (q : MinPQ V) (h : Safe2 q) :
    ∃ r q1, q.Pop = .ok (r, q1) ∧ Safe2 q1 ∧ q1.heap.length = q.heap.length ∧
      q1.size = q.size - 1 ∧
      (∀ n0, q.size ≠ 0 → q.heap[0]? = some n0 → r = (n0.val, n0.priority)) := by
  obtain ⟨hd, hsz, hb⟩ := h
  by_cases h0 : q.size = 0
  · exact ⟨_, _, Pop_empty q h0, ⟨hd, hsz, hb⟩, rfl, by omega, fun _ hne _ => absurd h0 hne⟩
  · obtain ⟨n0, hn0⟩ := exists_getElem_of_lt (show 0 < q.heap.length by omega)
    have hroot : ∀ m0, q.size ≠ 0 → q.heap[0]? = some m0 →
        (n0.val, n0.priority) = (m0.val, m0.priority) := by
      intro m0 _ hm0
      rw [hn0] at hm0
      cases hm0
      rfl
    by_cases h1 : q.size = 1
    · refine ⟨_, _, Pop_eq_last q n0 hn0 h1, ⟨hd, by simp, ?_⟩, rfl, by simp [h1], hroot⟩
      exact Bounded_mapDelete hb n0.val
    · obtain ⟨last, hlast⟩ := exists_getElem_of_lt (show q.size - 1 < q.heap.length by omega)
      rw [Pop_eq_more q n0 last hn0 hlast (by omega)]
      have hplen : (popPre q n0 last).heap.length = q.heap.length := by
        simp [popPre]
      have hbp : Bounded (popPre q n0 last) := by
        intro x k hk
        have hk1 : mapSet (mapDelete q.indices n0.val) last.val 0 x = some k := hk
        rw [hplen]
        unfold mapSet at hk1
        split_ifs at hk1 with hx
        · cases hk1
          omega
        · exact Bounded_mapDelete hb n0.val x k hk1
      obtain ⟨q1, hq1, e1, e2, e3, e4⟩ :=
        heapDown_safe (popPre q n0 last) 0 hd (by rw [hplen]; show q.size - 1 ≤ _; omega)
      refine ⟨_, q1, by rw [hq1]; rfl, ⟨e1, ?_, e4 hbp⟩, by rw [e3, hplen], e2, hroot⟩
      rw [e2, e3, hplen]
      show q.size - 1 ≤ _
      omega

theorem UpdatePriority_safe (q : MinPQ V) (h : Safe2 q) (v : V) (p : Int) :
    ∃ e q1, q.UpdatePriority v p = .ok (e, q1) ∧ Safe2 q1 ∧
      q1.heap.length = q.heap.length := by
  obtain ⟨hd, hsz, hb⟩ := h
  cases hi : q.indices v with
  | none => exact ⟨_, _, UpdatePriority_absent q v p hi, ⟨hd, hsz, hb⟩, rfl⟩
  | some ind =>
    have hlt := hb v ind hi
    obtain ⟨old, hold⟩ := exists_getElem_of_lt hlt
    rw [UpdatePriority_eq q v p ind old hi hold]
    have hulen : (updatePre q ind old p).heap.length = q.heap.length := by
      simp [updatePre]
    have hbu : Bounded (updatePre q ind old p) := by
      intro x k hk
      rw [hulen]
      exact hb x k hk
    by_cases hc : old.priority < p
    · rw [if_pos hc]
      obtain ⟨q1, hq1, e1, e2, e3, e4⟩ :=
        heapDown_safe (updatePre q ind old p) ind hd (by rw [hulen]; exact hsz)
      refine ⟨none, q1, by rw [hq1]; rfl, ⟨e1, ?_, e4 hbu⟩, by rw [e3, hulen]⟩
      rw [e2, e3, hulen]
      exact hsz
    · rw [if_neg hc]
      obtain ⟨q1, hq1, e1, e2, e3, e4⟩ :=
        heapUp_safe (updatePre q ind old p) ind hd (Or.inr (by rw [hulen]; exact hlt))
      refine ⟨none, q1, by rw [hq1]; rfl, ⟨e1, ?_, e4 hbu⟩, by rw [e3, hulen]⟩
      rw [e2, e3, hulen]
      exact hsz

theorem step_safe [Inhabited V] (q : MinPQ V) (op : Op V) (h : Safe2 q) :
    ∃ q1, step q op = .ok q1 ∧ Safe2 q1 ∧ q.heap.length ≤ q1.heap.length := by
  cases op with
  | insert v p =>
    obtain ⟨q1, hq1, hs, _, hl⟩ := Insert_safe q v p h
    refine ⟨q1, hq1, hs, ?_⟩
    rw [hl]
    split_ifs <;> omega
  | pop =>
    obtain ⟨r, q1, hq1, hs, hl, _⟩ := Pop_safe q h
    exact ⟨q1, by simp [step, hq1, bind, Except.bind, pure, Except.pure], hs, by omega⟩
  | update v p =>
    obtain ⟨e, q1, hq1, hs, hl⟩ := UpdatePriority_safe q h v p
    exact ⟨q1, by simp [step, hq1, bind, Except.bind, pure, Except.pure], hs, by omega⟩

theorem run_safe [Inhabited V] (ops : List (Op V)) :
    ∀ q : MinPQ V, Safe2 q →
      ∃ q1, run q ops = .ok q1 ∧ Safe2 q1 ∧ q.heap.length ≤ q1.heap.length := by
  induction ops with
  | nil =>
    intro q h
    exact ⟨q, rfl, h, le_refl _⟩
  | cons op ops ih =>
    intro q h
    obtain ⟨q1, hq1, h1, l1⟩ := step_safe q op h
    obtain ⟨q2, hq2, h2, l2⟩ := ih q1 h1
    exact ⟨q2, by simp [run, hq1, hq2, bind, Except.bind], h2, by omega⟩

theorem Safe2_New (hint : Nat) : Safe2 (New 2 hint : MinPQ V) := by
  refine ⟨rfl, by simp [New], ?_⟩
  intro v k hk
  simp [New] at hk

/-- Every state of the binary queue reached from `New(2, hint)` has its size and its
index map inside the slice. -/
theorem Reachable_Safe2 [Inhabited V] (hint : Nat) (q : MinPQ V) (h : Reachable 2 hint q) :
    Safe2 q := by
  obtain ⟨ops, _, hrun⟩ := h
  obtain ⟨q1, hq1, h1, _⟩ := run_safe ops (New 2 hint) (Safe2_New hint)
  rw [hrun] at hq1
  cases hq1
  exact h1

/-! ## Heap-order in the binary queue, for slices of up to `2^24 + 1` nodes -/

theorem Safe2_of_Inv2 (q : MinPQ V) (h : Inv2 q) : Safe2 q :=
  ⟨h.1, h.2.1, h.2.2.2⟩

/-- A call that leaves a slice of at most `2^24 + 1` nodes keeps the invariant of the
binary queue. -/
theorem step_Inv2 [Inhabited V] (q : MinPQ V) (op : Op V) (q1 : MinPQ V) (h : Inv2 q)
    (hstep : step q op = .ok q1) (hB : q1.heap.length ≤ 2 ^ 24 + 1) : Inv2 q1 := by
  obtain ⟨hd, hsz, hord, hb⟩ := h
  cases op with
  | insert v p =>
    have hstep1 : q.Insert v p = .ok q1 := hstep
    obtain ⟨q2, hq2, _, _, hl⟩ := Insert_safe q v p ⟨hd, hsz, hb⟩
    rw [hstep1] at hq2
    cases hq2
    have hsmall : q.size ≤ 2 ^ 24 := by
      rw [hl] at hB
      split_ifs at hB <;> omega
    obtain ⟨q3, hq3, e1, e2, e3, e4, e5, _⟩ :=
      Insert_spec q v p (by omega) hsmall hsz hord
    rw [hstep1] at hq3
    cases hq3
    refine ⟨by rw [e1, hd], ?_, e4, e5 hb⟩
    rw [e2, e3]
    split_ifs <;> omega
  | pop =>
    by_cases h0 : q.size = 0
    · simp [step, Pop_empty q h0, bind, Except.bind, pure, Except.pure] at hstep
      rw [← hstep]
      exact ⟨hd, hsz, hord, hb⟩
    · obtain ⟨n0, q2, _, hpop, e1, e2, e3, e4, e5, _⟩ := Pop_spec q hd hsz hord h0
      simp [step, hpop, bind, Except.bind, pure, Except.pure] at hstep
      rw [← hstep]
      exact ⟨e1, by omega, e4, e5 hb⟩
  | update v p =>
    cases hi : q.indices v with
    | none =>
      simp [step, UpdatePriority_absent q v p hi, bind, Except.bind, pure,
        Except.pure] at hstep
      rw [← hstep]
      exact ⟨hd, hsz, hord, hb⟩
    | some ind =>
      obtain ⟨e, q2, hq2, _, hl⟩ := UpdatePriority_safe q ⟨hd, hsz, hb⟩ v p
      have hlt := hb v ind hi
      have hq1 : q2 = q1 := by
        simp [step, hq2, bind, Except.bind, pure, Except.pure] at hstep
        exact hstep
      subst hq1
      obtain ⟨q3, hq3, e1, e2, e3, e4, e5, _⟩ :=
        UpdatePriority_spec q v p ind (by omega) (by omega) hi hlt hsz hord (Or.inl hd)
      rw [hq2] at hq3
      cases hq3
      exact ⟨by rw [e1, hd], by omega, e4, e5 hb⟩

theorem run_Inv2 [Inhabited V] (ops : List (Op V)) :
    ∀ q q1 : MinPQ V, Inv2 q → run q ops = .ok q1 → q1.heap.length ≤ 2 ^ 24 + 1 →
      Inv2 q1 := by
  induction ops with
  | nil =>
    intro q q1 h hrun _
    cases hrun
    exact h
  | cons op ops ih =>
    intro q q1 h hrun hB
    obtain ⟨q2, hq2, hs2, _⟩ := step_safe q op (Safe2_of_Inv2 q h)
    have hrun2 : run q2 ops = .ok q1 := by
      simpa [run, hq2, bind, Except.bind] using hrun
    obtain ⟨q3, hq3, _, hl3⟩ := run_safe ops q2 hs2
    rw [hrun2] at hq3
    cases hq3
    exact ih q2 q1 (step_Inv2 q op q2 h hq2 (by omega)) hrun2 hB

/-- Every state reached from `New(2, hint)` whose slice has at most `2^24 + 1` nodes
satisfies the invariant of the binary queue. -/
theorem Reachable_Inv2 [Inhabited V] (hint : Nat) (q : MinPQ V) (h : Reachable 2 hint q)
    (hB : q.heap.length ≤ 2 ^ 24 + 1) : Inv2 q := by
  obtain ⟨ops, _, hrun⟩ := h
  exact run_Inv2 ops (New 2 hint) q (Inv2_New hint) hrun hB

theorem drainAux_Inv2 [Inhabited V] (n : Nat) :
    ∀ q : MinPQ V, Inv2 q → q.size = n →
      ∃ out, drainAux n q = .ok out ∧ out.length = n ∧
        (∀ x ∈ out, ∃ nd, Stored q nd ∧ nd.priority = x.2) ∧
        (out.map Prod.snd).Pairwise (· ≤ ·) := by
  induction n with
  | zero =>
    intro q _ hs
    exact ⟨[], by simp [drainAux, MinPQ.Empty, hs], rfl, by simp, by simp⟩
  | succ n ih =>
    intro q hinv hs
    obtain ⟨hd, hsz, hord, hb⟩ := hinv
    obtain ⟨n0, q1, h0, hpop, e1, e2, e3, e4, e5, e6, _⟩ :=
      Pop_spec q hd hsz hord (by omega)
    obtain ⟨out, hout, hlen, hmem, hsorted⟩ :=
      ih q1 ⟨e1, by omega, e4, e5 hb⟩ (by omega)
    refine ⟨(n0.val, n0.priority) :: out, ?_, by simp [hlen], ?_, ?_⟩
    · have hne : q.Empty = false := by simp [MinPQ.Empty]; omega
      simp [drainAux, hne, hpop, hout, bind, Except.bind, pure, Except.pure]
    · intro x hx
      rcases List.mem_cons.mp hx with hx | hx
      · exact ⟨n0, ⟨0, by omega, h0⟩, by rw [hx]⟩
      · obtain ⟨nd, hnd, hp⟩ := hmem x hx
        exact ⟨nd, e6 nd hnd, hp⟩
    · rw [List.map_cons, List.pairwise_cons]
      refine ⟨?_, hsorted⟩
      intro y hy
      obtain ⟨x, hx, hxy⟩ := List.mem_map.mp hy
      obtain ⟨nd, hnd, hp⟩ := hmem x hx
      rw [← hxy, ← hp]
      exact root_le_stored q hord n0 nd h0 (e6 nd hnd)

theorem lastAssigned_nil (w : V) : lastAssigned ([] : List (V × Int)) w = none := by
  simp [lastAssigned]

theorem lastAssigned_snoc (calls : List (V × Int)) (v : V) (p : Int) (w : V) :
    lastAssigned (calls ++ [(v, p)]) w = if v = w then some p else lastAssigned calls w := by
  unfold lastAssigned
  rw [List.reverse_append, List.reverse_singleton, List.singleton_append, List.find?_cons]
  by_cases h : v = w
  · simp [h]
  · simp [h]

theorem lastAssigned_isSome_iff (calls : List (V × Int)) (w : V) :
    (∃ p, lastAssigned calls w = some p) ↔ w ∈ calls.map Prod.fst := by
  unfold lastAssigned
  constructor
  · rintro ⟨p, hp⟩
    obtain ⟨c, hc, _⟩ := Option.map_eq_some'.mp hp
    have hmem := List.mem_of_find?_eq_some hc
    have hpc := List.find?_some hc
    rw [List.mem_reverse] at hmem
    have : c.1 = w := by simpa using hpc
    rw [← this]
    exact List.mem_map_of_mem _ hmem
  · intro h
    obtain ⟨c, hc, hcw⟩ := List.mem_map.mp h
    have : (calls.reverse.find? (fun c => decide (c.1 = w))).isSome := by
      rw [List.find?_isSome]
      exact ⟨c, List.mem_reverse.mpr hc, by simp [hcw]⟩
    obtain ⟨x, hx⟩ := Option.isSome_iff_exists.mp this
    exact ⟨x.2, by rw [hx]; rfl⟩

theorem lastAssigned_none_iff (calls : List (V × Int)) (w : V) :
    lastAssigned calls w = none ↔ w ∉ calls.map Prod.fst := by
  rw [← lastAssigned_isSome_iff]
  cases h : lastAssigned calls w with
  | none => simp
  | some p => simp

theorem indices_none_of_untracked (q : MinPQ V) (calls : List (V × Int)) (hok : IdxOK q)
    (ht : Tracks q calls) (v : V) (h : lastAssigned calls v = none) :
    q.indices v = none := by
  cases hi : q.indices v with
  | none => rfl
  | some k =>
    obtain ⟨hk, n, hn, hnv⟩ := (hok v k).1 hi
    have := (ht n).1 ⟨k, hk, hn⟩
    rw [hnv, h] at this
    exact absurd this (by simp)

theorem indices_some_of_tracked (q : MinPQ V) (calls : List (V × Int)) (hok : IdxOK q)
    (ht : Tracks q calls) (v : V) (p : Int) (h : lastAssigned calls v = some p) :
    ∃ k, q.indices v = some k ∧ k < q.size := by
  obtain ⟨k, hk, hn⟩ := (ht { val := v, priority := p }).2 h
  exact ⟨k, (hok v k).2 ⟨hk, _, hn, rfl⟩, hk⟩

theorem Tracks_New (d hint : Nat) : Tracks (New d hint : MinPQ V) [] := by
  intro n
  rw [lastAssigned_nil]
  constructor
  · rintro ⟨k, hk, _⟩
    simp [New] at hk
  · intro h
    exact absurd h (by simp)

theorem IdxOK_New (d hint : Nat) : IdxOK (New d hint : MinPQ V) := by
  intro v k
  simp [New]

theorem HeapOrder_New (d hint : Nat) : HeapOrder (New d hint : MinPQ V) := by
  intro i _ hi
  simp [New] at hi

theorem insertAll_spec (pairs : List (V × Int)) :
    ∀ (q : MinPQ V) (calls : List (V × Int)), 1 ≤ q.heapDegree →
      q.size + pairs.length ≤ 2 ^ 24 + 1 → q.heap.length = q.size → HeapOrder q →
      IdxOK q → Tracks q calls → (pairs.map Prod.fst).Nodup →
      (∀ x ∈ pairs, lastAssigned calls x.1 = none) →
      ∃ q1, insertAll q pairs = .ok q1 ∧ q1.heapDegree = q.heapDegree ∧
        q1.heap.length = q1.size ∧ q1.size = q.size + pairs.length ∧ HeapOrder q1 ∧
        IdxOK q1 ∧ Tracks q1 (calls ++ pairs) := by
  induction pairs with
  | nil =>
    intro q calls _ _ hlen hord hok ht _ _
    exact ⟨q, rfl, rfl, hlen, rfl, hord, hok, by rw [List.append_nil]; exact ht⟩
  | cons x rest ih =>
    intro q calls hd1 hB hlen hord hok ht hnd hfresh
    obtain ⟨v, p⟩ := x
    rw [List.length_cons] at hB
    rw [List.map_cons, List.nodup_cons] at hnd
    have hv : lastAssigned calls v = none := hfresh (v, p) (List.mem_cons_self _ _)
    obtain ⟨q1, hq1, e1, e2, e3, e4, _, e6⟩ :=
      Insert_spec q v p hd1 (by omega) (by omega) hord
    obtain ⟨hst, hidx⟩ := e6 (by omega)
    have hok1 := hidx hok (indices_none_of_untracked q calls hok ht v hv)
    have ht1 : Tracks q1 (calls ++ [(v, p)]) := by
      intro n
      rw [hst n, lastAssigned_snoc, ht n]
      by_cases hn : v = n.val
      · rw [if_pos hn, ← hn, hv]
        constructor
        · rintro (h | h)
          · exact absurd h (by simp)
          · rw [h]
        · intro h
          right
          cases n
          simp only [node.mk.injEq]
          exact ⟨hn.symm, (Option.some.inj h).symm⟩
      · rw [if_neg hn]
        constructor
        · rintro (h | h)
          · exact h
          · rw [h] at hn
            exact absurd rfl hn
        · intro h
          exact Or.inl h
    have hlen1 : q1.heap.length = q1.size := by
      rw [e3, e2, if_pos (by omega)]
      omega
    obtain ⟨q2, hq2, f1, f2, f3, f4, f5, f6⟩ := ih q1 (calls ++ [(v, p)])
      (by rw [e1]; exact hd1) (by omega) hlen1 e4 hok1 ht1 hnd.2 (by
        intro y hy
        rw [lastAssigned_snoc, if_neg]
        · exact hfresh y (List.mem_cons_of_mem _ hy)
        · intro h
          exact hnd.1 (List.mem_map.mpr ⟨y, hy, h.symm⟩))
    refine ⟨q2, by simp [insertAll, hq1, hq2, bind, Except.bind], by rw [f1, e1], f2, ?_,
      f4, f5, ?_⟩
    · rw [f3, e2, List.length_cons]; omega
    · rw [List.append_assoc] at f6
      exact f6

theorem updateAll_spec (ups : List (V × Int)) :
    ∀ (q : MinPQ V) (calls : List (V × Int)), q.heapDegree = 2 → q.size ≤ 2 ^ 24 + 1 →
      q.size ≤ q.heap.length → HeapOrder q → IdxOK q → Tracks q calls →
      (∀ u ∈ ups, u.1 ∈ calls.map Prod.fst) →
      ∃ errs q2, updateAll q ups = .ok (errs, q2) ∧ errs.length = ups.length ∧
        (∀ e ∈ errs, e = none) ∧ q2.heapDegree = 2 ∧ q2.size = q.size ∧
        q2.size ≤ q2.heap.length ∧ HeapOrder q2 ∧ IdxOK q2 ∧ Tracks q2 (calls ++ ups) := by
  induction ups with
  | nil =>
    intro q calls hd _ hsz hord hok ht _
    exact ⟨[], q, rfl, rfl, by simp, hd, rfl, hsz, hord, hok,
      by rw [List.append_nil]; exact ht⟩
  | cons x rest ih =>
    intro q calls hd hB hsz hord hok ht hmem
    obtain ⟨v, p⟩ := x
    obtain ⟨p0, hp0⟩ := (lastAssigned_isSome_iff calls v).2 (hmem (v, p) (List.mem_cons_self _ _))
    obtain ⟨ind, hind, hlt⟩ := indices_some_of_tracked q calls hok ht v p0 hp0
    obtain ⟨q1, hq1, e1, e2, e3, e4, _, e6⟩ :=
      UpdatePriority_spec q v p ind (by omega) (by omega) hind (by omega) hsz hord
        (Or.inl hd)
    obtain ⟨hok1, hst⟩ := e6 hok
    have ht1 : Tracks q1 (calls ++ [(v, p)]) := by
      intro n
      rw [hst n, lastAssigned_snoc, ht n]
      by_cases hn : v = n.val
      · rw [if_pos hn]
        constructor
        · rintro (⟨_, h⟩ | h)
          · exact absurd hn.symm h
          · rw [h]
        · intro h
          right
          cases n
          simp only [node.mk.injEq]
          exact ⟨hn.symm, (Option.some.inj h).symm⟩
      · rw [if_neg hn]
        constructor
        · rintro (⟨h, _⟩ | h)
          · exact h
          · rw [h] at hn
            exact absurd rfl hn
        · intro h
          exact Or.inl ⟨h, fun e => hn e.symm⟩
    obtain ⟨errs, q2, hq2, f1, f2, f3, f4, f5, f6, f7, f8⟩ :=
      ih q1 (calls ++ [(v, p)]) (by rw [e1, hd]) (by omega) (by omega) e4 hok1 ht1 (by
        intro u hu
        rw [List.map_append, List.mem_append]
        exact Or.inl (hmem u (List.mem_cons_of_mem _ hu)))
    refine ⟨none :: errs, q2, by simp [updateAll, hq1, hq2, bind, Except.bind, pure,
      Except.pure], by simp [f1], ?_, f3, by omega, f5, f6, f7, ?_⟩
    · intro e he
      rcases List.mem_cons.mp he with h | h
      · exact h
      · exact f2 e h
    · rw [List.append_assoc] at f8
      exact f8

theorem popN_spec [Inhabited V] (n : Nat) :
    ∀ q : MinPQ V, q.heapDegree = 2 → q.size ≤ q.heap.length → HeapOrder q → IdxOK q →
      q.size = n →
      ∃ out q3, popN q n = .ok (out, q3) ∧ out.length = n ∧ q3.size = 0 ∧
        (out.map Prod.snd).Pairwise (· ≤ ·) ∧ (out.map Prod.fst).Nodup ∧
        ∀ v p, (v, p) ∈ out ↔ Stored q { val := v, priority := p } := by
  induction n with
  | zero =>
    intro q _ _ _ _ hs
    refine ⟨[], q, rfl, rfl, hs, by simp, by simp, ?_⟩
    intro v p
    constructor
    · intro h
      exact absurd h (by simp)
    · rintro ⟨k, hk, _⟩
      omega
  | succ n ih =>
    intro q hd hsz hord hok hs
    obtain ⟨n0, q1, h0, hpop, e1, e2, e3, e4, _, _, e7⟩ := Pop_spec q hd hsz hord (by omega)
    obtain ⟨hok1, hst⟩ := e7 hok
    obtain ⟨out, q3, hout, f1, f2, f3, f4, f5⟩ := ih q1 e1 (by omega) e4 hok1 (by omega)
    have hs0 : Stored q n0 := ⟨0, by omega, h0⟩
    refine ⟨(n0.val, n0.priority) :: out, q3, ?_, by simp [f1], f2, ?_, ?_, ?_⟩
    · simp [popN, hpop, hout, bind, Except.bind, pure, Except.pure]
    · rw [List.map_cons, List.pairwise_cons]
      refine ⟨?_, f3⟩
      intro y hy
      obtain ⟨x, hx, hxy⟩ := List.mem_map.mp hy
      have hsx : Stored q1 { val := x.1, priority := x.2 } := (f5 x.1 x.2).1 hx
      rw [← hxy]
      exact root_le_stored q hord n0 _ h0 ((hst _).1 hsx).1
    · rw [List.map_cons, List.nodup_cons]
      refine ⟨?_, f4⟩
      intro hmem
      obtain ⟨x, hx, hxv⟩ := List.mem_map.mp hmem
      have hsx : Stored q1 { val := x.1, priority := x.2 } := (f5 x.1 x.2).1 hx
      exact ((hst _).1 hsx).2 hxv
    · intro v p
      rw [List.mem_cons, f5 v p, hst]
      constructor
      · rintro (h | ⟨h, _⟩)
        · have hv : v = n0.val := congrArg Prod.fst h
          have hp : p = n0.priority := congrArg Prod.snd h
          rw [hv, hp]
          exact hs0
        · exact h
      · intro h
        by_cases hv : v = n0.val
        · left
          have := Stored_val_unique q hok _ n0 h hs0 hv
          rw [← this]
        · exact Or.inr ⟨h, hv⟩

theorem fooBar_run :
    run (New 2 10) [Op.insert (some "foo") 1, Op.insert (some "bar") 0] = .ok fooBar := by
  rfl

theorem fooBar_reachable : Reachable 2 10 fooBar :=
  ⟨[Op.insert (some "foo") 1, Op.insert (some "bar") 0], by decide!, fooBar_run⟩

theorem fooBar_wellFormed : WellFormed fooBar := by
  rw [WellFormed_iff]
  refine ⟨by decide, ?_, ?_⟩
  · intro i h1 h2
    have hi : i = 1 := by
      have : i < 2 := h2
      omega
    subst hi
    decide
  · intro v k
    simp only [fooBar, mapSwap, mapSet, mapGet]
    by_cases h1 : v = some "foo"
    · subst h1
      constructor
      · intro h
        simp at h
        subst h
        exact ⟨by decide, _, rfl, rfl⟩
      · rintro ⟨hk, n, hn, hnv⟩
        have : k = 0 ∨ k = 1 := by omega
        rcases this with h | h <;> subst h <;> simp at hn <;> subst hn <;> simp at hnv ⊢
    · by_cases h2 : v = some "bar"
      · subst h2
        constructor
        · intro h
          simp at h
          subst h
          exact ⟨by decide, _, rfl, rfl⟩
        · rintro ⟨hk, n, hn, hnv⟩
          have : k = 0 ∨ k = 1 := by omega
          rcases this with h | h <;> subst h <;> simp at hn <;> subst hn <;> simp at hnv ⊢
      · simp only [if_neg h1, if_neg h2]
        constructor
        · intro h
          exact absurd h (by simp)
        · rintro ⟨hk, n, hn, hnv⟩
          have : k = 0 ∨ k = 1 := by omega
          rcases this with h | h <;> subst h <;> simp at hn <;> subst hn
          · exact absurd hnv.symm h2
          · exact absurd hnv.symm h1

theorem heapUpAux_frame (fuel : Nat) :
    ∀ (p : MinPQ V) (ind : Nat) (q : MinPQ V), heapUpAux fuel p ind = .ok q →
      q.size = p.size ∧ q.heapDegree = p.heapDegree ∧ q.heap.length = p.heap.length := by
  induction fuel with
  | zero =>
    intro p ind q h
    unfold heapUpAux at h
    split_ifs at h
    cases h
    exact ⟨rfl, rfl, rfl⟩
  | succ fuel ih =>
    intro p ind q h
    by_cases h0 : ind = 0
    · subst h0
      rw [heapUpAux_zero] at h
      cases h
      exact ⟨rfl, rfl, rfl⟩
    · by_cases hlt : ind < p.heap.length
      · by_cases hpar : p.parent ind < p.heap.length
        · rw [heapUpAux_succ fuel p ind h0 hlt hpar] at h
          split_ifs at h
          · obtain ⟨e1, e2, e3⟩ := ih _ _ _ h
            rw [swapSlots_size] at e1
            rw [swapSlots_heapDegree] at e2
            rw [swapSlots_length] at e3
            exact ⟨e1, e2, e3⟩
          · cases h
            exact ⟨rfl, rfl, rfl⟩
        · obtain ⟨a, ha⟩ := exists_getElem_of_lt hlt
          have hn : p.heap[p.parent ind]? = none := List.getElem?_eq_none (by omega)
          unfold heapUpAux at h
          simp [h0, load, ha, hn, bind, Except.bind] at h
      · have hn : p.heap[ind]? = none := List.getElem?_eq_none (by omega)
        unfold heapUpAux at h
        simp [h0, load, hn, bind, Except.bind] at h

theorem heapUp_frame (p : MinPQ V) (ind : Nat) (q : MinPQ V) (h : heapUp p ind = .ok q) :
    q.size = p.size ∧ q.heapDegree = p.heapDegree ∧ q.heap.length = p.heap.length :=
  heapUpAux_frame ind p ind q h

theorem heapDownAux_size (fuel : Nat) :
    ∀ (p : MinPQ V) (ind : Nat) (q : MinPQ V), heapDownAux fuel p ind = .ok q →
      q.size = p.size := by
  induction fuel with
  | zero =>
    intro p ind q h
    simp [heapDownAux] at h
  | succ fuel ih =>
    intro p ind q h
    rw [heapDownAux] at h
    simp only at h
    split_ifs at h with h1
    · cases h
      rfl
    · cases hfc : load p.heap (p.firstChild ind) with
      | error e => simp [hfc, bind, Except.bind] at h
      | ok fc =>
        simp only [hfc, bind, Except.bind] at h
        cases hsc : scanChildren p (p.firstChild ind) p.heapDegree 1 (p.firstChild ind)
            fc.priority with
        | error e => simp [hsc] at h
        | ok res =>
          obtain ⟨minInd, minPri⟩ := res
          simp only [hsc] at h
          cases hn : load p.heap ind with
          | error e => simp [hn] at h
          | ok n =>
            simp only [hn] at h
            split_ifs at h with hc
            · cases hm : load p.heap minInd with
              | error e => simp [hm] at h
              | ok m =>
                simp only [hm] at h
                cases hs1 : store p.heap ind m with
                | error e => simp [hs1] at h
                | ok heap1 =>
                  simp only [hs1] at h
                  cases hs2 : store heap1 minInd n with
                  | error e => simp [hs2] at h
                  | ok heap2 =>
                    simp only [hs2] at h
                    have := ih _ _ _ h
                    exact this
            · cases h
              rfl

theorem Insert_size (q : MinPQ V) (v : V) (p : Int) (q1 : MinPQ V)
    (h : q.Insert v p = .ok q1) : q1.size = q.size + 1 := by
  rw [Insert_eq] at h
  exact (heapUp_frame _ _ _ h).1

theorem Pop_size [Inhabited V] (q : MinPQ V) (r : V × Int) (q1 : MinPQ V)
    (h : q.Pop = .ok (r, q1)) : q1.size = q.size - 1 := by
  unfold MinPQ.Pop at h
  split_ifs at h with h0
  · cases h
    omega
  · cases hr : load q.heap 0 with
    | error e => simp [hr, bind, Except.bind] at h
    | ok ret =>
      simp only [hr, bind, Except.bind] at h
      split_ifs at h with h1
      · cases h
        rfl
      · cases hl : load q.heap (q.size - 1) with
        | error e => simp [hl] at h
        | ok last =>
          simp only [hl] at h
          cases hs : store q.heap 0 last with
          | error e => simp [hs] at h
          | ok heap1 =>
            simp only [hs] at h
            cases hr2 : load heap1 0 with
            | error e => simp [hr2] at h
            | ok root =>
              simp only [hr2] at h
              cases hd : heapDown
                  { heapDegree := q.heapDegree, heap := heap1,
                    indices := mapSet (mapDelete q.indices ret.val) root.val 0,
                    size := q.size - 1 } 0 with
              | error e => simp [hd] at h
              | ok q2 =>
                simp only [hd] at h
                have := heapDownAux_size _ _ _ _ hd
                cases h
                exact this

theorem UpdatePriority_size (q : MinPQ V) (v : V) (p : Int) (e : Option String)
    (q1 : MinPQ V) (h : q.UpdatePriority v p = .ok (e, q1)) : q1.size = q.size := by
  cases hi : q.indices v with
  | none =>
    rw [UpdatePriority_absent q v p hi] at h
    cases h
    rfl
  | some ind =>
    cases hold : q.heap[ind]? with
    | none =>
      simp [MinPQ.UpdatePriority, hi, load, hold, bind, Except.bind] at h
    | some old =>
      rw [UpdatePriority_eq q v p ind old hi hold] at h
      split_ifs at h
      · cases hdn : heapDown (updatePre q ind old p) ind with
        | error err => simp [hdn, Except.map] at h
        | ok q2 =>
          simp only [hdn, Except.map] at h
          have := heapDownAux_size _ _ _ _ hdn
          cases h
          exact this
      · cases hup : heapUp (updatePre q ind old p) ind with
        | error err => simp [hup, Except.map] at h
        | ok q2 =>
          simp only [hup, Except.map] at h
          have := (heapUp_frame _ _ _ hup).1
          cases h
          exact this

theorem CurrentPriority_ok_of_bounded (q : MinPQ V) (hb : Bounded q) (v : V) :
    ∃ r, q.CurrentPriority v = .ok r := by
  cases hi : q.indices v with
  | none => exact ⟨(0, false), by simp [CurrentPriority, hi]⟩
  | some k =>
    obtain ⟨n, hn⟩ := exists_getElem_of_lt (hb v k hi)
    exact ⟨(n.priority, true), by simp [CurrentPriority, hi, load, hn, bind, Except.bind]⟩

theorem observe_eq (q q1 : MinPQ V) (hok : IdxOK q) (hok1 : IdxOK q1) (w : V)
    (h : ∀ n, n.val = w → (Stored q1 n ↔ Stored q n)) :
    q1.Contains w = q.Contains w ∧ q1.CurrentPriority w = q.CurrentPriority w := by
  by_cases hc : ∃ n, Stored q n ∧ n.val = w
  · obtain ⟨n, hn, hnv⟩ := hc
    have hn1 : Stored q1 n := (h n hnv).2 hn
    have c1 := (Contains_iff_stored q hok w).2 ⟨n, hn, hnv⟩
    have c2 := (Contains_iff_stored q1 hok1 w).2 ⟨n, hn1, hnv⟩
    refine ⟨by rw [c1, c2], ?_⟩
    rw [← hnv, CurrentPriority_of_stored q hok n hn, CurrentPriority_of_stored q1 hok1 n hn1]
  · have hno : ∀ n, Stored q n → n.val ≠ w := fun n hn hnv => hc ⟨n, hn, hnv⟩
    have hno1 : ∀ n, Stored q1 n → n.val ≠ w := fun n hn hnv => hno n ((h n hnv).1 hn) hnv
    have c1 : q.Contains w = false := by
      cases hq : q.Contains w with
      | false => rfl
      | true =>
        obtain ⟨n, hn, hnv⟩ := (Contains_iff_stored q hok w).1 hq
        exact absurd hnv (hno n hn)
    have c2 : q1.Contains w = false := by
      cases hq : q1.Contains w with
      | false => rfl
      | true =>
        obtain ⟨n, hn, hnv⟩ := (Contains_iff_stored q1 hok1 w).1 hq
        exact absurd hnv (hno1 n hn)
    refine ⟨by rw [c1, c2], ?_⟩
    rw [CurrentPriority_of_not_stored q hok w hno,
      CurrentPriority_of_not_stored q1 hok1 w hno1]

theorem lastAssigned_mem (calls : List (V × Int)) (v : V) (p : Int)
    (h : lastAssigned calls v = some p) : (v, p) ∈ calls := by
  unfold lastAssigned at h
  obtain ⟨c, hc, hcp⟩ := Option.map_eq_some'.mp h
  have hmem := List.mem_of_find?_eq_some hc
  have hpc := List.find?_some hc
  rw [List.mem_reverse] at hmem
  have hv : c.1 = v := by simpa using hpc
  have : c = (v, p) := Prod.ext hv hcp
  rw [← this]
  exact hmem

theorem lastAssigned_of_mem_nodup (calls : List (V × Int)) (hnd : (calls.map Prod.fst).Nodup)
    (v : V) (p : Int) (h : (v, p) ∈ calls) : lastAssigned calls v = some p := by
  obtain ⟨p1, hp1⟩ := (lastAssigned_isSome_iff calls v).2 (List.mem_map.mpr ⟨(v, p), h, rfl⟩)
  have hm := lastAssigned_mem calls v p1 hp1
  have := List.inj_on_of_nodup_map hnd hm h rfl
  rw [hp1]
  exact congrArg (fun x => some x.2) this

theorem insertPre_slot (q : MinPQ V) (v : V) (p : Int) (hsz : q.size ≤ q.heap.length)
    (hne : q.heap.length ≠ q.size + 1) :
    (insertPre q v p).heap[q.size]? = some { val := v, priority := p } := by
  unfold insertPre
  simp only
  split_ifs with hc
  · have : q.size = q.heap.length := by omega
    rw [this]
    simp
  · simp [List.getElem?_set]
    omega

theorem UpdatePriority_same (q : MinPQ V) (v : V) (p : Int) (ind : Nat)
    (hd1 : 1 ≤ q.heapDegree) (hb : ind ≤ 2 ^ 24) (hsz : q.size ≤ q.heap.length) (hord : HeapOrder q) (hind : q.indices v = some ind)
    (hlt : ind < q.size) (hp : priAt q.heap ind = p) :
    q.UpdatePriority v p = .ok (none, q) := by
  obtain ⟨old, hold⟩ := exists_getElem_of_lt (show ind < q.heap.length by omega)
  have hop : old.priority = p := by rw [← hp, priAt_of_some hold]
  rw [UpdatePriority_eq q v p ind old hind hold, if_neg (by omega)]
  have hpre : updatePre q ind old p = q := by
    unfold updatePre
    have : ({ old with priority := p } : node V) = old := by
      cases old
      simp only at hop
      rw [← hop]
    rw [this]
    have hset : q.heap.set ind old = q.heap := by
      apply List.ext_getElem?
      intro k
      rw [List.getElem?_set]
      by_cases hk : ind = k
      · subst hk
        have hl : ind < q.heap.length := by omega
        simp [hold, hl]
      · rw [if_neg hk]
    rw [hset]
  rw [hpre]
  have hup : heapUp q ind = .ok q := by
    unfold heapUp
    by_cases h0 : ind = 0
    · subst h0
      exact heapUpAux_zero _ q
    · obtain ⟨k, hk⟩ : ∃ k, ind = k + 1 := ⟨ind - 1, by omega⟩
      have hpe : q.parent (k + 1) = q.floorParent (k + 1) :=
        parent_eq_floorParent q (k + 1) hd1 (by omega)
      have hpl : q.floorParent (k + 1) < k + 1 := floorParent_lt q (by omega)
      rw [hk, heapUpAux_succ k q (k + 1) (by omega) (by omega) (by omega), if_neg]
      have := hord (k + 1) (by omega) (by omega)
      have e : q.floorParent (k + 1) = (k + 1 - 1) / q.heapDegree := rfl
      rw [hpe, e]
      omega
  rw [hup]
  rfl

/-! ## Queues of more than `2^24 + 1` nodes -/

theorem slotQueue_getElem (pri : Nat → Int) (n i : Nat) :
    (slotQueue pri n).heap[i]? =
      if i < n then some { val := i, priority := pri i } else none := by
  unfold slotQueue
  simp only [List.getElem?_map, List.getElem?_range]
  by_cases h : i < n
  · rw [if_pos h, List.getElem?_range h]
    rfl
  · rw [if_neg h, List.getElem?_eq_none (by simp; omega)]
    rfl

theorem slotQueue_length (pri : Nat → Int) (n : Nat) : (slotQueue pri n).heap.length = n := by
  simp [slotQueue]

theorem slotQueue_priAt (pri : Nat → Int) {n i : Nat} (h : i < n) :
    priAt (slotQueue pri n).heap i = pri i := by
  simp [priAt, slotQueue_getElem, h]

/-- The queue `slotQueue pri n` is well-formed when `pri` is in heap-order. -/
theorem slotQueue_wellFormed (pri : Nat → Int) (n : Nat)
    (h : ∀ i, 1 ≤ i → i < n → pri ((i - 1) / 2) ≤ pri i) : WellFormed (slotQueue pri n) := by
  refine ⟨by rw [slotQueue_length]; exact le_refl n, ?_, ?_, ?_, ?_⟩
  · intro i h1 h2
    have h2' : i < n := h2
    have e : (slotQueue pri n).heapDegree = 2 := rfl
    rw [e, slotQueue_priAt pri h2', slotQueue_priAt pri (by omega)]
    exact h i h1 h2'
  · intro i nd h1 h2
    have h1' : i < n := h1
    rw [slotQueue_getElem, if_pos h1'] at h2
    cases h2
    show (if i < n then some i else none) = some i
    rw [if_pos h1']
  · intro v hv
    have hv1 : (if v < n then some v else none : Option Nat).isSome = true := hv
    have hvn : v < n := by
      by_contra hc
      rw [if_neg hc] at hv1
      exact absurd hv1 (by simp)
    exact ⟨v, { val := v, priority := pri v }, hvn, by rw [slotQueue_getElem, if_pos hvn], rfl⟩
  · intro i j a b hi hj ha hb hab
    have hi' : i < n := hi
    have hj' : j < n := hj
    rw [slotQueue_getElem, if_pos hi'] at ha
    rw [slotQueue_getElem, if_pos hj'] at hb
    cases ha
    cases hb
    exact hab

theorem heapUp_stop (p : MinPQ V) (ind : Nat) (hlt : ind < p.heap.length)
    (hpar : p.parent ind < p.heap.length)
    (hc : ¬ priAt p.heap ind < priAt p.heap (p.parent ind)) : heapUp p ind = .ok p := by
  unfold heapUp
  by_cases h0 : ind = 0
  · subst h0
    exact heapUpAux_zero _ p
  · obtain ⟨k, hk⟩ : ∃ k, ind = k + 1 := ⟨ind - 1, by omega⟩
    subst hk
    rw [heapUpAux_succ k p (k + 1) h0 hlt hpar, if_neg hc]

theorem slotQueue_parent (pri : Nat → Int) (n k : Nat) :
    (slotQueue pri n).parent k = (New 2 0 : MinPQ Nat).parent k := rfl

theorem parent_big : (New 2 0 : MinPQ Nat).parent 16777217 = 8388607 := by decide!

theorem insertPre_slotQueue (pri : Nat → Int) (k : Nat) :
    insertPre (slotQueue pri k) k (pri k) = slotQueue pri (k + 1) := by
  unfold insertPre slotQueue
  simp only [List.length_map, List.length_range, ge_iff_le, MinPQ.mk.injEq, true_and, and_true]
  constructor
  · rw [if_pos (by omega), List.range_succ, List.map_append]
    rfl
  · funext x
    unfold mapSet
    by_cases hx : x = k
    · subst hx
      simp
    · rw [if_neg hx]
      show (if x < k then some x else none) = _
      by_cases h1 : x < k
      · rw [if_pos h1, if_pos (by omega)]
      · rw [if_neg h1, if_neg (by omega)]

/-- One `Insert` into the queue of the first `k` slots that needs no swap. -/
theorem Insert_slotQueue (pri : Nat → Int) (k : Nat)
    (hpar : k ≠ 0 → (New 2 0 : MinPQ Nat).parent k < k)
    (hc : k ≠ 0 → pri ((New 2 0 : MinPQ Nat).parent k) ≤ pri k) :
    (slotQueue pri k).Insert k (pri k) = .ok (slotQueue pri (k + 1)) := by
  rw [Insert_eq, insertPre_slotQueue]
  show heapUp (slotQueue pri (k + 1)) k = _
  by_cases h0 : k = 0
  · subst h0
    exact heapUpAux_zero _ _
  · have hp := hpar h0
    apply heapUp_stop
    · rw [slotQueue_length]; omega
    · rw [slotQueue_length, slotQueue_parent]; omega
    · rw [slotQueue_parent, slotQueue_priAt pri (by omega), slotQueue_priAt pri (by omega)]
      have := hc h0
      omega

theorem insertAll_slotQueue (pri : Nat → Int) (m : Nat) :
    ∀ k, (∀ j, k ≤ j → j < k + m → j ≠ 0 →
        (New 2 0 : MinPQ Nat).parent j < j ∧ pri ((New 2 0 : MinPQ Nat).parent j) ≤ pri j) →
      insertAll (slotQueue pri k) ((List.range' k m).map (fun i => (i, pri i))) =
        .ok (slotQueue pri (k + m)) := by
  induction m with
  | zero =>
    intro k _
    rfl
  | succ m ih =>
    intro k h
    rw [List.range'_succ, List.map_cons]
    have h1 := Insert_slotQueue pri k (fun h0 => (h k (le_refl k) (by omega) h0).1)
      (fun h0 => (h k (le_refl k) (by omega) h0).2)
    have h2 := ih (k + 1) (fun j hj1 hj2 hj0 => h j (by omega) (by omega) hj0)
    simp only [insertAll, h1, bind, Except.bind]
    rw [h2]
    congr 2
    omega

theorem New_eq_slotQueue (pri : Nat → Int) (hint : Nat) :
    (New 2 hint : MinPQ Nat) = slotQueue pri 0 := by
  unfold New slotQueue
  simp

/-- Inserting the pairs `(i, pri i)` in slot order into `New(2, hint)` swaps nothing when
no priority is below the one at the float32 parent slot. -/
theorem build_slotQueue (pri : Nat → Int) (hint n : Nat)
    (h : ∀ j, j < n → j ≠ 0 →
      (New 2 0 : MinPQ Nat).parent j < j ∧ pri ((New 2 0 : MinPQ Nat).parent j) ≤ pri j) :
    insertAll (New 2 hint) (slotPairs pri n) = .ok (slotQueue pri n) := by
  have := insertAll_slotQueue pri n 0 (fun j _ hj hj0 => h j (by omega) hj0)
  rw [Nat.zero_add] at this
  rw [New_eq_slotQueue pri hint]
  unfold slotPairs
  rw [List.range_eq_range']
  exact this

theorem parent_small (j : Nat) (hj : j ≤ 2 ^ 24) :
    (New 2 0 : MinPQ Nat).parent j = (j - 1) / 2 :=
  parent_eq_floorParent (New 2 0 : MinPQ Nat) j (by decide) hj

theorem slotQueue_indices (pri : Nat → Int) (n v : Nat) :
    (slotQueue pri n).indices v = if v < n then some v else none := rfl

theorem slotQueue_Contains (pri : Nat → Int) (n v : Nat) :
    (slotQueue pri n).Contains v = decide (v < n) := by
  unfold Contains
  rw [slotQueue_indices]
  by_cases h : v < n <;> simp [h]

theorem slotQueue_CurrentPriority (pri : Nat → Int) {n v : Nat} (h : v < n) :
    (slotQueue pri n).CurrentPriority v = .ok (pri v, true) := by
  unfold CurrentPriority
  rw [slotQueue_indices, if_pos h]
  simp only [load, slotQueue_getElem, if_pos h, bind, Except.bind]

theorem updatePre_parent (q : MinPQ V) (ind : Nat) (old : node V) (p : Int) (k : Nat) :
    (updatePre q ind old p).parent k = q.parent k := rfl

theorem updatePre_heap (q : MinPQ V) (ind : Nat) (v : V) (p0 p : Int) :
    (updatePre q ind { val := v, priority := p0 } p).heap =
      q.heap.set ind { val := v, priority := p } := rfl

/-- A sift-up that swaps once and stops at the parent. -/
theorem heapUp_swap_once (p : MinPQ V) (ind : Nat) (hlt : ind < p.heap.length)
    (hpl : p.parent ind < ind) (hp0 : p.parent ind ≠ 0)
    (hgl : p.parent (p.parent ind) < p.parent ind)
    (hc : priAt p.heap ind < priAt p.heap (p.parent ind))
    (hc2 : ¬ priAt p.heap ind < priAt p.heap (p.parent (p.parent ind))) :
    heapUp p ind = .ok (swapSlots p ind (p.parent ind)) := by
  unfold heapUp
  obtain ⟨k, hk⟩ : ∃ k, ind = k + 1 + 1 := ⟨ind - 2, by omega⟩
  have h0 : ind ≠ 0 := by omega
  have hpar : p.parent ind < p.heap.length := by omega
  have e1 : heapUpAux ind p ind = heapUpAux (k + 1 + 1) p ind := by rw [← hk]
  rw [e1, heapUpAux_succ (k + 1) p ind h0 hlt hpar, if_pos hc,
    heapUpAux_succ k _ _ hp0 (by rw [swapSlots_length]; exact hpar)
      (by rw [swapSlots_length, swapSlots_parent]; omega),
    if_neg]
  rw [swapSlots_parent, swapSlots_priAt p hlt hpar, swapSlots_priAt p hlt hpar, if_pos rfl,
    if_neg (by omega), if_neg (by omega)]
  exact hc2

theorem priBuild_order (j : Nat) (hj : j < 16777218) (h0 : j ≠ 0) :
    (New 2 0 : MinPQ Nat).parent j < j ∧
      priBuild ((New 2 0 : MinPQ Nat).parent j) ≤ priBuild j := by
  by_cases h : j ≤ 2 ^ 24
  · rw [parent_small j h]
    refine ⟨by omega, ?_⟩
    unfold priBuild
    split_ifs <;> omega
  · have : j = 16777217 := by omega
    subst this
    rw [parent_big]
    exact ⟨by decide, by decide⟩

theorem priBuild_heapOrder (i : Nat) (h1 : 1 ≤ i) (h2 : i < 16777217) :
    priBuild ((i - 1) / 2) ≤ priBuild i := by
  unfold priBuild
  split_ifs <;> omega

theorem priDecrease_heapOrder (i : Nat) (h1 : 1 ≤ i) (h2 : i < 16777218) :
    priDecrease ((i - 1) / 2) ≤ priDecrease i := by
  unfold priDecrease
  split_ifs <;> omega

theorem priSame_heapOrder (i : Nat) (h1 : 1 ≤ i) (h2 : i < 16777218) :
    priSame ((i - 1) / 2) ≤ priSame i := by
  unfold priSame
  split_ifs <;> omega

theorem not_heapOrder_of_slot (q : MinPQ V) (hd : q.heapDegree = 2) (hs : 16777217 < q.size)
    (h : priAt q.heap 16777217 < priAt q.heap 8388608) : ¬ HeapOrder q := by
  intro ho
  have := ho 16777217 (by decide) hs
  rw [hd] at this
  have e : (16777217 - 1) / 2 = 8388608 := by decide
  rw [e] at this
  omega

theorem slotPairs_nodup (pri : Nat → Int) (n : Nat) :
    ((slotPairs pri n).map Prod.fst).Nodup := by
  unfold slotPairs
  rw [List.map_map]
  have : (Prod.fst ∘ fun i => (i, pri i)) = id := by
    funext i
    rfl
  rw [this, List.map_id]
  exact List.nodup_range n

theorem slotPairs_length (pri : Nat → Int) (n : Nat) : (slotPairs pri n).length = n := by
  simp [slotPairs]

/-- The build by insertion of `2^24 + 2` pairs that leaves priority 50 in slot `2^24 + 1`
below priority 100 in slot `2^23`. -/
theorem large_build :
    insertAll (New 2 0) (slotPairs priBuild 16777218) = .ok (slotQueue priBuild 16777218) ∧
    ¬ HeapOrder (slotQueue priBuild 16777218) := by
  refine ⟨build_slotQueue priBuild 0 16777218 priBuild_order, ?_⟩
  apply not_heapOrder_of_slot _ rfl (by decide)
  rw [slotQueue_priAt priBuild (by decide), slotQueue_priAt priBuild (by decide)]
  decide

/-- The last `Insert` of that build, on the well-formed queue of `2^24 + 1` nodes. -/
theorem large_insert :
    insertAll (New 2 0) (slotPairs priBuild 16777217) = .ok (slotQueue priBuild 16777217) ∧
    WellFormed (slotQueue priBuild 16777217) ∧
    (slotQueue priBuild 16777217).Insert 16777217 50 = .ok (slotQueue priBuild 16777218) := by
  refine ⟨build_slotQueue priBuild 0 16777217 (fun j hj h0 => priBuild_order j (by omega) h0),
    slotQueue_wellFormed priBuild 16777217 priBuild_heapOrder, ?_⟩
  have h := Insert_slotQueue priBuild 16777217 (fun h0 => (priBuild_order _ (by decide) h0).1)
    (fun h0 => (priBuild_order _ (by decide) h0).2)
  have e : priBuild 16777217 = 50 := by decide
  rw [e] at h
  exact h

/-- A decrease in a well-formed queue of `2^24 + 2` nodes after which slot `2^24 + 1`
holds 7 below the 8 of slot `2^23`. -/
theorem large_decrease :
    WellFormed (slotQueue priDecrease 16777218) ∧
    ∃ q1, (slotQueue priDecrease 16777218).UpdatePriority 16777217 7 = .ok (none, q1) ∧
      q1.heapDegree = 2 ∧ q1.size = 16777218 ∧ ¬ HeapOrder q1 := by
  refine ⟨slotQueue_wellFormed priDecrease 16777218 priDecrease_heapOrder, ?_⟩
  have hold : (slotQueue priDecrease 16777218).heap[16777217]? =
      some { val := 16777217, priority := 10 } := by
    rw [slotQueue_getElem, if_pos (by decide)]
    rfl
  have hind : (slotQueue priDecrease 16777218).indices 16777217 = some 16777217 := by
    rw [slotQueue_indices, if_pos (by decide)]
  rw [UpdatePriority_eq _ 16777217 7 16777217 _ hind hold, if_neg (by decide)]
  generalize hpu : updatePre (slotQueue priDecrease 16777218) 16777217
    { val := 16777217, priority := 10 } 7 = pu
  have hheap : pu.heap = (slotQueue priDecrease 16777218).heap.set 16777217
      { val := 16777217, priority := 7 } := by rw [← hpu, updatePre_heap]
  have hlen : pu.heap.length = 16777218 := by
    rw [hheap, List.length_set, slotQueue_length]
  have hpar : pu.parent 16777217 = 8388607 := by
    rw [← hpu, updatePre_parent, slotQueue_parent]
    exact parent_big
  have hp1 : priAt pu.heap 16777217 = 7 := by
    rw [hheap, priAt_set_eq _ _ (by rw [slotQueue_length]; decide)]
  have hp2 : priAt pu.heap 8388607 = 5 := by
    rw [hheap, priAt_set_ne _ _ (by decide), slotQueue_priAt priDecrease (by decide)]
    decide
  have hp3 : priAt pu.heap 8388608 = 8 := by
    rw [hheap, priAt_set_ne _ _ (by decide), slotQueue_priAt priDecrease (by decide)]
    decide
  have hup : heapUp pu 16777217 = .ok pu := by
    apply heapUp_stop
    · rw [hlen]; decide
    · rw [hlen, hpar]; decide
    · rw [hpar, hp1, hp2]; decide
  rw [hup]
  refine ⟨pu, rfl, by rw [← hpu]; rfl, by rw [← hpu]; rfl, ?_⟩
  apply not_heapOrder_of_slot pu (by rw [← hpu]; rfl) (by rw [← hpu]; decide)
  rw [hp1, hp3]
  decide

/-- A no-change update in a well-formed queue of `2^24 + 2` nodes that exchanges slot
`2^24 + 1` with slot `2^23 - 1`. -/
theorem large_same :
    WellFormed (slotQueue priSame 16777218) ∧
    (slotQueue priSame 16777218).heap[8388607]? = some { val := 8388607, priority := 1000 } ∧
    ∃ q1, (slotQueue priSame 16777218).UpdatePriority 16777217 10 = .ok (none, q1) ∧
      q1.heap[8388607]? = some { val := 16777217, priority := 10 } := by
  refine ⟨slotQueue_wellFormed priSame 16777218 priSame_heapOrder, ?_, ?_⟩
  · rw [slotQueue_getElem, if_pos (by decide)]
    rfl
  have hold : (slotQueue priSame 16777218).heap[16777217]? =
      some { val := 16777217, priority := 10 } := by
    rw [slotQueue_getElem, if_pos (by decide)]
    rfl
  have hind : (slotQueue priSame 16777218).indices 16777217 = some 16777217 := by
    rw [slotQueue_indices, if_pos (by decide)]
  rw [UpdatePriority_eq _ 16777217 10 16777217 _ hind hold, if_neg (by decide)]
  generalize hpu : updatePre (slotQueue priSame 16777218) 16777217
    { val := 16777217, priority := 10 } 10 = pu
  have hheap : pu.heap = (slotQueue priSame 16777218).heap.set 16777217
      { val := 16777217, priority := 10 } := by rw [← hpu, updatePre_heap]
  have hlen : pu.heap.length = 16777218 := by
    rw [hheap, List.length_set, slotQueue_length]
  have hpar : pu.parent 16777217 = 8388607 := by
    rw [← hpu, updatePre_parent, slotQueue_parent]
    exact parent_big
  have hpar2 : pu.parent 8388607 = 4194303 := by
    rw [← hpu, updatePre_parent, slotQueue_parent]
    exact parent_small 8388607 (by decide)
  have hget : pu.heap[16777217]? = some { val := 16777217, priority := 10 } := by
    rw [hheap, List.getElem?_set, if_pos rfl, slotQueue_length, if_pos (by decide)]
  have hp1 : priAt pu.heap 16777217 = 10 := priAt_of_some hget
  have hp2 : priAt pu.heap 8388607 = 1000 := by
    rw [hheap, priAt_set_ne _ _ (by decide), slotQueue_priAt priSame (by decide)]
    decide
  have hp3 : priAt pu.heap 4194303 = 0 := by
    rw [hheap, priAt_set_ne _ _ (by decide), slotQueue_priAt priSame (by decide)]
    decide
  have hup : heapUp pu 16777217 = .ok (swapSlots pu 16777217 (pu.parent 16777217)) := by
    apply heapUp_swap_once
    · rw [hlen]; decide
    · rw [hpar]; decide
    · rw [hpar]; decide
    · rw [hpar, hpar2]; decide
    · rw [hpar, hp1, hp2]; decide
    · rw [hpar, hpar2, hp1, hp3]; decide
  rw [hup, hpar]
  refine ⟨_, rfl, ?_⟩
  rw [swapSlots_getElem pu (by rw [hlen]; decide) (by rw [hlen]; decide), if_pos rfl]
  exact hget

theorem updatePre_slotQueue (pri : Nat → Int) (n v : Nat) (p0 p : Int) :
    updatePre (slotQueue pri n) v { val := v, priority := p0 } p =
      slotQueue (setPri pri v p) n := by
  have hheap : (slotQueue pri n).heap.set v { val := v, priority := p } =
      (slotQueue (setPri pri v p) n).heap := by
    apply List.ext_getElem?
    intro k
    rw [List.getElem?_set, slotQueue_getElem, slotQueue_getElem, slotQueue_length]
    unfold setPri
    by_cases hk : v = k
    · subst hk
      rw [if_pos rfl, if_pos rfl]
    · have hk2 : ¬ k = v := fun e => hk e.symm
      rw [if_neg hk, if_neg hk2]
  have e : updatePre (slotQueue pri n) v { val := v, priority := p0 } p =
      { heapDegree := 2, heap := (slotQueue pri n).heap.set v { val := v, priority := p },
        indices := (slotQueue pri n).indices, size := n } := rfl
  rw [e, hheap]
  rfl

/-- A sift-down that stops at once: no child below the size is smaller. -/
theorem heapDown_stop (p : MinPQ V) (ind : Nat) (hd : p.heapDegree = 2)
    (hsz : p.size ≤ p.heap.length)
    (h1 : 2 * ind + 1 < p.size → priAt p.heap ind ≤ priAt p.heap (2 * ind + 1))
    (h2 : 2 * ind + 2 < p.size → priAt p.heap ind ≤ priAt p.heap (2 * ind + 2)) :
    heapDown p ind = .ok p := by
  unfold heapDown
  rw [heapDownAux_succ_two _ p ind hd hsz]
  by_cases hc : 2 * ind + 1 ≥ p.size
  · rw [if_pos hc]
  · rw [if_neg hc, if_neg]
    have hlt : 2 * ind + 1 < p.size := by omega
    rcases minChild2_cases p ind with ⟨e, _⟩ | ⟨e, e1, _⟩
    · rw [e]
      have := h1 hlt
      omega
    · rw [e]
      have := h2 e1
      omega

theorem quiet_of_quietUpdate (pri : Nat → Int) (n v : Nat) (p : Int)
    (h : quietUpdate pri n v p = true) :
    (slotQueue pri n).UpdatePriority v p = .ok (none, slotQueue (setPri pri v p) n) := by
  unfold quietUpdate at h
  rw [Bool.and_eq_true, decide_eq_true_eq] at h
  obtain ⟨hv, h⟩ := h
  have hold : (slotQueue pri n).heap[v]? = some { val := v, priority := pri v } := by
    rw [slotQueue_getElem, if_pos hv]
  have hind : (slotQueue pri n).indices v = some v := by
    rw [slotQueue_indices, if_pos hv]
  rw [UpdatePriority_eq _ v p v _ hind hold, updatePre_slotQueue]
  have hpv : priAt (slotQueue (setPri pri v p) n).heap v = p := by
    rw [slotQueue_priAt _ hv]
    simp [setPri]
  by_cases hc : pri v < p
  · rw [if_pos hc] at h
    rw [Bool.and_eq_true, decide_eq_true_eq, decide_eq_true_eq] at h
    rw [if_pos hc, heapDown_stop _ v rfl (by rw [slotQueue_length]; exact le_refl n)]
    · rfl
    · intro hlt
      have hlt' : 2 * v + 1 < n := hlt
      rw [hpv, slotQueue_priAt _ hlt']
      have := h.1 hlt'
      simp only [setPri]
      rw [if_neg (by omega)]
      exact this
    · intro hlt
      have hlt' : 2 * v + 2 < n := hlt
      rw [hpv, slotQueue_priAt _ hlt']
      have := h.2 hlt'
      simp only [setPri]
      rw [if_neg (by omega)]
      exact this
  · rw [if_neg hc] at h
    rw [decide_eq_true_eq] at h
    rw [if_neg hc]
    have hup : heapUp (slotQueue (setPri pri v p) n) v = .ok (slotQueue (setPri pri v p) n) := by
      rcases h with h0 | ⟨hpl, hle⟩
      · subst h0
        exact heapUpAux_zero _ _
      · apply heapUp_stop
        · rw [slotQueue_length]; exact hv
        · rw [slotQueue_length, slotQueue_parent]; omega
        · rw [slotQueue_parent, hpv, slotQueue_priAt _ (by omega)]
          simp only [setPri]
          rw [if_neg (by omega)]
          omega
    rw [hup]
    rfl

/-- A sequence of updates that passes the test leaves the nodes in their slots. -/
theorem quiet_of_quietUpdates (n : Nat) (ups : List (Nat × Int)) :
    ∀ pri : Nat → Int, quietUpdates pri n ups = true →
      updateAll (slotQueue pri n) ups =
        .ok (ups.map (fun _ => none), slotQueue (setPris pri ups) n) := by
  induction ups with
  | nil =>
    intro pri _
    rfl
  | cons u rest ih =>
    intro pri h
    obtain ⟨v, p⟩ := u
    unfold quietUpdates at h
    rw [Bool.and_eq_true] at h
    have h1 := quiet_of_quietUpdate pri n v p h.1
    have h2 := ih (setPri pri v p) h.2
    simp only [updateAll, h1, h2, bind, Except.bind, pure, Except.pure, List.map_cons, setPris]

theorem leftPath_parent : ∀ j ∈ leftPath, (j - 1) / 2 ∈ leftPath := by decide

theorem priPath_order (j : Nat) (hj : j < 16777218) (h0 : j ≠ 0) :
    (New 2 0 : MinPQ Nat).parent j < j ∧
      priPath ((New 2 0 : MinPQ Nat).parent j) ≤ priPath j := by
  by_cases h : j ≤ 2 ^ 24
  · rw [parent_small j h]
    refine ⟨by omega, ?_⟩
    by_cases hp : j ∈ leftPath
    · have := leftPath_parent j hp
      unfold priPath
      rw [if_pos this, if_pos hp]
    · have e : priPath j = 10 := by
        unfold priPath
        rw [if_neg hp, if_neg (by omega : ¬ j = 16777217)]
      rw [e]
      unfold priPath
      split_ifs <;> omega
  · have : j = 16777217 := by omega
    subst this
    rw [parent_big]
    exact ⟨by decide, by decide⟩

theorem raisePath_quiet : quietUpdates priPath 16777218 raisePath = true := by decide!

/-- The run of the counterexample to C8 and C9 up to the first `Pop`: the build by
insertion swaps nothing, the 24 updates swap nothing, and the state holds priority 5 in
slot `2^24 + 1` while the root has priority 7. -/
theorem raised_run :
    insertAll (New 2 0) (slotPairs priPath 16777218) = .ok (slotQueue priPath 16777218) ∧
    updateAll (slotQueue priPath 16777218) raisePath =
      .ok (raisePath.map (fun _ => none),
        slotQueue (setPris priPath raisePath) 16777218) :=
  ⟨build_slotQueue priPath 0 16777218 priPath_order,
    quiet_of_quietUpdates 16777218 raisePath priPath raisePath_quiet⟩

theorem raised_values :
    setPris priPath raisePath 0 = 7 ∧ setPris priPath raisePath 1 = 7 ∧
    setPris priPath raisePath 2 = 10 ∧ setPris priPath raisePath 16777217 = 5 := by
  decide!

theorem Safe2_slotQueue (pri : Nat → Int) (n : Nat) : Safe2 (slotQueue pri n) := by
  refine ⟨rfl, by rw [slotQueue_length]; exact le_refl n, ?_⟩
  intro v k hk
  rw [slotQueue_indices] at hk
  rw [slotQueue_length]
  split_ifs at hk with h
  cases hk
  exact h

theorem popN_safe [Inhabited V] (n : Nat) :
    ∀ q : MinPQ V, Safe2 q → ∃ out q1, popN q n = .ok (out, q1) := by
  induction n with
  | zero =>
    intro q _
    exact ⟨[], q, rfl⟩
  | succ n ih =>
    intro q h
    obtain ⟨r, q1, hq1, hs, _⟩ := Pop_safe q h
    obtain ⟨out, q2, hq2⟩ := ih q1 hs
    exact ⟨r :: out, q2, by simp [popN, hq1, hq2, bind, Except.bind, pure, Except.pure]⟩

theorem drainAux_safe [Inhabited V] (n : Nat) :
    ∀ q : MinPQ V, Safe2 q → q.size = n → ∃ out, drainAux n q = .ok out := by
  induction n with
  | zero =>
    intro q _ hs
    exact ⟨[], by simp [drainAux, MinPQ.Empty, hs]⟩
  | succ n ih =>
    intro q h hs
    obtain ⟨r, q1, hq1, hs1, _, hsize, _⟩ := Pop_safe q h
    obtain ⟨out, hout⟩ := ih q1 hs1 (by omega)
    have hne : q.Empty = false := by simp [MinPQ.Empty]; omega
    exact ⟨r :: out, by simp [drainAux, hne, hq1, hout, bind, Except.bind, pure, Except.pure]⟩

/-- The first two `Pop` calls on the state of `raised_run` return priority 7, then 5. -/
theorem raised_pops :
    ∃ q1 q2, (slotQueue (setPris priPath raisePath) 16777218).Pop = .ok ((0, 7), q1) ∧
      q1.size = 16777217 ∧ q1.Pop = .ok ((16777217, 5), q2) ∧ Safe2 q2 ∧
      q2.size = 16777216 := by
  obtain ⟨v0, v1, v2, vc⟩ := raised_values
  generalize hF : slotQueue (setPris priPath raisePath) 16777218 = F
  have hlenF : F.heap.length = 16777218 := by rw [← hF, slotQueue_length]
  have hsizeF : F.size = 16777218 := by rw [← hF]; rfl
  have hdF : F.heapDegree = 2 := by rw [← hF]; rfl
  have h0 : F.heap[0]? = some { val := 0, priority := 7 } := by
    rw [← hF, slotQueue_getElem, if_pos (by decide), v0]
  have hl : F.heap[F.size - 1]? = some { val := 16777217, priority := 5 } := by
    rw [hsizeF, ← hF]
    show (slotQueue (setPris priPath raisePath) 16777218).heap[16777217]? = _
    rw [slotQueue_getElem, if_pos (by decide), vc]
  have hp1 : priAt F.heap 1 = 7 := by
    rw [← hF, slotQueue_priAt _ (by decide), v1]
  have hp2 : priAt F.heap 2 = 10 := by
    rw [← hF, slotQueue_priAt _ (by decide), v2]
  generalize hP : popPre F { val := 0, priority := 7 } { val := 16777217, priority := 5 } = P
  have hheapP : P.heap = F.heap.set 0 { val := 16777217, priority := 5 } := by
    rw [← hP]; rfl
  have hlenP : P.heap.length = 16777218 := by rw [hheapP, List.length_set, hlenF]
  have hsizeP : P.size = 16777217 := by
    rw [← hP]
    show F.size - 1 = 16777217
    rw [hsizeF]
  have hdP : P.heapDegree = 2 := by rw [← hP]; exact hdF
  have hP0 : P.heap[0]? = some { val := 16777217, priority := 5 } := by
    rw [hheapP, List.getElem?_set, if_pos rfl, hlenF, if_pos (by decide)]
  have hpop1 : F.Pop = .ok ((0, 7), P) := by
    rw [Pop_eq_more F _ _ h0 hl (by rw [hsizeF]; decide), hP,
      heapDown_stop P 0 hdP (by rw [hsizeP, hlenP]; decide)]
    · rfl
    · intro _
      rw [priAt_of_some hP0, hheapP, priAt_set_ne _ _ (by decide), hp1]
      decide
    · intro _
      rw [priAt_of_some hP0, hheapP, priAt_set_ne _ _ (by decide), hp2]
      decide
  have hsP : Safe2 P := by
    obtain ⟨r, q1, hq1, hs, _⟩ := Pop_safe F (by rw [← hF]; exact Safe2_slotQueue _ _)
    rw [hpop1] at hq1
    cases hq1
    exact hs
  obtain ⟨r, q2, hq2, hs2, _, hsize2, hroot⟩ := Pop_safe P hsP
  have hr := hroot _ (by rw [hsizeP]; decide) hP0
  subst hr
  exact ⟨P, q2, hpop1, hsizeP, hq2, hs2, by rw [hsize2, hsizeP]⟩

theorem run_inserts_slotQueue (pri : Nat → Int) (tail : List (Op Nat)) (m : Nat) :
    ∀ k, (∀ j, k ≤ j → j < k + m → j ≠ 0 →
        (New 2 0 : MinPQ Nat).parent j < j ∧ pri ((New 2 0 : MinPQ Nat).parent j) ≤ pri j) →
      run (slotQueue pri k)
          ((List.range' k m).map (fun i => Op.insert i (pri i)) ++ tail) =
        run (slotQueue pri (k + m)) tail ∧
      admissible (slotQueue pri k)
          ((List.range' k m).map (fun i => Op.insert i (pri i)) ++ tail) =
        admissible (slotQueue pri (k + m)) tail := by
  induction m with
  | zero =>
    intro k _
    exact ⟨rfl, rfl⟩
  | succ m ih =>
    intro k h
    rw [List.range'_succ, List.map_cons, List.cons_append]
    have h1 := Insert_slotQueue pri k (fun h0 => (h k (le_refl k) (by omega) h0).1)
      (fun h0 => (h k (le_refl k) (by omega) h0).2)
    have hstep : step (slotQueue pri k) (Op.insert k (pri k)) = .ok (slotQueue pri (k + 1)) := h1
    have h2 := ih (k + 1) (fun j hj1 hj2 hj0 => h j (by omega) (by omega) hj0)
    have e : k + 1 + m = k + (m + 1) := by omega
    have hc : (slotQueue pri k).Contains k = false := by
      rw [slotQueue_Contains]
      simp
    constructor
    · simp only [run, hstep, bind, Except.bind]
      rw [h2.1, e]
    · simp only [admissible, hstep, hc]
      rw [h2.2, e]
      rfl

theorem run_updates (ups : List (Nat × Int)) :
    ∀ (q : MinPQ Nat) (errs : List (Option String)) (q2 : MinPQ Nat),
      updateAll q ups = .ok (errs, q2) →
      run q (ups.map (fun x => Op.update x.1 x.2)) = .ok q2 := by
  induction ups with
  | nil =>
    intro q errs q2 h
    cases h
    rfl
  | cons u rest ih =>
    intro q errs q2 h
    obtain ⟨v, p⟩ := u
    cases h1 : q.UpdatePriority v p with
    | error e => simp [updateAll, h1, bind, Except.bind] at h
    | ok r =>
      obtain ⟨e1, q1⟩ := r
      cases h2 : updateAll q1 rest with
      | error e => simp [updateAll, h1, h2, bind, Except.bind] at h
      | ok r2 =>
        obtain ⟨es, q3⟩ := r2
        simp [updateAll, h1, h2, bind, Except.bind, pure, Except.pure] at h
        have := ih q1 es q3 h2
        simp only [List.map_cons, run, step, h1, bind, Except.bind, pure, Except.pure]
        rw [this, h.2]

theorem admissible_updates (ups : List (Nat × Int)) :
    ∀ q : MinPQ Nat, admissible q (ups.map (fun x => Op.update x.1 x.2)) = true := by
  induction ups with
  | nil =>
    intro q
    rfl
  | cons u rest ih =>
    intro q
    simp only [List.map_cons, admissible, Bool.true_and]
    cases step q (Op.update u.1 u.2) with
    | error e => rfl
    | ok q1 => exact ih q1

/-- The state of `raised_run` is reached from `New(2, 0)` by `2^24 + 2` inserts, each of
a value not contained at the time, and 24 updates. -/
theorem raised_reachable :
    Reachable 2 0 (slotQueue (setPris priPath raisePath) 16777218) := by
  refine ⟨(List.range' 0 16777218).map (fun i => Op.insert i (priPath i)) ++
    raisePath.map (fun x => Op.update x.1 x.2), ?_, ?_⟩
  · have h := (run_inserts_slotQueue priPath (raisePath.map (fun x => Op.update x.1 x.2))
      16777218 0 (fun j _ hj hj0 => priPath_order j (by omega) hj0)).2
    rw [New_eq_slotQueue priPath 0, h]
    exact admissible_updates raisePath _
  · have h := (run_inserts_slotQueue priPath (raisePath.map (fun x => Op.update x.1 x.2))
      16777218 0 (fun j _ hj hj0 => priPath_order j (by omega) hj0)).1
    rw [New_eq_slotQueue priPath 0, h, Nat.zero_add]
    exact run_updates raisePath _ _ _ raised_run.2

theorem popN_two [Inhabited V] (q q1 q2 q3 : MinPQ V) (r1 r2 : V × Int)
    (rest : List (V × Int)) (n : Nat) (h1 : q.Pop = .ok (r1, q1)) (h2 : q1.Pop = .ok (r2, q2))
    (h3 : popN q2 n = .ok (rest, q3)) : popN q (n + 2) = .ok (r1 :: r2 :: rest, q3) := by
  simp only [popN, h1, h2, h3, bind, Except.bind, pure, Except.pure]

theorem drainAux_two [Inhabited V] (q q1 q2 : MinPQ V) (r1 r2 : V × Int)
    (rest : List (V × Int)) (n : Nat) (e0 : q.Empty = false) (h1 : q.Pop = .ok (r1, q1))
    (e1 : q1.Empty = false) (h2 : q1.Pop = .ok (r2, q2)) (h3 : drainAux n q2 = .ok rest) :
    drainAux (n + 2) q = .ok (r1 :: r2 :: rest) := by
  simp only [drainAux, e0, e1, h1, h2, h3, bind, Except.bind, pure, Except.pure]
  rfl

end Lemmas

/-! ## The claims -/

section Claims

set_option linter.unusedSectionVars false

variable {V : Type} [DecidableEq V]

open MinPQ

/-- Claim C7 (Pop removes the minimum, binary queue): in a non-empty well-formed state of
a queue with `heapDegree = 2`, `Pop` returns a pair `(v, p)` where `p` is the stored
priority of `v` and is at most the stored priority of every contained value; the state
afterwards is well-formed, does not contain `v`, has its size decreased by 1, and gives
every other value the same `Contains` and `CurrentPriority` as before. -/
theorem C7_pop_removes_minimum [Inhabited V] (q : MinPQ V) (hd : q.heapDegree = 2)
    (hne : q.size ≠ 0) (hwf : WellFormed q) :
    ∃ v p q1, q.Pop = .ok ((v, p), q1) ∧
      q.CurrentPriority v = .ok (p, true) ∧
      (∀ w pw, q.CurrentPriority w = .ok (pw, true) → p ≤ pw) ∧
      WellFormed q1 ∧ q1.heapDegree = 2 ∧
      q1.Contains v = false ∧ q1.Size + 1 = q.Size ∧
      (∀ w, w ≠ v → q1.Contains w = q.Contains w ∧
        q1.CurrentPriority w = q.CurrentPriority w) := by
  obtain ⟨hsz, hord, hok⟩ := (WellFormed_iff q).1 hwf
  obtain ⟨n0, q1, h0, hpop, e1, e2, e3, e4, _, _, e7⟩ := Pop_spec q hd hsz hord hne
  obtain ⟨hok1, hst⟩ := e7 hok
  have hs0 : Stored q n0 := ⟨0, by omega, h0⟩
  refine ⟨n0.val, n0.priority, q1, hpop, CurrentPriority_of_stored q hok n0 hs0, ?_,
    (WellFormed_iff q1).2 ⟨by omega, e4, hok1⟩, e1, ?_, e2, ?_⟩
  · intro w pw hw
    exact root_le_stored q hord n0 _ h0 (Stored_of_CurrentPriority q hok w pw hw)
  · cases hc : q1.Contains n0.val with
    | false => rfl
    | true =>
      obtain ⟨n, hn, hnv⟩ := (Contains_iff_stored q1 hok1 n0.val).1 hc
      exact absurd hnv ((hst n).1 hn).2
  · intro w hw
    by_cases hc : ∃ n, Stored q n ∧ n.val = w
    · obtain ⟨n, hn, hnv⟩ := hc
      have hn1 : Stored q1 n := (hst n).2 ⟨hn, by rw [hnv]; exact hw⟩
      have c1 := (Contains_iff_stored q hok w).2 ⟨n, hn, hnv⟩
      have c2 := (Contains_iff_stored q1 hok1 w).2 ⟨n, hn1, hnv⟩
      refine ⟨by rw [c1, c2], ?_⟩
      rw [← hnv, CurrentPriority_of_stored q hok n hn,
        CurrentPriority_of_stored q1 hok1 n hn1]
    · have hno : ∀ n, Stored q n → n.val ≠ w := fun n hn hnv => hc ⟨n, hn, hnv⟩
      have hno1 : ∀ n, Stored q1 n → n.val ≠ w := fun n hn => hno n ((hst n).1 hn).1
      have c1 : q.Contains w = false := by
        cases h : q.Contains w with
        | false => rfl
        | true =>
          obtain ⟨n, hn, hnv⟩ := (Contains_iff_stored q hok w).1 h
          exact absurd hnv (hno n hn)
      have c2 : q1.Contains w = false := by
        cases h : q1.Contains w with
        | false => rfl
        | true =>
          obtain ⟨n, hn, hnv⟩ := (Contains_iff_stored q1 hok1 w).1 h
          exact absurd hnv (hno1 n hn)
      refine ⟨by rw [c1, c2], ?_⟩
      rw [CurrentPriority_of_not_stored q hok w hno,
        CurrentPriority_of_not_stored q1 hok1 w hno1]

/-- Claim C9 (Pop ordering for the binary queue), for slices of up to `2^24 + 1` nodes:
from every state reached from `New(2, hint)` by `Insert` calls (each on a value not
contained at the time), `Pop` calls and `UpdatePriority` calls whose heap array has at
most `2^24 + 1` nodes, calling `Pop` until `Empty()` is true returns, after `Size()`
calls, priorities of which each is at most every later one (so at most the next one).
Beyond that length the float32 arithmetic of `parent` breaks the claim. -/
theorem C9_pop_ordering_binary [Inhabited V] (hint : Nat) (q : MinPQ V)
    (h : Reachable 2 hint q) (hB : q.heap.length ≤ 2 ^ 24 + 1) :
    ∃ out, drain q = .ok out ∧ out.length = q.Size ∧
      (out.map Prod.snd).Pairwise (· ≤ ·) := by
  obtain ⟨out, h1, h2, _, h4⟩ := drainAux_Inv2 q.size q (Reachable_Inv2 hint q h hB) rfl
  exact ⟨out, h1, h2, h4⟩

/-- Claim C8 (insert, update, then drain, binary queue), for up to `2^24 + 1` pairs: for
`N ≤ 2^24 + 1` pairs with pairwise distinct values inserted in order into `New(2, hint)`,
followed by `UpdatePriority` calls on inserted values, every call returns, every
`UpdatePriority` returns `nil`, and `N` calls of `Pop` return a permutation of the
inserted values, each with the priority most recently assigned to it, in non-decreasing
priority order, leaving the queue empty.  For more pairs the float32 arithmetic of
`parent` breaks the claim. -/
theorem C8_insert_update_drain [Inhabited V] (hint : Nat) (pairs ups : List (V × Int))
    (hN : pairs.length ≤ 2 ^ 24 + 1)
    (hnd : (pairs.map Prod.fst).Nodup) (hups : ∀ u ∈ ups, u.1 ∈ pairs.map Prod.fst) :
    ∃ q1 errs q2 out q3,
      insertAll (New 2 hint) pairs = .ok q1 ∧
      updateAll q1 ups = .ok (errs, q2) ∧ errs.length = ups.length ∧
      (∀ e ∈ errs, e = none) ∧
      popN q2 pairs.length = .ok (out, q3) ∧
      (out.map Prod.fst).Perm (pairs.map Prod.fst) ∧
      (∀ x ∈ out, lastAssigned (pairs ++ ups) x.1 = some x.2) ∧
      (out.map Prod.snd).Pairwise (· ≤ ·) ∧
      q3.Size = 0 := by
  have hnew : (New 2 hint : MinPQ V).size = 0 := rfl
  obtain ⟨q1, hq1, e1, e2, e3, e4, e5, e6⟩ :=
    insertAll_spec pairs (New 2 hint : MinPQ V) [] (by show 1 ≤ 2; decide)
      (by rw [hnew]; omega) rfl
      (HeapOrder_New 2 hint) (IdxOK_New 2 hint) (Tracks_New 2 hint) hnd
      (fun x _ => lastAssigned_nil x.1)
  rw [List.nil_append] at e6
  have hsz1 : q1.size = pairs.length := by
    rw [e3]; simp [New]
  obtain ⟨errs, q2, hq2, f1, f2, f3, f4, f5, f6, f7, f8⟩ :=
    updateAll_spec ups q1 pairs e1 (by omega) (by omega) e4 e5 e6 hups
  obtain ⟨out, q3, hout, g1, g2, g3, g4, g5⟩ :=
    popN_spec pairs.length q2 f3 f5 f6 f7 (by omega)
  refine ⟨q1, errs, q2, out, q3, hq1, hq2, f1, f2, hout, ?_, ?_, g3, g2⟩
  · rw [List.perm_ext_iff_of_nodup g4 hnd]
    intro v
    constructor
    · intro hv
      obtain ⟨x, hx, hxv⟩ := List.mem_map.mp hv
      have := (f8 _).1 ((g5 x.1 x.2).1 hx)
      have hm := (lastAssigned_isSome_iff (pairs ++ ups) x.1).1 ⟨_, this⟩
      rw [List.map_append, List.mem_append] at hm
      rw [← hxv]
      rcases hm with h | h
      · exact h
      · obtain ⟨u, hu, huv⟩ := List.mem_map.mp h
        rw [← huv]
        exact hups u hu
    · intro hv
      obtain ⟨p, hp⟩ := (lastAssigned_isSome_iff (pairs ++ ups) v).2
        (by rw [List.map_append, List.mem_append]; exact Or.inl hv)
      have := (g5 v p).2 ((f8 _).2 hp)
      exact List.mem_map.mpr ⟨(v, p), this, rfl⟩
  · intro x hx
    exact (f8 _).1 ((g5 x.1 x.2).1 hx)

/-- Witness for C7: the queue holding ("bar", 0) and ("foo", 1) is binary, non-empty and
well-formed, and the claim holds of it. -/
theorem C7_pop_removes_minimum_witness :
    fooBar.heapDegree = 2 ∧ fooBar.size ≠ 0 ∧ WellFormed fooBar ∧
    ∃ v p q1, fooBar.Pop = .ok ((v, p), q1) ∧
      fooBar.CurrentPriority v = .ok (p, true) ∧
      (∀ w pw, fooBar.CurrentPriority w = .ok (pw, true) → p ≤ pw) ∧
      WellFormed q1 ∧ q1.heapDegree = 2 ∧
      q1.Contains v = false ∧ q1.Size + 1 = fooBar.Size ∧
      (∀ w, w ≠ v → q1.Contains w = fooBar.Contains w ∧
        q1.CurrentPriority w = fooBar.CurrentPriority w) :=
  ⟨rfl, by decide, fooBar_wellFormed,
    C7_pop_removes_minimum fooBar rfl (by decide) fooBar_wellFormed⟩

/-- Witness for C8: the scenario of the test "Test update priority": insert ("foo", 1) and
("bar", 0), then `UpdatePriority("bar", 2)`. -/
theorem C8_insert_update_drain_witness :
    [(some "foo", (1 : Int)), (some "bar", 0)].length ≤ 2 ^ 24 + 1 ∧
    ([(some "foo", (1 : Int)), (some "bar", 0)].map Prod.fst).Nodup ∧
    (∀ u ∈ [(some "bar", (2 : Int))],
      u.1 ∈ [(some "foo", (1 : Int)), (some "bar", 0)].map Prod.fst) ∧
    ∃ q1 errs q2 out q3,
      insertAll (New 2 10) [(some "foo", 1), (some "bar", 0)] = .ok q1 ∧
      updateAll q1 [(some "bar", 2)] = .ok (errs, q2) ∧
      errs.length = [(some "bar", (2 : Int))].length ∧
      (∀ e ∈ errs, e = none) ∧
      popN q2 [(some "foo", (1 : Int)), (some "bar", 0)].length = .ok (out, q3) ∧
      (out.map Prod.fst).Perm ([(some "foo", (1 : Int)), (some "bar", 0)].map Prod.fst) ∧
      (∀ x ∈ out,
        lastAssigned ([(some "foo", 1), (some "bar", 0)] ++ [(some "bar", 2)]) x.1 =
          some x.2) ∧
      (out.map Prod.snd).Pairwise (· ≤ ·) ∧
      q3.Size = 0 :=
  ⟨by decide, by decide, by decide,
    C8_insert_update_drain 10 [(some "foo", 1), (some "bar", 0)] [(some "bar", 2)]
      (by decide) (by decide) (by decide)⟩

/-- Witness for C9: the queue holding ("bar", 0) and ("foo", 1) is reached from
`New(2, 10)` by two inserts, and the claim holds of it. -/
theorem C9_pop_ordering_binary_witness :
    Reachable 2 10 fooBar ∧ fooBar.heap.length ≤ 2 ^ 24 + 1 ∧
    ∃ out, drain fooBar = .ok out ∧ out.length = fooBar.Size ∧
      (out.map Prod.snd).Pairwise (· ≤ ·) :=
  ⟨fooBar_reachable, by decide,
    C9_pop_ordering_binary 10 fooBar fooBar_reachable (by decide)⟩

/-- Claim C10 (NotFound on update): when `Contains(v)` is false, `UpdatePriority(v, p)`
returns a non-nil error and the state it leaves is the state it was called on (heap
array, index map and size unchanged); when `Contains(v)` is true, whatever
`UpdatePriority(v, p)` returns carries the `nil` error. -/
theorem C10_update_not_found (q : MinPQ V) (v : V) (p : Int) :
    (q.Contains v = false → ∃ e, q.UpdatePriority v p = .ok (some e, q)) ∧
    (q.Contains v = true → ∀ e q1, q.UpdatePriority v p = .ok (e, q1) → e = none) := by
  constructor
  · intro h
    have hi : q.indices v = none := by
      cases hc : q.indices v with
      | none => rfl
      | some k => simp [Contains, hc] at h
    exact ⟨_, UpdatePriority_absent q v p hi⟩
  · intro h e q1 hres
    obtain ⟨ind, hind⟩ := Option.isSome_iff_exists.mp h
    cases hold : q.heap[ind]? with
    | none =>
      simp [MinPQ.UpdatePriority, hind, load, hold, bind, Except.bind] at hres
    | some old =>
      rw [UpdatePriority_eq q v p ind old hind hold] at hres
      split_ifs at hres
      · cases hdn : heapDown (updatePre q ind old p) ind with
        | error err => simp [hdn, Except.map] at hres
        | ok q2 =>
          simp [hdn, Except.map] at hres
          exact hres.1.symm
      · cases hup : heapUp (updatePre q ind old p) ind with
        | error err => simp [hup, Except.map] at hres
        | ok q2 =>
          simp [hup, Except.map] at hres
          exact hres.1.symm

/-- Witness for C10: on the empty queue `UpdatePriority("foo", 1)` reports an error and
changes nothing (the test "Test the empty queue"); on the queue holding "bar" and "foo",
`UpdatePriority("bar", 2)` returns `nil`. -/
theorem C10_update_not_found_witness :
    (New 2 0 : MinPQ (Option String)).Contains (some "foo") = false ∧
    (∃ e, (New 2 0 : MinPQ (Option String)).UpdatePriority (some "foo") 1 =
      .ok (some e, New 2 0)) ∧
    fooBar.Contains (some "bar") = true ∧
    (∀ e q1, fooBar.UpdatePriority (some "bar") 2 = .ok (e, q1) → e = none) :=
  ⟨rfl, (C10_update_not_found (New 2 0) (some "foo") 1).1 rfl, by decide,
    (C10_update_not_found fooBar (some "bar") 2).2 (by decide)⟩

/-- Claim C11 (empty pop): in every state with `Size() = 0`, `Pop` returns the empty signal
(the nil value, priority 0) and the state it leaves is the state it was called on (heap
array, index map and size unchanged), so `Empty()` is still true. -/
theorem C11_empty_pop [Inhabited V] (q : MinPQ V) (h : q.Size = 0) :
    ∃ q1, q.Pop = .ok ((default, 0), q1) ∧ q1 = q ∧ q1.Empty = true := by
  refine ⟨q, Pop_empty q h, rfl, ?_⟩
  simp only [MinPQ.Size] at h
  simp [MinPQ.Empty, h]

/-- Witness for C11: the queue of the test "Test the empty queue". -/
theorem C11_empty_pop_witness :
    (New 2 0 : MinPQ (Option String)).Size = 0 ∧
    ∃ q1, (New 2 0 : MinPQ (Option String)).Pop = .ok ((none, 0), q1) ∧
      q1 = New 2 0 ∧ q1.Empty = true :=
  ⟨rfl, C11_empty_pop (New 2 0) rfl⟩

/-- Claim C13 (size accounting): `New(d, hint)` has `Size() = 0`; in every state, an
`Insert` that returns has increased `Size()` by exactly 1, a `Pop` on a non-empty queue
that returns has decreased it by exactly 1, a `Pop` on an empty queue and an
`UpdatePriority` that return have left it unchanged; and `Empty()` is true exactly when
`Size() = 0`. -/
theorem C13_size_accounting [Inhabited V] (d hint : Nat) (q : MinPQ V) :
    (New d hint : MinPQ V).Size = 0 ∧
    (∀ v p q1, q.Insert v p = .ok q1 → q1.Size = q.Size + 1) ∧
    (∀ r q1, q.Size ≠ 0 → q.Pop = .ok (r, q1) → q1.Size + 1 = q.Size) ∧
    (∀ r q1, q.Size = 0 → q.Pop = .ok (r, q1) → q1.Size = q.Size) ∧
    (∀ v p e q1, q.UpdatePriority v p = .ok (e, q1) → q1.Size = q.Size) ∧
    (q.Empty = true ↔ q.Size = 0) := by
  refine ⟨rfl, ?_, ?_, ?_, ?_, ?_⟩
  · intro v p q1 h
    exact Insert_size q v p q1 h
  · intro r q1 hne h
    have := Pop_size q r q1 h
    simp only [MinPQ.Size] at hne ⊢
    omega
  · intro r q1 h0 h
    have := Pop_size q r q1 h
    simp only [MinPQ.Size] at h0 ⊢
    omega
  · intro v p e q1 h
    exact UpdatePriority_size q v p e q1 h
  · simp [MinPQ.Empty, MinPQ.Size]

/-- Claim C19 (the binary queue never indexes out of range): in every state reached from
`New(2, hint)` by `Insert` calls (each on a value not contained at the time), `Pop` calls
and `UpdatePriority` calls, the size is at most the length of the heap array and every
entry of the index map is a valid index of the heap array; and every `Insert`, `Pop`,
`CurrentPriority` and `UpdatePriority` call made in such a state returns (none fails with
an index out of range).  This holds whatever the number of nodes: the slot that `parent`
computes in float32 is always a smaller slot. -/
theorem C19_binary_queue_in_range [Inhabited V] (hint : Nat) (q : MinPQ V)
    (h : Reachable 2 hint q) :
    q.size ≤ q.heap.length ∧
    (∀ v k, q.indices v = some k → k < q.heap.length) ∧
    (∀ v p, ∃ q1, q.Insert v p = .ok q1) ∧
    (∃ r q1, q.Pop = .ok (r, q1)) ∧
    (∀ v, ∃ r, q.CurrentPriority v = .ok r) ∧
    (∀ v p, ∃ e q1, q.UpdatePriority v p = .ok (e, q1)) := by
  have hs := Reachable_Safe2 hint q h
  refine ⟨hs.2.1, hs.2.2, ?_, ?_, ?_, ?_⟩
  · intro v p
    obtain ⟨q1, hq1, _⟩ := Insert_safe q v p hs
    exact ⟨q1, hq1⟩
  · obtain ⟨r, q1, hq1, _⟩ := Pop_safe q hs
    exact ⟨r, q1, hq1⟩
  · intro v
    exact CurrentPriority_ok_of_bounded q hs.2.2 v
  · intro v p
    obtain ⟨e, q1, hq1, _⟩ := UpdatePriority_safe q hs v p
    exact ⟨e, q1, hq1⟩

/-- Witness for C19: the queue holding ("bar", 0) and ("foo", 1), reached from
`New(2, 10)` by two inserts. -/
theorem C19_binary_queue_in_range_witness :
    Reachable 2 10 fooBar ∧
    fooBar.size ≤ fooBar.heap.length ∧
    (∀ v k, fooBar.indices v = some k → k < fooBar.heap.length) ∧
    (∀ v p, ∃ q1, fooBar.Insert v p = .ok q1) ∧
    (∃ r q1, fooBar.Pop = .ok (r, q1)) ∧
    (∀ v, ∃ r, fooBar.CurrentPriority v = .ok r) ∧
    (∀ v p, ∃ e q1, fooBar.UpdatePriority v p = .ok (e, q1)) :=
  ⟨fooBar_reachable, C19_binary_queue_in_range 10 fooBar fooBar_reachable⟩

/-- Witness for C13: on the queue holding ("bar", 0) and ("foo", 1) an `Insert`, a `Pop`
and an `UpdatePriority` return, and the sizes are as the claim says. -/
theorem C13_size_accounting_witness :
    (∃ q1, fooBar.Insert (some "baz") 5 = .ok q1 ∧ q1.Size = fooBar.Size + 1) ∧
    (∃ r q1, fooBar.Pop = .ok (r, q1) ∧ q1.Size + 1 = fooBar.Size) ∧
    (∃ e q1, fooBar.UpdatePriority (some "bar") 2 = .ok (e, q1) ∧ q1.Size = fooBar.Size) ∧
    (fooBar.Empty = true ↔ fooBar.Size = 0) := by
  have hs := Reachable_Safe2 10 fooBar fooBar_reachable
  have hc := C13_size_accounting 2 10 fooBar
  refine ⟨?_, ?_, ?_, hc.2.2.2.2.2⟩
  · obtain ⟨q1, hq1, _⟩ := Insert_safe fooBar (some "baz") 5 hs
    exact ⟨q1, hq1, hc.2.1 _ _ _ hq1⟩
  · obtain ⟨r, q1, hq1, _⟩ := Pop_safe fooBar hs
    exact ⟨r, q1, hq1, hc.2.2.1 r q1 (by decide) hq1⟩
  · obtain ⟨e, q1, hq1, _⟩ := UpdatePriority_safe fooBar hs (some "bar") 2
    exact ⟨e, q1, hq1, hc.2.2.2.2.1 _ _ _ _ hq1⟩

/-- Claim C15 (priority decrease restores order upward), for up to `2^24 + 1` nodes: for
every `d ≥ 2`, in every well-formed state with `Size() ≤ 2^24 + 1`, for every contained
value `v` with stored priority `P` and every `P' < P`, `UpdatePriority(v, P')` returns
`nil` and yields a well-formed state of the same degree and size in which `v` has
priority `P'` and every other value has the same `Contains` and `CurrentPriority` as
before.  In a larger queue the float32 arithmetic of `parent` breaks the claim. -/
theorem C15_decrease_restores_order (q : MinPQ V) (hd : 2 ≤ q.heapDegree)
    (hB : q.Size ≤ 2 ^ 24 + 1)
    (hwf : WellFormed q) (v : V) (P P1 : Int) (_hc : q.Contains v = true)
    (hcur : q.CurrentPriority v = .ok (P, true)) (hlt : P1 < P) :
    ∃ q1, q.UpdatePriority v P1 = .ok (none, q1) ∧ WellFormed q1 ∧
      q1.heapDegree = q.heapDegree ∧ q1.Size = q.Size ∧
      q1.Contains v = true ∧ q1.CurrentPriority v = .ok (P1, true) ∧
      (∀ w, w ≠ v → q1.Contains w = q.Contains w ∧
        q1.CurrentPriority w = q.CurrentPriority w) := by
  obtain ⟨hsz, hord, hok⟩ := (WellFormed_iff q).1 hwf
  have hst := Stored_of_CurrentPriority q hok v P hcur
  obtain ⟨ind, hi, hind⟩ := hst
  have hiv : q.indices v = some ind := (hok v ind).2 ⟨hi, _, hind, rfl⟩
  have hpri : priAt q.heap ind = P := priAt_of_some hind
  obtain ⟨q1, hq1, e1, e2, e3, e4, _, e6⟩ :=
    UpdatePriority_spec q v P1 ind (by omega) (by simp only [MinPQ.Size] at hB; omega) hiv
      (by omega) hsz hord (Or.inr (by omega))
  obtain ⟨hok1, hst1⟩ := e6 hok
  have hsv : Stored q1 { val := v, priority := P1 } := (hst1 _).2 (Or.inr rfl)
  refine ⟨q1, hq1, (WellFormed_iff q1).2 ⟨by omega, e4, hok1⟩, e1, e2,
    (Contains_iff_stored q1 hok1 v).2 ⟨_, hsv, rfl⟩,
    CurrentPriority_of_stored q1 hok1 _ hsv, ?_⟩
  intro w hw
  apply observe_eq q q1 hok hok1 w
  intro n hn
  rw [hst1 n]
  constructor
  · rintro (⟨h, _⟩ | h)
    · exact h
    · rw [h] at hn
      exact absurd hn.symm hw
  · intro h
    exact Or.inl ⟨h, by rw [hn]; exact hw⟩

/-- Witness for C15: on the queue holding ("bar", 0) and ("foo", 1), lower "foo" from 1
to -1. -/
theorem C15_decrease_restores_order_witness :
    2 ≤ fooBar.heapDegree ∧ fooBar.Size ≤ 2 ^ 24 + 1 ∧ WellFormed fooBar ∧
    fooBar.Contains (some "foo") = true ∧
    fooBar.CurrentPriority (some "foo") = .ok (1, true) ∧ (-1 : Int) < 1 ∧
    ∃ q1, fooBar.UpdatePriority (some "foo") (-1) = .ok (none, q1) ∧ WellFormed q1 ∧
      q1.heapDegree = fooBar.heapDegree ∧ q1.Size = fooBar.Size ∧
      q1.Contains (some "foo") = true ∧ q1.CurrentPriority (some "foo") = .ok (-1, true) ∧
      (∀ w, w ≠ some "foo" → q1.Contains w = fooBar.Contains w ∧
        q1.CurrentPriority w = fooBar.CurrentPriority w) :=
  ⟨by decide, by decide, fooBar_wellFormed, by decide, by decide, by decide,
    C15_decrease_restores_order fooBar (by decide) (by decide) fooBar_wellFormed
      (some "foo") 1 (-1) (by decide) (by decide) (by decide)⟩

/-- Claim C17 (building by insertion alone), for up to `2^24 + 1` pairs: for every
`d ≥ 2`, every capacity hint and every list of `N ≤ 2^24 + 1` pairs with pairwise distinct
values, inserting the pairs in order into `New(d, hint)` returns and leaves `Size() = N`,
heap-order on the slots below `N`, `indices[heap[i].val] = i` for every slot `i < N`, and
for every inserted pair `(v, p)` `Contains(v)` true and `CurrentPriority(v) = (p, true)`.
For more pairs the float32 arithmetic of `parent` breaks the claim. -/
theorem C17_build_by_insertion (d hint : Nat) (hd : 2 ≤ d) (pairs : List (V × Int))
    (hN : pairs.length ≤ 2 ^ 24 + 1) (hnd : (pairs.map Prod.fst).Nodup) :
    ∃ q, insertAll (New d hint) pairs = .ok q ∧ q.Size = pairs.length ∧ HeapOrder q ∧
      IndexCorrect q ∧
      ∀ x ∈ pairs, q.Contains x.1 = true ∧ q.CurrentPriority x.1 = .ok (x.2, true) := by
  have hnew : (New d hint : MinPQ V).size = 0 := rfl
  have hdeg : (New d hint : MinPQ V).heapDegree = d := rfl
  obtain ⟨q, hq, _, e2, e3, e4, e5, e6⟩ :=
    insertAll_spec pairs (New d hint : MinPQ V) [] (by rw [hdeg]; omega)
      (by rw [hnew]; omega) rfl (HeapOrder_New d hint)
      (IdxOK_New d hint) (Tracks_New d hint) hnd (fun x _ => lastAssigned_nil x.1)
  rw [List.nil_append] at e6
  have hwf : WellFormed q := (WellFormed_iff q).2 ⟨by omega, e4, e5⟩
  refine ⟨q, hq, by simp [MinPQ.Size, e3, New], e4, hwf.indexCorrect, ?_⟩
  intro x hx
  have hs : Stored q { val := x.1, priority := x.2 } :=
    (e6 _).2 (lastAssigned_of_mem_nodup pairs hnd x.1 x.2 hx)
  exact ⟨(Contains_iff_stored q e5 x.1).2 ⟨_, hs, rfl⟩, CurrentPriority_of_stored q e5 _ hs⟩

/-- Witness for C17: the two inserts of the test "Test pop". -/
theorem C17_build_by_insertion_witness :
    (2 : Nat) ≤ 2 ∧ [(some "foo", (1 : Int)), (some "bar", 0)].length ≤ 2 ^ 24 + 1 ∧
    ([(some "foo", (1 : Int)), (some "bar", 0)].map Prod.fst).Nodup ∧
    ∃ q, insertAll (New 2 10) [(some "foo", (1 : Int)), (some "bar", 0)] = .ok q ∧
      q.Size = [(some "foo", (1 : Int)), (some "bar", 0)].length ∧ HeapOrder q ∧
      IndexCorrect q ∧
      ∀ x ∈ [(some "foo", (1 : Int)), (some "bar", 0)],
        q.Contains x.1 = true ∧ q.CurrentPriority x.1 = .ok (x.2, true) :=
  ⟨by decide, by decide, by decide,
    C17_build_by_insertion 2 10 (by decide) [(some "foo", 1), (some "bar", 0)] (by decide)
      (by decide)⟩

/-- Claim C18 (Insert away from the one-free-slot case), for up to `2^24` nodes: for every
`d ≥ 2`, in every well-formed state with `Size() ≤ 2^24` and `len(heap) ≠ size + 1`, for
every value `v` not contained and every priority `p`, `Insert(v, p)` calls `heapUp(size)`
in a state whose slot `size` holds the new node, returns, and yields a well-formed state
of the same degree with the size increased by 1 in which `v` is contained with priority
`p` and every other value has the same `Contains` and `CurrentPriority` as before.  In a
larger queue the float32 arithmetic of `parent` breaks the claim. -/
theorem C18_insert_correct_off_boundary (q : MinPQ V) (hd : 2 ≤ q.heapDegree)
    (hB : q.Size ≤ 2 ^ 24)
    (hwf : WellFormed q) (hlen : q.heap.length ≠ q.size + 1) (v : V)
    (hv : q.Contains v = false) (p : Int) :
    (insertPre q v p).heap[q.size]? = some { val := v, priority := p } ∧
    q.Insert v p = heapUp (insertPre q v p) q.size ∧
    ∃ q1, q.Insert v p = .ok q1 ∧ WellFormed q1 ∧ q1.heapDegree = q.heapDegree ∧
      q1.Size = q.Size + 1 ∧
      q1.Contains v = true ∧ q1.CurrentPriority v = .ok (p, true) ∧
      (∀ w, w ≠ v → q1.Contains w = q.Contains w ∧
        q1.CurrentPriority w = q.CurrentPriority w) := by
  obtain ⟨hsz, hord, hok⟩ := (WellFormed_iff q).1 hwf
  have hiv : q.indices v = none := by
    cases hi : q.indices v with
    | none => rfl
    | some k => simp [Contains, hi] at hv
  obtain ⟨q1, hq1, e1, e2, e3, e4, _, e6⟩ :=
    Insert_spec q v p (by omega) (by simp only [MinPQ.Size] at hB; exact hB) hsz hord
  obtain ⟨hst, hidx⟩ := e6 hlen
  have hok1 := hidx hok hiv
  have hsv : Stored q1 { val := v, priority := p } := (hst _).2 (Or.inr rfl)
  refine ⟨insertPre_slot q v p hsz hlen, Insert_eq q v p, q1, hq1,
    (WellFormed_iff q1).2 ⟨?_, e4, hok1⟩, e1, e2,
    (Contains_iff_stored q1 hok1 v).2 ⟨_, hsv, rfl⟩,
    CurrentPriority_of_stored q1 hok1 _ hsv, ?_⟩
  · rw [e2, e3]
    split_ifs <;> omega
  · intro w hw
    apply observe_eq q q1 hok hok1 w
    intro n hn
    rw [hst n]
    constructor
    · rintro (h | h)
      · exact h
      · rw [h] at hn
        exact absurd hn.symm hw
    · intro h
      exact Or.inl h

/-- Witness for C18: on the queue holding ("bar", 0) and ("foo", 1), whose heap array has
length 2 = size, insert ("baz", 5). -/
theorem C18_insert_correct_off_boundary_witness :
    2 ≤ fooBar.heapDegree ∧ fooBar.Size ≤ 2 ^ 24 ∧ WellFormed fooBar ∧
    fooBar.heap.length ≠ fooBar.size + 1 ∧
    fooBar.Contains (some "baz") = false ∧
    (insertPre fooBar (some "baz") 5).heap[fooBar.size]? =
      some { val := some "baz", priority := 5 } ∧
    fooBar.Insert (some "baz") 5 = heapUp (insertPre fooBar (some "baz") 5) fooBar.size ∧
    ∃ q1, fooBar.Insert (some "baz") 5 = .ok q1 ∧ WellFormed q1 ∧
      q1.heapDegree = fooBar.heapDegree ∧ q1.Size = fooBar.Size + 1 ∧
      q1.Contains (some "baz") = true ∧ q1.CurrentPriority (some "baz") = .ok (5, true) ∧
      (∀ w, w ≠ some "baz" → q1.Contains w = fooBar.Contains w ∧
        q1.CurrentPriority w = fooBar.CurrentPriority w) :=
  ⟨by decide, by decide, fooBar_wellFormed, by decide, by decide,
    C18_insert_correct_off_boundary fooBar (by decide) (by decide) fooBar_wellFormed
      (by decide) (some "baz") (by decide) 5⟩

/-- Counterexample to C12 as stated, in two parts.  First, the state `strayKey` of a
binary queue satisfies the three conditions of the claim (size ≤ len, heap-order and
`indices[heap[i].val] = i` below the size), `Contains("baz")` is true and
`CurrentPriority("baz")` is `(2, true)`, yet `UpdatePriority("baz", 2)` exchanges slots 0
and 1 of the heap array: the slot that the index map gives for "baz" is not below the
size.  Two conjuncts show the run that reaches this state from `New(2, 0)`.  Second, in
the well-formed binary queue `slotQueue priSame (2^24 + 2)` the value `2^24 + 1` is
contained with priority 10, in slot `2^24 + 1`, yet `UpdatePriority(2^24 + 1, 10)`
exchanges it with the node of slot `2^23 - 1`, which `parent` computes instead of slot
`2^23`. -/
theorem C12_counterexample_stray_key_large_slot :
    2 ≤ strayKey.heapDegree ∧ strayKey.size ≤ strayKey.heap.length ∧ HeapOrder strayKey ∧
    IndexCorrect strayKey ∧
    strayKey.Contains (some "baz") = true ∧
    strayKey.CurrentPriority (some "baz") = .ok (2, true) ∧
    strayKey.heap =
      [{ val := some "bar", priority := 9 }, { val := some "bar", priority := 2 },
        { val := some "baz", priority := 0 }] ∧
    (do
      let r ← strayKey.UpdatePriority (some "baz") 2
      pure (r.1, r.2.heap)) =
      .ok (none, [{ val := some "bar", priority := 2 }, { val := some "bar", priority := 9 },
        { val := some "baz", priority := 0 }]) ∧
    (do
      let q ← run (New 2 0)
        [Op.insert (some "foo") 1, Op.insert (some "bar") 2, Op.pop,
          Op.insert (some "baz") 0, Op.pop, Op.update (some "bar") 9]
      pure (q.heapDegree, q.heap, q.size)) = .ok (2, strayKey.heap, 1) ∧
    (do
      let q ← run (New 2 0)
        [Op.insert (some "foo") 1, Op.insert (some "bar") 2, Op.pop,
          Op.insert (some "baz") 0, Op.pop, Op.update (some "bar") 9]
      pure (q.indices (some "foo"), q.indices (some "bar"), q.indices (some "baz"))) =
      .ok (none, some 0, some 1) ∧
    WellFormed (slotQueue priSame 16777218) ∧
    (slotQueue priSame 16777218).Contains 16777217 = true ∧
    (slotQueue priSame 16777218).CurrentPriority 16777217 = .ok (10, true) ∧
    (slotQueue priSame 16777218).heap[8388607]? =
      some { val := 8388607, priority := 1000 } ∧
    (∃ q1, (slotQueue priSame 16777218).UpdatePriority 16777217 10 = .ok (none, q1) ∧
      q1.heap[8388607]? = some { val := 16777217, priority := 10 }) := by
  refine ⟨by decide, by decide, ?_, ?_, by decide, by decide!, rfl, by decide!, by decide!,
    by decide!, large_same.1, ?_, ?_, large_same.2.1, large_same.2.2⟩
  rotate_left 2
  · rw [slotQueue_Contains]
    decide
  · rw [slotQueue_CurrentPriority priSame (by decide)]
    rfl
  · intro i h1 h2
    have : i < 1 := h2
    omega
  · intro i n hi hn
    have hi0 : i = 0 := by
      have : i < 1 := hi
      omega
    subst hi0
    have : n = { val := some "bar", priority := 9 } := by
      simp [strayKey] at hn
      exact hn.symm
    subst this
    rfl


/-- Claim C12 as amended (no-change update is a no-op): for every `d ≥ 2`, in every state
with size ≤ len, heap-order and `indices[heap[i].val] = i` for every slot below the size,
for every contained value `v` whose slot `indices[v]` is below the size and at most `2^24`
and whose stored priority is `p`, `UpdatePriority(v, p)` returns `nil` and the state it
leaves is the state it was called on (heap array, index map and size unchanged). -/
theorem C12_no_change_update_noop (q : MinPQ V) (hd : 2 ≤ q.heapDegree)
    (hsz : q.size ≤ q.heap.length) (hord : HeapOrder q) (_hidx : IndexCorrect q)
    (v : V) (i : Nat) (p : Int) (hiv : q.indices v = some i) (hi : i < q.size)
    (hb : i ≤ 2 ^ 24) (hcur : q.CurrentPriority v = .ok (p, true)) :
    q.UpdatePriority v p = .ok (none, q) := by
  obtain ⟨n, hn⟩ := exists_getElem_of_lt (show i < q.heap.length by omega)
  have hp : priAt q.heap i = p := by
    rw [priAt_of_some hn]
    simp [CurrentPriority, hiv, load, hn, bind, Except.bind] at hcur
    exact hcur
  exact UpdatePriority_same q v p i (by omega) hb hsz hord hiv hi hp

/-- Witness for the amended C12: on the queue holding ("bar", 0) and ("foo", 1), where
"foo" is in slot 1, `UpdatePriority("foo", 1)` changes nothing. -/
theorem C12_no_change_update_noop_witness :
    2 ≤ fooBar.heapDegree ∧ fooBar.size ≤ fooBar.heap.length ∧ HeapOrder fooBar ∧
    IndexCorrect fooBar ∧ fooBar.indices (some "foo") = some 1 ∧ 1 < fooBar.size ∧
    1 ≤ 2 ^ 24 ∧ fooBar.CurrentPriority (some "foo") = .ok (1, true) ∧
    fooBar.UpdatePriority (some "foo") 1 = .ok (none, fooBar) :=
  ⟨by decide, fooBar_wellFormed.size_le, fooBar_wellFormed.heapOrder,
    fooBar_wellFormed.indexCorrect, by decide, by decide, by decide, by decide,
    C12_no_change_update_noop fooBar (by decide) fooBar_wellFormed.size_le
      fooBar_wellFormed.heapOrder fooBar_wellFormed.indexCorrect (some "foo") 1 1
      (by decide) (by decide) (by decide) (by decide)⟩

/-- Counterexample to C15 as stated: the binary queue `slotQueue priDecrease (2^24 + 2)`
is well-formed and contains the value `2^24 + 1` with priority 10, in slot `2^24 + 1`
below the priority 8 of slot `2^23`; `UpdatePriority(2^24 + 1, 7)` returns `nil`, but
`heapUp` compares with slot `2^23 - 1` (priority 5), swaps nothing, and leaves 7 below 8:
the state is not in heap-order. -/
theorem C15_counterexample_large_queue :
    2 ≤ (slotQueue priDecrease 16777218).heapDegree ∧
    WellFormed (slotQueue priDecrease 16777218) ∧
    (slotQueue priDecrease 16777218).Contains 16777217 = true ∧
    (slotQueue priDecrease 16777218).CurrentPriority 16777217 = .ok (10, true) ∧
    (7 : Int) < 10 ∧
    ∃ q1, (slotQueue priDecrease 16777218).UpdatePriority 16777217 7 = .ok (none, q1) ∧
      ¬ HeapOrder q1 ∧ ¬ WellFormed q1 := by
  refine ⟨by decide, large_decrease.1, ?_, ?_, by decide, ?_⟩
  · rw [slotQueue_Contains]
    decide
  · rw [slotQueue_CurrentPriority priDecrease (by decide)]
    rfl
  · obtain ⟨q1, h1, _, _, h4⟩ := large_decrease.2
    exact ⟨q1, h1, h4, fun hw => h4 hw.heapOrder⟩

/-- Counterexample to C17 as stated: the `2^24 + 2` pairs `(i, priBuild i)` have pairwise
distinct values; inserted in order into `New(2, 0)` they need no swap until the last one,
which `heapUp` compares with slot `2^23 - 1` (priority 40) instead of slot `2^23`
(priority 100): the resulting state holds 50 below 100 and is not in heap-order. -/
theorem C17_counterexample_large_build :
    ((slotPairs priBuild 16777218).map Prod.fst).Nodup ∧
    (slotPairs priBuild 16777218).length = 2 ^ 24 + 2 ∧
    ∃ q, insertAll (New 2 0) (slotPairs priBuild 16777218) = .ok q ∧
      q.Size = 2 ^ 24 + 2 ∧ ¬ HeapOrder q := by
  refine ⟨slotPairs_nodup _ _, ?_, slotQueue priBuild 16777218, large_build.1, ?_,
    large_build.2⟩
  · rw [slotPairs_length]
    decide
  · show 16777218 = 2 ^ 24 + 2
    decide

/-- Counterexample to C18 as stated: the binary queue `slotQueue priBuild (2^24 + 1)`,
reached by inserting `2^24 + 1` pairs into `New(2, 0)`, is well-formed with
`len(heap) = size`, and does not contain the value `2^24 + 1`; `Insert(2^24 + 1, 50)`
writes the node to slot `2^24 + 1` and returns, but the state it yields holds 50 below
the 100 of slot `2^23` and is not well-formed. -/
theorem C18_counterexample_large_insert :
    insertAll (New 2 0) (slotPairs priBuild 16777217) = .ok (slotQueue priBuild 16777217) ∧
    2 ≤ (slotQueue priBuild 16777217).heapDegree ∧
    WellFormed (slotQueue priBuild 16777217) ∧
    (slotQueue priBuild 16777217).heap.length ≠ (slotQueue priBuild 16777217).size + 1 ∧
    (slotQueue priBuild 16777217).Contains 16777217 = false ∧
    ∃ q1, (slotQueue priBuild 16777217).Insert 16777217 50 = .ok q1 ∧
      q1.heap[16777217]? = some { val := 16777217, priority := 50 } ∧
      ¬ HeapOrder q1 ∧ ¬ WellFormed q1 := by
  refine ⟨large_insert.1, by decide, large_insert.2.1, ?_, ?_,
    slotQueue priBuild 16777218, large_insert.2.2, ?_, large_build.2,
    fun hw => large_build.2 hw.heapOrder⟩
  · rw [slotQueue_length]
    show 16777217 ≠ 16777217 + 1
    decide
  · rw [slotQueue_Contains]
    decide
  · rw [slotQueue_getElem, if_pos (by decide)]
    rfl

/-- Claim C14 (priority increase restores order downward, every `d ≥ 2`): with branching
factor 3, the state after inserting ("a", 0), ("b", 0), ("c", 0) into `New(3, 0)` is
well-formed and contains "a" with priority 0, yet `UpdatePriority("a", 1)` fails with an
index out of range (`heapDown(0)` reads slot 3 of a three-element slice).  In the second
run no call fails, but `UpdatePriority("d", 3)` returns `nil` and leaves
`CurrentPriority("d") = (1, true)`: `heapDown(0)` took slot 3, a stale copy of "d" that is
not below the size 3, for the smallest child and exchanged the root with it. -/
theorem C14_increase_degree_three_fails :
    (∃ q, insertAll (New 3 0) [(some "a", 0), (some "b", 0), (some "c", 0)] = .ok q ∧
      WellFormed q ∧ q.heapDegree = 3 ∧ q.Contains (some "a") = true ∧
      q.CurrentPriority (some "a") = .ok (0, true)) ∧
    (do
      let q ← insertAll (New 3 0) [(some "a", 0), (some "b", 0), (some "c", 0)]
      let r ← q.UpdatePriority (some "a") 1
      pure r.1) = .error .indexOutOfRange ∧
    (do
      let q ← run (New 3 0)
        [Op.insert (some "a") 0, Op.insert (some "b") 5, Op.insert (some "c") 6,
          Op.insert (some "d") 1, Op.pop]
      let c0 ← q.CurrentPriority (some "d")
      let r ← q.UpdatePriority (some "d") 3
      let c1 ← r.2.CurrentPriority (some "d")
      pure (q.size, c0, r.1, c1)) = .ok (3, (1, true), none, (1, true)) := by
  refine ⟨?_, by decide!, by decide!⟩
  have hnd : ([(some "a", (0 : Int)), (some "b", 0), (some "c", 0)].map Prod.fst).Nodup := by
    decide
  obtain ⟨q, hq, e1, e2, e3, e4, e5, e6⟩ :=
    insertAll_spec [(some "a", (0 : Int)), (some "b", 0), (some "c", 0)]
      (New 3 0 : MinPQ (Option String)) [] (by decide) (by decide) rfl (HeapOrder_New 3 0)
      (IdxOK_New 3 0)
      (Tracks_New 3 0) hnd (fun x _ => lastAssigned_nil x.1)
  rw [List.nil_append] at e6
  have hs : Stored q { val := some "a", priority := 0 } :=
    (e6 _).2 (lastAssigned_of_mem_nodup _ hnd (some "a") 0 (by decide))
  exact ⟨q, hq, (WellFormed_iff q).2 ⟨by omega, e4, e5⟩, e1,
    (Contains_iff_stored q e5 (some "a")).2 ⟨_, hs, rfl⟩, CurrentPriority_of_stored q e5 _ hs⟩

/-- Claim C16 (sift-down considers only live children, every `d ≥ 2`): with branching
factor 3.  First run: after three inserts the size and the length are 3, the first child
of slot 0 is slot 1, and `heapDown(0)`, called as `UpdatePriority("a", 1)` calls it, fails
with an index out of range: it reads slot 3.  Second run: the size is 3 and the length 4,
and `heapDown(0)`, called as `UpdatePriority("d", 3)` calls it, exchanges slot 0 with
slot 3, which is not below the size: the priorities in slots 0 to 3 go from 3, 5, 6, 1 to
1, 5, 6, 3. -/
theorem C16_sift_down_reads_past_size :
    (do
      let q ← insertAll (New 3 0) [(some "a", 0), (some "b", 0), (some "c", 0)]
      pure (q.size, q.heap.length, q.firstChild 0)) = .ok (3, 3, 1) ∧
    (do
      let q ← insertAll (New 3 0) [(some "a", 0), (some "b", 0), (some "c", 0)]
      let q1 ← heapDown (updatePre q 0 { val := some "a", priority := 0 } 1) 0
      pure q1.size) = .error .indexOutOfRange ∧
    (do
      let q ← run (New 3 0)
        [Op.insert (some "a") 0, Op.insert (some "b") 5, Op.insert (some "c") 6,
          Op.insert (some "d") 1, Op.pop]
      let q0 := updatePre q 0 { val := some "d", priority := 1 } 3
      let q1 ← heapDown q0 0
      pure (q0.size, q0.heap.length,
        q0.heap.map (fun n : node (Option String) => n.priority),
        q1.heap.map (fun n : node (Option String) => n.priority))) =
      .ok (3, 4, [3, 5, 6, 1], [1, 5, 6, 3]) := by
  decide!

/-- Counterexample to C8 as stated: the `2^24 + 2` pairs `(i, priPath i)` have pairwise
distinct values and the 24 updates of `raisePath` are on inserted values.  Inserting the
pairs into `New(2, 0)` and performing the updates returns, every update returning `nil`;
the state then holds priority 5 in slot `2^24 + 1`, which `heapUp` compared with slot
`2^23 - 1` when it was inserted, while every other priority is 7 or 10.  The `N` calls of
`Pop` return, the first one `(0, 7)` and the second one `(2^24 + 1, 5)`: the priorities
do not come in non-decreasing order. -/
theorem C8_counterexample_large_queue :
    (slotPairs priPath 16777218).length = 2 ^ 24 + 2 ∧
    ((slotPairs priPath 16777218).map Prod.fst).Nodup ∧
    (∀ u ∈ raisePath, u.1 ∈ (slotPairs priPath 16777218).map Prod.fst) ∧
    ∃ q1 errs q2 out q3 rest,
      insertAll (New 2 0) (slotPairs priPath 16777218) = .ok q1 ∧
      updateAll q1 raisePath = .ok (errs, q2) ∧ (∀ e ∈ errs, e = none) ∧
      popN q2 (slotPairs priPath 16777218).length = .ok (out, q3) ∧
      out = (0, 7) :: (16777217, 5) :: rest ∧
      ¬ (out.map Prod.snd).Pairwise (· ≤ ·) := by
  refine ⟨by rw [slotPairs_length]; decide, slotPairs_nodup _ _, ?_, ?_⟩
  · intro u hu
    have hlt : ∀ w ∈ raisePath, w.1 < 16777218 := by decide
    have e : (slotPairs priPath 16777218).map Prod.fst = List.range 16777218 := by
      unfold slotPairs
      rw [List.map_map]
      have : (Prod.fst ∘ fun i => (i, priPath i)) = id := by
        funext i
        rfl
      rw [this, List.map_id]
    rw [e, List.mem_range]
    exact hlt u hu
  · obtain ⟨p1, p2, hp1, _, hp2, hs2, _⟩ := raised_pops
    obtain ⟨rest, q3, hrest⟩ := popN_safe 16777216 p2 hs2
    refine ⟨_, _, _, (0, 7) :: (16777217, 5) :: rest, q3, rest, raised_run.1, raised_run.2,
      ?_, ?_, rfl, ?_⟩
    · intro e he
      obtain ⟨_, _, h⟩ := List.mem_map.mp he
      exact h.symm
    · rw [slotPairs_length]
      exact popN_two _ p1 p2 q3 _ _ rest 16777216 hp1 hp2 hrest
    · intro h
      rw [List.map_cons, List.map_cons, List.pairwise_cons] at h
      have := h.1 5 (List.mem_cons_self _ _)
      omega

/-- Counterexample to C9 as stated: the state `slotQueue (setPris priPath raisePath)
(2^24 + 2)` is reached from `New(2, 0)` by `2^24 + 2` inserts, each of a value not
contained at the time, and 24 updates; calling `Pop` until `Empty()` is true returns, and
the first two priorities returned are 7 and 5. -/
theorem C9_counterexample_large_queue :
    ∃ q : MinPQ Nat, Reachable 2 0 q ∧ q.Size = 2 ^ 24 + 2 ∧
      ∃ out rest, drain q = .ok out ∧ out = (0, 7) :: (16777217, 5) :: rest ∧
        ¬ (out.map Prod.snd).Pairwise (· ≤ ·) := by
  obtain ⟨p1, p2, hp1, hs1, hp2, hs2, hsz2⟩ := raised_pops
  obtain ⟨rest, hrest⟩ := drainAux_safe 16777216 p2 hs2 hsz2
  refine ⟨_, raised_reachable, by show 16777218 = 2 ^ 24 + 2; decide,
    (0, 7) :: (16777217, 5) :: rest, rest, ?_, rfl, ?_⟩
  · have hne0 : (slotQueue (setPris priPath raisePath) 16777218).Empty = false := by
      show (16777218 == 0) = false
      decide
    have hne1 : p1.Empty = false := by
      unfold MinPQ.Empty
      rw [hs1]
      decide
    exact drainAux_two _ p1 p2 _ _ rest 16777216 hne0 hp1 hne1 hp2 hrest
  · intro h
    rw [List.map_cons, List.map_cons, List.pairwise_cons] at h
    have := h.1 5 (List.mem_cons_self _ _)
    omega

/-- C20 (code defect): the float32 computation of `parent` is not `floor((i-1)/d)` for
every slot.  With `d = 2` and `i = 2^24 + 1 = 16777217` the conversion `float32(i)`
rounds to `16777216`, the subtraction gives `16777215` and the quotient `8388607.5`
truncates to `8388607`, while `floor((i-1)/d) = 8388608`; so `parent(firstChild(j) + 0)`
is not `j` for `j = 8388608`.  For degrees and slot numbers up to `2^24` the computation
is exact: `parent(i) = floor((i-1)/d)` and `parent(firstChild(j) + k) = j` for `k < d`. -/
theorem C20_float_parent_inexact :
    (New 2 0 : MinPQ Nat).parent 16777217 = 8388607 ∧
    (New 2 0 : MinPQ Nat).floorParent 16777217 = 8388608 ∧
    (New 2 0 : MinPQ Nat).firstChild 8388608 + 0 = 16777217 ∧
    (New 2 0 : MinPQ Nat).parent ((New 2 0 : MinPQ Nat).firstChild 8388608 + 0)
      ≠ 8388608 ∧
    (∀ (q : MinPQ V) (i : Nat), 2 ≤ q.heapDegree → q.heapDegree ≤ 2 ^ 24 → 1 ≤ i →
      i ≤ 2 ^ 24 → q.parent i = (i - 1) / q.heapDegree) ∧
    (∀ (q : MinPQ V) (j k : Nat), 2 ≤ q.heapDegree → q.heapDegree ≤ 2 ^ 24 →
      k < q.heapDegree → q.firstChild j + k ≤ 2 ^ 24 →
      q.parent (q.firstChild j + k) = j) := by
  refine ⟨by decide!, by decide!, by decide!, by decide!, ?_, ?_⟩
  · intro q i hd hd2 _ hi
    have _h := hd2
    rw [parent_eq_floorParent q i (by omega) hi]
    rfl
  · intro q j k hd hd2 hk hle
    have _h := hd2
    rw [parent_eq_floorParent q _ (by omega) hle]
    unfold MinPQ.floorParent MinPQ.firstChild
    have : j * q.heapDegree + 1 + k - 1 = k + q.heapDegree * j := by
      rw [Nat.mul_comm]; omega
    rw [this, Nat.add_mul_div_left _ _ (by omega : 0 < q.heapDegree), Nat.div_eq_of_lt hk]
    omega

/-- C20, at a concrete input: in a ternary queue slot 7 has parent 2, and the third child
of slot 2 is slot 9 whose parent is 2. -/
theorem C20_float_parent_inexact_witness :
    (New 3 0 : MinPQ Nat).parent 7 = (7 - 1) / 3 ∧
    (New 3 0 : MinPQ Nat).parent ((New 3 0 : MinPQ Nat).firstChild 2 + 2) = 2 :=
  ⟨C20_float_parent_inexact.2.2.2.2.1 (New 3 0 : MinPQ Nat) 7 (by decide) (by decide)
      (by decide) (by decide),
    C20_float_parent_inexact.2.2.2.2.2 (New 3 0 : MinPQ Nat) 2 2 (by decide) (by decide)
      (by decide) (by decide)⟩

end Claims

end minpq
